import Mathlib

/-!
Verification of the DendroPy split-encoding, taxon-namespace and tree-I/O
subsystems against their natural-language specification.

The repository excerpt contains the test suites exercising these components
(test_paup.py, test_tree_io.py); the implementation modules themselves
(dendropy.calculate.treesplit, dendropy.utility.container,
dendropy.interop.paup, the NEWICK reader/writer, TaxonNamespace and the
split-distribution accumulator) are not part of the excerpt, so each is
modelled here from the specification, with the orientation conventions pinned
down by the tests that are present.
-/

namespace DendroPy

/-- Character used for an in-group taxon position in a split string. -/
def inGroupChar : Char := Char.ofNat 42

/-- Character used for an out-group taxon position in a split string. -/
def outGroupChar : Char := Char.ofNat 46

/-- Modelled from the spec: `treesplit.split_as_string(mask, width, symbol1,
symbol2)` (module not in the excerpt).  Renders a bitmask as one character per
taxon position: `symbol1` for a clear bit, `symbol2` for a set bit.  Following
the binary rendering fixed by the tests (which reverse this string before
feeding it to the decoder), the highest-indexed bit is emitted first and bit 0
(the lowest-indexed taxon) is emitted last. -/
def split_as_string (mask : Nat) (width : Nat) (symbol1 symbol2 : Char) : List Char :=
  match width with
  | 0 => []
  | w + 1 => (if mask.testBit w then symbol2 else symbol1) :: split_as_string mask w symbol1 symbol2

namespace NormalizedBitmaskDict

/-- Modelled from the spec: `container.NormalizedBitmaskDict.normalize(key,
mask, lowest_relevant_bit)` (module not in the excerpt).  The canonical form
of a split bitmask is whichever of the key or its complement within the fill
mask has the reference bit (lowest relevant bit) set. -/
def normalize (key mask lowest_relevant_bit : Nat) : Nat :=
  if key &&& lowest_relevant_bit ≠ 0 then key &&& mask
  else mask ^^^ (key &&& mask)

end NormalizedBitmaskDict

/-- Numeric value of one split-string character: the in-group symbol denotes a
set bit, any other symbol a clear bit. -/
def groupCharBit (c : Char) : Nat :=
  if c = inGroupChar then 1 else 0

/-- Raw (unnormalized) bitmask of a group string as the PAUP service decodes
it: the first character gives bit 0 (the lowest-indexed taxon), each later
character the next bit up. -/
def parse_group_raw : List Char → Nat
  | [] => 0
  | c :: rest => groupCharBit c + 2 * parse_group_raw rest

/-- Modelled from the spec: `PaupService.parse_group_to_mask(string_repr,
normalized)` (module not in the excerpt).  Reconstructs the bitmask of a
per-taxon group string, applying the canonical normalization over the string's
width when `normalized` is true. -/
def parse_group_to_mask (s : List Char) (normalized : Bool) : Nat :=
  let raw := parse_group_raw s
  if normalized then NormalizedBitmaskDict.normalize raw (2 ^ s.length - 1) 1 else raw

/-- Modelled from the spec: the ad hoc module-level helper
`paup.paup_group_to_mask(group_string, normalized)` (module not in the
excerpt).  Reverses the group string and accumulates it as a binary numeral
(in-group symbol = digit 1), then applies the same width-relative
normalization when requested. -/
def paup_group_to_mask (s : List Char) (normalized : Bool) : Nat :=
  let raw := s.reverse.foldl (fun acc c => 2 * acc + groupCharBit c) 0
  if normalized then NormalizedBitmaskDict.normalize raw (2 ^ s.length - 1) 1 else raw

theorem split_as_string_length (mask width : Nat) (s1 s2 : Char) :
    (split_as_string mask width s1 s2).length = width := by
  induction width with
  | zero => rfl
  | succ w ih => simp [split_as_string, ih]

theorem parse_group_raw_append (xs : List Char) (c : Char) :
    parse_group_raw (xs ++ [c]) = parse_group_raw xs + groupCharBit c * 2 ^ xs.length := by
  induction xs with
  | nil => simp [parse_group_raw]
  | cons x xs ih =>
      simp only [List.cons_append, parse_group_raw, List.length_cons, List.append_eq]
      rw [ih]
      ring

/-- Decoding the reversed rendering of a mask recovers the mask modulo the
rendered width. -/
theorem parse_raw_reverse_split (width : Nat) (mask : Nat) :
    parse_group_raw (split_as_string mask width outGroupChar inGroupChar).reverse
      = mask % 2 ^ width := by
  induction width with
  | zero => simp [split_as_string, parse_group_raw, Nat.mod_one]
  | succ w ih =>
      have hne : outGroupChar ≠ inGroupChar := by decide
      have hbit : groupCharBit (if mask.testBit w then inGroupChar else outGroupChar)
          = if mask.testBit w then 1 else 0 := by
        by_cases h : mask.testBit w <;> simp [h, groupCharBit, hne]
      have hlen : (split_as_string mask w outGroupChar inGroupChar).reverse.length = w := by
        simp [split_as_string_length]
      calc parse_group_raw (split_as_string mask (w + 1) outGroupChar inGroupChar).reverse
          = parse_group_raw ((split_as_string mask w outGroupChar inGroupChar).reverse
              ++ [if mask.testBit w then inGroupChar else outGroupChar]) := by
            simp [split_as_string]
        _ = mask % 2 ^ w + (if mask.testBit w then 1 else 0) * 2 ^ w := by
            rw [parse_group_raw_append, ih, hlen, hbit]
        _ = mask % 2 ^ (w + 1) := by
            have hmm : mask % (2 ^ w * 2) = mask % 2 ^ w + 2 ^ w * (mask / 2 ^ w % 2) :=
              Nat.mod_mul
            have htb : mask.testBit w = decide (mask / 2 ^ w % 2 = 1) :=
              Nat.testBit_to_div_mod
            have h2 : mask / 2 ^ w % 2 = 0 ∨ mask / 2 ^ w % 2 = 1 :=
              Nat.mod_two_eq_zero_or_one _
            rw [pow_succ]
            cases h2 with
            | inl h0 => rw [hmm, h0]; simp [htb, h0]
            | inr h1 => rw [hmm, h1]; simp [htb, h1]

theorem normalize_one_cond (m M : Nat) :
    NormalizedBitmaskDict.normalize m M 1
      = if m.testBit 0 then m &&& M else M ^^^ (m &&& M) := by
  unfold NormalizedBitmaskDict.normalize
  rw [Nat.and_one_is_mod]
  rcases Nat.mod_two_eq_zero_or_one m with h | h
  · simp [h, Nat.testBit_zero]
  · simp [h, Nat.testBit_zero]

theorem normalize_lt_spec (n m : Nat) (hm : m < 2 ^ n) :
    NormalizedBitmaskDict.normalize m (2 ^ n - 1) 1
      = if m.testBit 0 then m else (2 ^ n - 1) ^^^ m := by
  rw [normalize_one_cond, Nat.and_pow_two_sub_one_of_lt_two_pow hm]

theorem xor_mask_testBit_zero (n m : Nat) (hn : 0 < n) :
    ((2 ^ n - 1) ^^^ m).testBit 0 = !(m.testBit 0) := by
  rw [Nat.testBit_xor, Nat.testBit_two_pow_sub_one]
  simp [hn]

theorem xor_mask_cancel (M m : Nat) : M ^^^ (M ^^^ m) = m := by
  rw [← Nat.xor_assoc, Nat.xor_self, Nat.zero_xor]

theorem two_pow_sub_one_lt (n : Nat) : 2 ^ n - 1 < 2 ^ n :=
  Nat.sub_lt (Nat.two_pow_pos n) Nat.one_pos

/-- C4: the canonical form of a bitmask over `n` bits is whichever of the mask
or its complement within `n` bits has bit 0 (the lowest-indexed taxon's bit)
set; in particular `NormalizedBitmaskDict.normalize(m, 2^n - 1, 1)` always
returns a value whose bit 0 is set. -/
theorem claim_C4_normalize_reference_bit (n m : Nat) (hn : 0 < n) :
    (NormalizedBitmaskDict.normalize m (2 ^ n - 1) 1).testBit 0 = true
    ∧ (m < 2 ^ n →
        NormalizedBitmaskDict.normalize m (2 ^ n - 1) 1
          = if m.testBit 0 then m else (2 ^ n - 1) ^^^ m) := by
  constructor
  · rw [normalize_one_cond]
    by_cases h : m.testBit 0 = true
    · rw [if_pos h, Nat.testBit_and, h, Nat.testBit_two_pow_sub_one]
      simp [hn]
    · have h0 : m.testBit 0 = false := by simpa using h
      rw [if_neg (by simp [h0]), Nat.testBit_xor, Nat.testBit_and, h0,
        Nat.testBit_two_pow_sub_one]
      simp [hn]
  · intro hm
    exact normalize_lt_spec n m hm

/-- C4 witness: instantiation at `n = 4`, `m = 6`. -/
theorem claim_C4_normalize_reference_bit_witness :
    (NormalizedBitmaskDict.normalize 6 (2 ^ 4 - 1) 1).testBit 0 = true
    ∧ (6 < 2 ^ 4 →
        NormalizedBitmaskDict.normalize 6 (2 ^ 4 - 1) 1
          = if (6 : Nat).testBit 0 then 6 else (2 ^ 4 - 1) ^^^ 6) :=
  claim_C4_normalize_reference_bit 4 6 (by decide)

/-- C5: normalization is idempotent and invariant under complement within the
`n`-bit width: `normalize (normalize m) = normalize m` and
`normalize m = normalize (complement m)`. -/
theorem claim_C5_normalize_idempotent_complement (n m : Nat) (hn : 0 < n) (hm : m < 2 ^ n) :
    NormalizedBitmaskDict.normalize
        (NormalizedBitmaskDict.normalize m (2 ^ n - 1) 1) (2 ^ n - 1) 1
      = NormalizedBitmaskDict.normalize m (2 ^ n - 1) 1
    ∧ NormalizedBitmaskDict.normalize m (2 ^ n - 1) 1
      = NormalizedBitmaskDict.normalize ((2 ^ n - 1) ^^^ m) (2 ^ n - 1) 1 := by
  have hMlt : 2 ^ n - 1 < 2 ^ n := two_pow_sub_one_lt n
  have hxlt : (2 ^ n - 1) ^^^ m < 2 ^ n := Nat.xor_lt_two_pow hMlt hm
  have hxbit : ((2 ^ n - 1) ^^^ m).testBit 0 = !(m.testBit 0) := xor_mask_testBit_zero n m hn
  by_cases h : m.testBit 0
  · have hnm : NormalizedBitmaskDict.normalize m (2 ^ n - 1) 1 = m := by
      rw [normalize_lt_spec n m hm, if_pos h]
    have hnc : NormalizedBitmaskDict.normalize ((2 ^ n - 1) ^^^ m) (2 ^ n - 1) 1 = m := by
      rw [normalize_lt_spec n _ hxlt, hxbit, h]
      simp [xor_mask_cancel]
    refine ⟨?_, ?_⟩
    · rw [hnm, hnm]
    · rw [hnm, hnc]
  · have hnm : NormalizedBitmaskDict.normalize m (2 ^ n - 1) 1 = (2 ^ n - 1) ^^^ m := by
      rw [normalize_lt_spec n m hm, if_neg h]
    have hnc : NormalizedBitmaskDict.normalize ((2 ^ n - 1) ^^^ m) (2 ^ n - 1) 1
        = (2 ^ n - 1) ^^^ m := by
      rw [normalize_lt_spec n _ hxlt, hxbit]
      simp [h]
    refine ⟨?_, ?_⟩
    · rw [hnm]
      exact hnc
    · rw [hnm, hnc]

/-- C5 witness: instantiation at `n = 8`, `m = 6`. -/
theorem claim_C5_normalize_idempotent_complement_witness :
    NormalizedBitmaskDict.normalize
        (NormalizedBitmaskDict.normalize 6 (2 ^ 8 - 1) 1) (2 ^ 8 - 1) 1
      = NormalizedBitmaskDict.normalize 6 (2 ^ 8 - 1) 1
    ∧ NormalizedBitmaskDict.normalize 6 (2 ^ 8 - 1) 1
      = NormalizedBitmaskDict.normalize ((2 ^ 8 - 1) ^^^ 6) (2 ^ 8 - 1) 1 :=
  claim_C5_normalize_idempotent_complement 8 6 (by decide) (by decide)

theorem foldl_reverse_parse (s : List Char) :
    ∀ a : Nat, s.reverse.foldl (fun acc c => 2 * acc + groupCharBit c) a
      = a * 2 ^ s.length + parse_group_raw s := by
  induction s with
  | nil => intro a; simp [parse_group_raw]
  | cons c rest ih =>
      intro a
      simp only [List.reverse_cons, List.foldl_append, List.foldl_cons, List.foldl_nil,
        List.length_cons, parse_group_raw, ih]
      ring

/-- C6: the two normalization paths agree: the ad hoc `paup_group_to_mask`
helper computes the same key as the PAUP service's `parse_group_to_mask` for
every group string, and the normalized service parse equals
`NormalizedBitmaskDict.normalize` applied to the unnormalized mask. -/
theorem claim_C6_normalization_paths_agree :
    (∀ (s : List Char) (normalized : Bool),
        paup_group_to_mask s normalized = parse_group_to_mask s normalized)
    ∧ (∀ s : List Char,
        parse_group_to_mask s true
          = NormalizedBitmaskDict.normalize (parse_group_to_mask s false)
              (2 ^ s.length - 1) 1) := by
  have hraw : ∀ s : List Char,
      s.reverse.foldl (fun acc c => 2 * acc + groupCharBit c) 0 = parse_group_raw s := by
    intro s
    rw [foldl_reverse_parse s 0]
    simp
  constructor
  · intro s normalized
    simp only [paup_group_to_mask, parse_group_to_mask, hraw s]
  · intro s
    simp [parse_group_to_mask]

theorem parse_reverse_split_id (n m : Nat) (hm : m < 2 ^ n) :
    parse_group_to_mask (split_as_string m n outGroupChar inGroupChar).reverse false = m := by
  have h := parse_raw_reverse_split n m
  rw [Nat.mod_eq_of_lt hm] at h
  simpa [parse_group_to_mask] using h

/-- C3 counterexample: without reversing the rendered string the composition
is not the identity; at `n = 2`, `m = 1` the decode of the direct rendering
yields 2, not 1. -/
theorem claim_C3_counterexample :
    parse_group_to_mask (split_as_string 1 2 outGroupChar inGroupChar) false ≠ 1 := by
  decide

/-- C3 (amended): for every taxon count `n` and mask `m < 2^n`, decoding the
character-reversed rendering recovers the mask:
`parse_group_to_mask(reverse(split_as_string(m, n)), normalized=False) = m`. -/
theorem claim_C3_bitmask_inverse_amended (n m : Nat) (hm : m < 2 ^ n) :
    parse_group_to_mask (split_as_string m n outGroupChar inGroupChar).reverse false = m :=
  parse_reverse_split_id n m hm

/-- C3 witness: instantiation at `n = 3`, `m = 5`. -/
theorem claim_C3_bitmask_inverse_amended_witness :
    parse_group_to_mask (split_as_string 5 3 outGroupChar inGroupChar).reverse false = 5 :=
  claim_C3_bitmask_inverse_amended 3 5 (by decide)

/-- C10: for every 8-bit mask below 0xFF the decoder returns the mask exactly
on the character-reversed rendering, while the unreversed composition is not
the identity: the decoder reads the first group-string character as bit 0 but
the renderer emits bit 0 last. -/
theorem claim_C10_reversed_orientation :
    (∀ m : Nat, m < 0xFF →
        parse_group_to_mask (split_as_string m 8 outGroupChar inGroupChar).reverse false = m)
    ∧ (∃ m : Nat, m < 0xFF ∧
        parse_group_to_mask (split_as_string m 8 outGroupChar inGroupChar) false ≠ m) := by
  constructor
  · intro m hm
    exact parse_reverse_split_id 8 m (Nat.lt_trans hm (by norm_num))
  · exact ⟨1, by decide, by decide⟩

/-- C10 witness: instantiation at `m = 6`. -/
theorem claim_C10_reversed_orientation_witness :
    parse_group_to_mask (split_as_string 6 8 outGroupChar inGroupChar).reverse false = 6 :=
  claim_C10_reversed_orientation.1 6 (by decide)

/-- Modelled from the spec: `TaxonNamespace` (module not in the excerpt), the
ordered, deduplicated registry of taxon labels; the position of a label in the
list is the taxon's bit-position assignment.  Labels are modelled as character
lists. -/
structure TaxonNamespace where
  labels : List (List Char)
deriving DecidableEq

/-- Registration over the underlying label list: look the label up front to
back; when present, return the list unchanged together with the existing
taxon's position; when absent, append the label at the end. -/
def require_taxon_labels : List (List Char) → List Char → List (List Char) × Nat
  | [], lbl => ([lbl], 0)
  | x :: xs, lbl =>
      if x = lbl then (x :: xs, 0)
      else
        let p := require_taxon_labels xs lbl
        (x :: p.1, p.2 + 1)

/-- Modelled from the spec: taxon registration (lazy population).  The first
time a label is encountered it is registered into the `TaxonNamespace`;
subsequent encounters resolve to the same `Taxon`, identified by its stable
bit position. -/
def require_taxon (tns : TaxonNamespace) (label : List Char) : TaxonNamespace × Nat :=
  let p := require_taxon_labels tns.labels label
  (⟨p.1⟩, p.2)

theorem require_taxon_labels_mem (ls : List (List Char)) (lbl : List Char) (h : lbl ∈ ls) :
    (require_taxon_labels ls lbl).1 = ls
    ∧ ls.get? (require_taxon_labels ls lbl).2 = some lbl := by
  induction ls with
  | nil => cases h
  | cons x xs ih =>
      by_cases hx : x = lbl
      · subst hx
        simp [require_taxon_labels]
      · have hmem : lbl ∈ xs := by
          cases h with
          | head => exact absurd rfl hx
          | tail _ h2 => exact h2
        have ⟨ih1, ih2⟩ := ih hmem
        simp [require_taxon_labels, hx, ih1]
        simpa using ih2

theorem require_taxon_labels_append (ls : List (List Char)) (lbl : List Char) :
    ∃ tail, (require_taxon_labels ls lbl).1 = ls ++ tail := by
  induction ls with
  | nil => exact ⟨[lbl], rfl⟩
  | cons x xs ih =>
      by_cases hx : x = lbl
      · exact ⟨[], by simp [require_taxon_labels, hx]⟩
      · obtain ⟨tail, htail⟩ := ih
        exact ⟨tail, by simp [require_taxon_labels, hx, htail]⟩

/-- C9: registering a label that is already present returns the identical
taxon (same bit position, pointing at the existing entry) and leaves the
namespace unchanged; and registration only ever appends, never reorders, so
every existing taxon keeps its bit position. -/
theorem claim_C9_namespace_stability (tns : TaxonNamespace) (label : List Char) :
    (label ∈ tns.labels →
        (require_taxon tns label).1 = tns
        ∧ tns.labels.get? (require_taxon tns label).2 = some label)
    ∧ ∃ tail, (require_taxon tns label).1.labels = tns.labels ++ tail := by
  constructor
  · intro h
    have ⟨h1, h2⟩ := require_taxon_labels_mem tns.labels label h
    cases tns
    exact ⟨by simp [require_taxon, h1], h2⟩
  · obtain ⟨tail, htail⟩ := require_taxon_labels_append tns.labels label
    exact ⟨tail, htail⟩

/-- C9 witness: re-registering the label `A` in the namespace `[A, B]` leaves
the namespace unchanged and returns the existing entry. -/
theorem claim_C9_namespace_stability_witness :
    (require_taxon ⟨[['A'], ['B']]⟩ ['A']).1 = (⟨[['A'], ['B']]⟩ : TaxonNamespace)
    ∧ ([['A'], ['B']] : List (List Char)).get?
        (require_taxon ⟨[['A'], ['B']]⟩ ['A']).2 = some ['A'] :=
  (claim_C9_namespace_stability ⟨[['A'], ['B']]⟩ ['A']).1 (by decide)

/-- Modelled from the spec: `SplitDistribution` (module not in the excerpt),
the aggregate of per-bitmask counts over an accumulated sample of trees. -/
structure SplitDistribution where
  split_counts : Nat → Nat
  total_trees_counted : Nat

/-- Distribution with no trees accumulated. -/
def SplitDistribution.empty : SplitDistribution :=
  ⟨fun _ => 0, 0⟩

/-- Modelled from the spec: `accumulate(tree)` increments, for each split
bitmask of the tree (already normalized by the encoder when the tree is
unrooted, so that equivalent splits collide into one key), the counter keyed
by that bitmask, and counts one more tree.  A tree is abstracted by its set of
split bitmasks. -/
def accumulate (sd : SplitDistribution) (tree_splits : Finset Nat) : SplitDistribution :=
  ⟨fun s => sd.split_counts s + (if s ∈ tree_splits then 1 else 0),
   sd.total_trees_counted + 1⟩

/-- Modelled from the spec: `split_frequencies` divides each counter by
`total_trees_counted` (exact rational division in the model). -/
def split_frequencies (sd : SplitDistribution) (s : Nat) : ℚ :=
  (sd.split_counts s : ℚ) / (sd.total_trees_counted : ℚ)

/-- Distribution built by accumulating a sample of trees, one by one, into the
empty distribution. -/
def build_split_distribution (trees : List (Finset Nat)) : SplitDistribution :=
  trees.foldl accumulate SplitDistribution.empty

theorem build_split_distribution_aux (trees : List (Finset Nat)) :
    ∀ sd : SplitDistribution,
      (trees.foldl accumulate sd).total_trees_counted = sd.total_trees_counted + trees.length
      ∧ ∀ s, (trees.foldl accumulate sd).split_counts s ≤ sd.split_counts s + trees.length := by
  induction trees with
  | nil => intro sd; simp
  | cons t ts ih =>
      intro sd
      have ⟨ih1, ih2⟩ := ih (accumulate sd t)
      constructor
      · rw [List.foldl_cons, ih1]
        simp [accumulate]
        omega
      · intro s
        have h2 := ih2 s
        rw [List.foldl_cons]
        simp only [accumulate, List.length_cons] at h2 ⊢
        by_cases hmem : s ∈ t
        · simp [hmem] at h2
          omega
        · simp [hmem] at h2
          omega

/-- C7: in a split distribution built by accumulating trees, every per-bitmask
count is at most `total_trees_counted`, the total equals the number of trees
accumulated, and `split_frequencies` maps each bitmask to its count divided by
`total_trees_counted`. -/
theorem claim_C7_frequency_bound (trees : List (Finset Nat)) (s : Nat) :
    (build_split_distribution trees).split_counts s
        ≤ (build_split_distribution trees).total_trees_counted
    ∧ (build_split_distribution trees).total_trees_counted = trees.length
    ∧ split_frequencies (build_split_distribution trees) s
        = ((build_split_distribution trees).split_counts s : ℚ)
            / ((build_split_distribution trees).total_trees_counted : ℚ) := by
  have ⟨h1, h2⟩ := build_split_distribution_aux trees SplitDistribution.empty
  have htot : (build_split_distribution trees).total_trees_counted = trees.length := by
    simpa [build_split_distribution, SplitDistribution.empty] using h1
  refine ⟨?_, htot, rfl⟩
  have := h2 s
  simp only [SplitDistribution.empty] at this
  rw [build_split_distribution, htot] at *
  simpa [build_split_distribution] using this


/-- Modelled from the spec: `ParseError` (reader modules not in the excerpt):
malformed grammar, unexpected token or unterminated structure, fatal to the
current parse; `labelMismatch` models the spec's LabelMismatchError, raised
when a referenced token (TRANSLATE entry, NeXML id-ref) does not resolve. -/
inductive ParseError where
  | unexpectedEnd : ParseError
  | unexpectedToken : ParseError
  | outOfFuel : ParseError
  | labelMismatch : ParseError
deriving DecidableEq

/-- Single-quote character, the NEWICK label quote. -/
def quoteChar : Char := Char.ofNat 39

/-- Double-quote character, the XML attribute-value delimiter. -/
def dquoteChar : Char := Char.ofNat 34

/-- Space character. -/
def spaceChar : Char := Char.ofNat 32

/-- Whitespace characters the readers may skip between tokens. -/
def isWS (c : Char) : Bool :=
  c = spaceChar || c = Char.ofNat 9 || c = Char.ofNat 10 || c = Char.ofNat 13

/-- Skip leading whitespace. -/
def skipWS (l : List Char) : List Char := l.dropWhile isWS

/-- Characters allowed in an unquoted NEWICK label. -/
def isLabelChar (c : Char) : Bool := c.isAlphanum

/-- Decimal digit characters. -/
def isDigitChar (c : Char) : Bool := c.isDigit

/-- Canonical integer-part digits: leading zeros dropped, a lone zero kept. -/
def stripLead (l : List Char) : List Char :=
  match l.dropWhile (fun c => c = '0') with
  | [] => ['0']
  | r => r

/-- Canonical fraction digits: trailing zeros dropped (possibly leaving
nothing). -/
def stripTrail (l : List Char) : List Char :=
  (l.reverse.dropWhile (fun c => c = '0')).reverse

/-- Modelled from the spec: an edge length held in the canonical numeric
format the writers render (integer digits without leading zeros, fraction
digits without trailing zeros) so that no trailing-zero drift can occur
across round trips. -/
structure EdgeLen where
  ip : List Char
  fp : List Char
deriving DecidableEq

/-- Well-formedness of a canonical edge length. -/
def wfLen (el : EdgeLen) : Bool :=
  el.ip.all isDigitChar && (stripLead el.ip == el.ip)
    && el.fp.all isDigitChar && (stripTrail el.fp == el.fp)

/-- Lists whose head (when any) fails the predicate: a read of
`takeWhile`-shape must stop here. -/
def headNot (p : Char → Bool) : List Char → Prop
  | [] => True
  | c :: _ => p c = false

theorem takeWhile_append_stop (p : Char → Bool) (xs ys : List Char)
    (h1 : xs.all p = true) (h2 : headNot p ys) :
    (xs ++ ys).takeWhile p = xs ∧ (xs ++ ys).dropWhile p = ys := by
  have hall : ∀ c ∈ xs, p c := by simpa [List.all_eq_true] using h1
  constructor
  · rw [List.takeWhile_append_of_pos hall]
    cases ys with
    | nil => simp
    | cons c cs =>
        have hc : p c = false := h2
        simp [List.takeWhile_cons, hc]
  · rw [List.dropWhile_append_of_pos hall]
    cases ys with
    | nil => simp
    | cons c cs =>
        have hc : p c = false := h2
        simp [List.dropWhile_cons, hc]

theorem skipWS_eq (l : List Char) (h : headNot isWS l) : skipWS l = l := by
  cases l with
  | nil => rfl
  | cons c cs =>
      have hc : isWS c = false := h
      simp [skipWS, List.dropWhile_cons, hc]

theorem dropWhile_dropWhile (p : Char → Bool) (l : List Char) :
    (l.dropWhile p).dropWhile p = l.dropWhile p := by
  induction l with
  | nil => rfl
  | cons c cs ih =>
      by_cases hc : p c = true
      · simp [List.dropWhile_cons, hc, ih]
      · have hc2 : p c = false := by simpa using hc
        simp [List.dropWhile_cons, hc2]

theorem all_dropWhile (p q : Char → Bool) (l : List Char) (h : l.all q = true) :
    (l.dropWhile p).all q = true := by
  induction l with
  | nil => rfl
  | cons c cs ih =>
      simp only [List.all_cons, Bool.and_eq_true] at h
      by_cases hc : p c = true
      · simp [List.dropWhile_cons, hc, ih h.2]
      · have hc2 : p c = false := by simpa using hc
        simp [List.dropWhile_cons, hc2, h.1, h.2]

theorem stripLead_ne_nil (l : List Char) : stripLead l ≠ [] := by
  unfold stripLead
  cases h : l.dropWhile (fun c => c = '0') with
  | nil => simp
  | cons c cs => simp

theorem stripLead_idem (l : List Char) : stripLead (stripLead l) = stripLead l := by
  unfold stripLead
  cases h : l.dropWhile (fun c => c = '0') with
  | nil => simp
  | cons c cs =>
      have hc : ¬c = '0' := by
        have hd := List.head?_dropWhile_not (fun c => decide (c = '0')) l
        rw [h] at hd
        simpa using hd
      have : (c :: cs).dropWhile (fun c => c = '0') = c :: cs := by
        simp [List.dropWhile_cons, hc]
      simp [this]

theorem stripLead_all_digits (l : List Char) (h : l.all isDigitChar = true) :
    (stripLead l).all isDigitChar = true := by
  unfold stripLead
  cases hd : l.dropWhile (fun c => c = '0') with
  | nil => decide
  | cons c cs =>
      have := all_dropWhile (fun c => c = '0') isDigitChar l h
      rw [hd] at this
      simpa using this

theorem stripTrail_idem (l : List Char) : stripTrail (stripTrail l) = stripTrail l := by
  unfold stripTrail
  rw [List.reverse_reverse, dropWhile_dropWhile]

theorem stripTrail_all_digits (l : List Char) (h : l.all isDigitChar = true) :
    (stripTrail l).all isDigitChar = true := by
  unfold stripTrail
  have h1 : l.reverse.all isDigitChar = true := by simpa [List.all_reverse] using h
  have h2 := all_dropWhile (fun c => c = '0') isDigitChar l.reverse h1
  simpa [List.all_reverse] using h2

theorem wfLen_strip (d1 d2 : List Char) (h1 : d1.all isDigitChar = true)
    (h2 : d2.all isDigitChar = true) :
    wfLen ⟨stripLead d1, stripTrail d2⟩ = true := by
  simp [wfLen, stripLead_all_digits d1 h1, stripTrail_all_digits d2 h2,
    stripLead_idem, stripTrail_idem]

/-- Labels renderable without quoting. -/
def bareOk (l : List Char) : Bool := !l.isEmpty && l.all isLabelChar

/-- Escape a label body for single-quoted rendering: internal quotes are
doubled. -/
def escQ : List Char → List Char
  | [] => []
  | c :: rest => if c = quoteChar then c :: c :: escQ rest else c :: escQ rest

/-- Modelled from the spec: canonical NEWICK label rendering — unquoted when
the label needs no quoting, otherwise single-quoted with doubled internal
quotes, applied consistently. -/
def printLabel (l : List Char) : List Char :=
  if bareOk l then l else quoteChar :: (escQ l ++ [quoteChar])

/-- Rendering of an optional (internal-node) label. -/
def printOptLabel : Option (List Char) → List Char
  | none => []
  | some l => printLabel l

/-- Read the body of a single-quoted label after its opening quote, undoing
the doubled-quote escape; stops after the closing quote. -/
def readQuoted : Nat → List Char → Except ParseError (List Char × List Char)
  | 0, _ => .error .outOfFuel
  | _ + 1, [] => .error .unexpectedEnd
  | fuel + 1, c :: rest =>
      if c = quoteChar then
        match rest with
        | c2 :: rest2 =>
            if c2 = quoteChar then
              match readQuoted fuel rest2 with
              | .error e => .error e
              | .ok (l, r) => .ok (quoteChar :: l, r)
            else .ok ([], rest)
        | [] => .ok ([], [])
      else
        match readQuoted fuel rest with
        | .error e => .error e
        | .ok (l, r) => .ok (c :: l, r)

/-- Read one label at the current position: single-quoted or bare (possibly
empty when no label is present). -/
def parseLabel (input : List Char) : Except ParseError (List Char × List Char) :=
  match input with
  | c :: rest =>
      if c = quoteChar then readQuoted (rest.length + 1) rest
      else .ok (input.takeWhile isLabelChar, input.dropWhile isLabelChar)
  | [] => .ok ([], [])

/-- Continuations at which a label read must stop. -/
def labelStop : List Char → Prop
  | [] => True
  | c :: _ => isLabelChar c = false ∧ c ≠ quoteChar ∧ isWS c = false

theorem readQuoted_escape (l : List Char) :
    ∀ (fuel : Nat) (rest : List Char), (escQ l).length < fuel →
      (rest = [] ∨ ∀ c ∈ rest.head?, c ≠ quoteChar) →
      readQuoted fuel (escQ l ++ quoteChar :: rest) = .ok (l, rest) := by
  induction l with
  | nil =>
      intro fuel rest hf hr
      match fuel, hf with
      | f + 1, _ =>
        simp only [escQ, List.nil_append, readQuoted, if_pos rfl]
        cases rest with
        | nil => rfl
        | cons c2 r2 =>
            have hc2 : ¬(c2 = quoteChar) := by
              cases hr with
              | inl h => cases h
              | inr h => exact h c2 (by simp)
            simp [hc2]
  | cons c cs ih =>
      intro fuel rest hf hr
      by_cases hc : c = quoteChar
      · subst hc
        simp only [escQ, if_pos rfl] at hf ⊢
        match fuel, hf with
        | f + 1, hf =>
          simp only [List.cons_append, readQuoted, if_pos rfl]
          have hrec := ih f rest (by simp at hf ⊢; omega) hr
          simp [hrec]
      · simp only [escQ, if_neg hc] at hf ⊢
        match fuel, hf with
        | f + 1, hf =>
          simp only [List.cons_append, readQuoted, if_neg hc]
          have hrec := ih f rest (by simp at hf ⊢; omega) hr
          simp [hrec]

theorem parseLabel_print (l rest : List Char) (hne : l ≠ [])
    (hstop : labelStop rest) :
    parseLabel (printLabel l ++ rest) = .ok (l, rest) := by
  by_cases hb : bareOk l = true
  · have hall : l.all isLabelChar = true := by
      simp only [bareOk, Bool.and_eq_true] at hb
      exact hb.2
    obtain ⟨c, cs, rfl⟩ : ∃ c cs, l = c :: cs := by
      cases l with
      | nil => exact absurd rfl hne
      | cons c cs => exact ⟨c, cs, rfl⟩
    have hcl : isLabelChar c = true := by
      have := List.all_eq_true.mp hall c (by simp)
      simpa using this
    have hcq : ¬(c = quoteChar) := by
      intro he
      rw [he] at hcl
      exact absurd hcl (by decide)
    have hstop2 : headNot isLabelChar rest := by
      cases rest with
      | nil => trivial
      | cons d ds => exact hstop.1
    have htw := takeWhile_append_stop isLabelChar (c :: cs) rest hall hstop2
    simp only [printLabel, if_pos hb, List.cons_append, parseLabel, if_neg hcq]
    have ht1 : ((c :: cs) ++ rest).takeWhile isLabelChar = c :: cs := htw.1
    have ht2 : ((c :: cs) ++ rest).dropWhile isLabelChar = rest := htw.2
    simp only [List.cons_append] at ht1 ht2
    rw [ht1, ht2]
  · have hb2 : bareOk l = false := by simpa using hb
    have hrest : rest = [] ∨ ∀ c ∈ rest.head?, c ≠ quoteChar := by
      cases rest with
      | nil => exact Or.inl rfl
      | cons d ds =>
          refine Or.inr ?_
          intro c hc
          simp at hc
          subst hc
          exact hstop.2.1
    have hq := readQuoted_escape l ((escQ l ++ quoteChar :: rest).length + 1) rest
      (by simp; omega) hrest
    have harr : printLabel l ++ rest = quoteChar :: (escQ l ++ quoteChar :: rest) := by
      simp [printLabel, hb2]
    rw [harr]
    simp only [parseLabel, if_true]
    simpa using hq

/-- Modelled from the spec: the tri-state rooting flag of a Tree (rooted /
unrooted / unknown), set from the optional NEWICK rooting comment. -/
inductive Rooting where
  | rooted : Rooting
  | unrooted : Rooting
  | unknown : Rooting
deriving DecidableEq

mutual
/-- Modelled from the spec: the Tree/Node/Edge model over the NEWICK grammar
subset: leaves carry a taxon label and an optional edge length; internal nodes
carry an ordered nonempty list of children, an optional label and an optional
edge length. -/
inductive NTree where
  | leaf (label : List Char) (elen : Option EdgeLen) : NTree
  | node (children : NTreeList) (label : Option (List Char)) (elen : Option EdgeLen) : NTree
inductive NTreeList where
  | one (t : NTree) : NTreeList
  | more (t : NTree) (rest : NTreeList) : NTreeList
end

/-- Modelled from the spec: a Tree: a root node plus the tri-state rooting
flag. -/
structure Tree where
  is_rooted : Rooting
  root : NTree

/-- Modelled from the spec: `TreesBlock`, an ordered sequence of trees sharing
one `TaxonNamespace`. -/
structure TreesBlock where
  taxa_block : TaxonNamespace
  tree_list : List Tree

/-- Modelled from the spec: `Dataset`, an ordered sequence of trees blocks. -/
structure Dataset where
  trees_blocks : List TreesBlock

/-- Canonical rendering of an optional edge length: colon then the canonical
decimal digits. -/
def printLen : Option EdgeLen → List Char
  | none => []
  | some el => ':' :: (el.ip ++ (if el.fp.isEmpty then [] else '.' :: el.fp))

mutual
/-- Modelled from the spec: the NEWICK composition of a tree
(`compose_newick`): a leaf renders as its (quoted when necessary) label and
optional `:length` suffix; an internal node as the parenthesized
comma-separated renderings of its children followed by its optional label and
optional `:length` suffix. -/
def compose_newick : NTree → List Char
  | .leaf label elen => printLabel label ++ printLen elen
  | .node children label elen =>
      '(' :: (compose_newick_list children ++ ')' :: (printOptLabel label ++ printLen elen))
def compose_newick_list : NTreeList → List Char
  | .one t => compose_newick t
  | .more t ts => compose_newick t ++ ',' :: compose_newick_list ts
end

/-- Rendering of the rooting flag as the optional NEWICK rooting comment. -/
def rootingMark : Rooting → List Char
  | .rooted => ['[', '&', 'R', ']']
  | .unrooted => ['[', '&', 'U', ']']
  | .unknown => []

/-- Full NEWICK statement for one tree: rooting comment, composition,
terminating semicolon. -/
def compose_newick_tree (t : Tree) : List Char :=
  rootingMark t.is_rooted ++ compose_newick t.root ++ [';']

/-- Modelled from the spec: `NewickWriter.write_dataset`: the NEWICK
statements of every tree of every block, in order. -/
def write_newick (d : Dataset) : List Char :=
  (d.trees_blocks.map (fun b => (b.tree_list.map compose_newick_tree).flatten)).flatten

/-- Read one decimal edge-length literal, canonicalizing its digits. -/
def parseNumber (input : List Char) : Except ParseError (EdgeLen × List Char) :=
  let r := skipWS input
  let d1 := r.takeWhile isDigitChar
  let r2 := r.dropWhile isDigitChar
  if d1.isEmpty then .error .unexpectedToken
  else
    match r2 with
    | c :: r3 =>
        if c = '.' then
          let d2 := r3.takeWhile isDigitChar
          if d2.isEmpty then .error .unexpectedToken
          else .ok (⟨stripLead d1, stripTrail d2⟩, r3.dropWhile isDigitChar)
        else .ok (⟨stripLead d1, []⟩, r2)
    | [] => .ok (⟨stripLead d1, []⟩, [])

/-- Read an optional `:length` suffix; absent length yields none, never a
default. -/
def parseOptLen (input : List Char) : Except ParseError (Option EdgeLen × List Char) :=
  let r := skipWS input
  match r with
  | c :: r2 =>
      if c = ':' then
        match parseNumber r2 with
        | .error e => .error e
        | .ok (el, r3) => .ok (some el, r3)
      else .ok (none, r)
  | [] => .ok (none, [])

/-- Read an optional label (after an internal node's closing parenthesis); an
empty read yields none. -/
def parseOptLabel (input : List Char) : Except ParseError (Option (List Char) × List Char) :=
  let r := skipWS input
  match parseLabel r with
  | .error e => .error e
  | .ok (l, r2) => .ok (if l.isEmpty then none else some l, if l.isEmpty then r else r2)

mutual
/-- Modelled from the spec: the recursive-descent NEWICK tree parser (reader
modules not in the excerpt): nested parenthetical structure, quoted or
unquoted labels, optional internal-node labels, optional `:length` suffixes,
whitespace between tokens.  Taxa are registered into the namespace lazily at
first encounter of each leaf label.  The fuel argument bounds recursion depth
and decreases at every call. -/
def parseTree : Nat → List Char → TaxonNamespace →
    Except ParseError (NTree × TaxonNamespace × List Char)
  | 0, _, _ => .error .outOfFuel
  | fuel + 1, input, tns =>
    match skipWS input with
    | [] => .error .unexpectedEnd
    | c :: rest =>
      if c = '(' then
        match parseChildren fuel rest tns with
        | .error e => .error e
        | .ok (ts, tns2, rest2) =>
          match skipWS rest2 with
          | [] => .error .unexpectedEnd
          | c2 :: rest3 =>
            if c2 = ')' then
              match parseOptLabel rest3 with
              | .error e => .error e
              | .ok (lbl, rest4) =>
                match parseOptLen rest4 with
                | .error e => .error e
                | .ok (el, rest5) => .ok (.node ts lbl el, tns2, rest5)
            else .error .unexpectedToken
      else
        match parseLabel (c :: rest) with
        | .error e => .error e
        | .ok (l, rest2) =>
          if l.isEmpty then .error .unexpectedToken
          else
            match parseOptLen rest2 with
            | .error e => .error e
            | .ok (el, rest3) => .ok (.leaf l el, (require_taxon tns l).1, rest3)
def parseChildren : Nat → List Char → TaxonNamespace →
    Except ParseError (NTreeList × TaxonNamespace × List Char)
  | 0, _, _ => .error .outOfFuel
  | fuel + 1, input, tns =>
    match parseTree fuel input tns with
    | .error e => .error e
    | .ok (t, tns2, rest) =>
      match skipWS rest with
      | [] => .ok (.one t, tns2, [])
      | c :: rest2 =>
        if c = ',' then
          match parseChildren fuel rest2 tns2 with
          | .error e => .error e
          | .ok (ts, tns3, rest3) => .ok (.more t ts, tns3, rest3)
        else .ok (.one t, tns2, c :: rest2)
end

/-- Read the optional rooting comment, consumed as the rooting flag. -/
def parseRooting (input : List Char) : Rooting × List Char :=
  match input with
  | c1 :: c2 :: c3 :: c4 :: rest =>
      if c1 = '[' then
        if c2 = '&' then
          if c4 = ']' then
            if c3 = 'R' then (.rooted, rest)
            else if c3 = 'U' then (.unrooted, rest)
            else (.unknown, input)
          else (.unknown, input)
        else (.unknown, input)
      else (.unknown, input)
  | _ => (.unknown, input)

/-- Read a sequence of semicolon-terminated NEWICK tree statements up to end
of input. -/
def parseTrees : Nat → List Char → TaxonNamespace →
    Except ParseError (List Tree × TaxonNamespace)
  | 0, _, _ => .error .outOfFuel
  | fuel + 1, input, tns =>
      let r := skipWS input
      if r.isEmpty then .ok ([], tns)
      else
        let p := parseRooting r
        match parseTree (input.length + 1) p.2 tns with
        | .error e => .error e
        | .ok (t, tns2, rest2) =>
            match skipWS rest2 with
            | [] => .error .unexpectedEnd
            | c2 :: rest3 =>
                if c2 = ';' then
                  match parseTrees fuel rest3 tns2 with
                  | .error e => .error e
                  | .ok (ts, tns3) => .ok (⟨p.1, t⟩ :: ts, tns3)
                else .error .unexpectedToken

/-- Modelled from the spec: the NEWICK reader: reads every tree statement of
the document into one trees block bound to the (lazily extended) namespace.
On failure the caller's namespace is returned unchanged, since a failed parse
must not corrupt the `TaxonNamespace`. -/
def read_newick (input : List Char) (tns : TaxonNamespace) :
    Except ParseError Dataset × TaxonNamespace :=
  match parseTrees (input.length + 1) input tns with
  | .error e => (.error e, tns)
  | .ok (ts, tns2) => (.ok ⟨[⟨tns2, ts⟩]⟩, tns2)

mutual
/-- Structural size of a tree, used to bound the parser fuel. -/
def sizeT : NTree → Nat
  | .leaf _ _ => 1
  | .node children _ _ => sizeL children + 1
def sizeL : NTreeList → Nat
  | .one t => sizeT t + 1
  | .more t ts => sizeT t + sizeL ts + 1
end

/-- Well-formedness of an optional edge length. -/
def wfOptLen : Option EdgeLen → Bool
  | none => true
  | some el => wfLen el

/-- Well-formedness of an optional internal-node label. -/
def wfOptLabel : Option (List Char) → Bool
  | none => true
  | some l => !l.isEmpty

mutual
/-- Well-formedness: leaf and internal labels nonempty, edge lengths in
canonical form — the invariants every parsed tree satisfies. -/
def wfTree : NTree → Bool
  | .leaf label elen => !label.isEmpty && wfOptLen elen
  | .node children label elen => wfList children && wfOptLabel label && wfOptLen elen
def wfList : NTreeList → Bool
  | .one t => wfTree t
  | .more t ts => wfTree t && wfList ts
end

/-- Well-formedness of a whole tree with rooting flag. -/
def wfPTree (t : Tree) : Bool := wfTree t.root

/-- Continuations that may legally follow a complete subtree rendering: end
of input or one of the separators. -/
def sepHead : List Char → Prop
  | [] => True
  | c :: _ => c = ',' ∨ c = ')' ∨ c = ';'

/-- Continuations at which a length read must stop. -/
def lenStop : List Char → Prop
  | [] => True
  | c :: _ => isDigitChar c = false ∧ c ≠ ':' ∧ c ≠ '.' ∧ isWS c = false

theorem labelChar_not_WS (c : Char) (h : isLabelChar c = true) : isWS c = false := by
  by_contra hw
  have hw2 : isWS c = true := by simpa using hw
  have hd : c = spaceChar ∨ c = Char.ofNat 9 ∨ c = Char.ofNat 10 ∨ c = Char.ofNat 13 := by
    simpa [isWS, or_assoc] using hw2
  rcases hd with h1 | h1 | h1 | h1 <;> (subst h1; exact absurd h (by decide))

theorem digitChar_not_WS (c : Char) (h : isDigitChar c = true) : isWS c = false := by
  by_contra hw
  have hw2 : isWS c = true := by simpa using hw
  have hd : c = spaceChar ∨ c = Char.ofNat 9 ∨ c = Char.ofNat 10 ∨ c = Char.ofNat 13 := by
    simpa [isWS, or_assoc] using hw2
  rcases hd with h1 | h1 | h1 | h1 <;> (subst h1; exact absurd h (by decide))

theorem sep_labelStop (l : List Char) (h : sepHead l) : labelStop l := by
  cases l with
  | nil => trivial
  | cons c cs =>
      rcases h with h1 | h1 | h1 <;> (subst h1; exact ⟨by decide, by decide, by decide⟩)

theorem sep_lenStop (l : List Char) (h : sepHead l) : lenStop l := by
  cases l with
  | nil => trivial
  | cons c cs =>
      rcases h with h1 | h1 | h1 <;>
        (subst h1; exact ⟨by decide, by decide, by decide, by decide⟩)

theorem lenStop_not_WS (l : List Char) (h : lenStop l) : headNot isWS l := by
  cases l with
  | nil => trivial
  | cons c cs => exact h.2.2.2

theorem labelStop_not_WS (l : List Char) (h : labelStop l) : headNot isWS l := by
  cases l with
  | nil => trivial
  | cons c cs => exact h.2.2

theorem labelStop_printLen (el? : Option EdgeLen) (rest : List Char) (h : sepHead rest) :
    labelStop (printLen el? ++ rest) := by
  cases el? with
  | none => exact sep_labelStop rest h
  | some el => exact ⟨by decide, by decide, by decide⟩

theorem parseOptLen_print (el? : Option EdgeLen) (rest : List Char)
    (hwf : wfOptLen el? = true) (hstop : lenStop rest) :
    parseOptLen (printLen el? ++ rest) = .ok (el?, rest) := by
  cases el? with
  | none =>
      simp only [printLen, List.nil_append, parseOptLen]
      rw [skipWS_eq rest (lenStop_not_WS rest hstop)]
      cases rest with
      | nil => rfl
      | cons c r2 =>
          have hc : ¬(c = ':') := hstop.2.1
          simp [hc]
  | some el =>
      obtain ⟨ip, fp⟩ := el
      simp only [wfOptLen, wfLen, Bool.and_eq_true, beq_iff_eq] at hwf
      obtain ⟨⟨⟨hipd, hips⟩, hfpd⟩, hfps⟩ := hwf
      have hipne : ip ≠ [] := by
        rw [← hips]
        exact stripLead_ne_nil ip
      obtain ⟨d, ds, rfl⟩ : ∃ d ds, ip = d :: ds := by
        cases ip with
        | nil => exact absurd rfl hipne
        | cons d ds => exact ⟨d, ds, rfl⟩
      have hdd : isDigitChar d = true := by
        have := List.all_eq_true.mp hipd d (by simp)
        simpa using this
      have hrestd : headNot isDigitChar rest := by
        cases rest with
        | nil => trivial
        | cons c cs => exact hstop.1
      have hskc : ∀ X : List Char, skipWS (':' :: X) = ':' :: X := fun X =>
        skipWS_eq _ (show isWS ':' = false by decide)
      have hskd : ∀ Y : List Char, skipWS (d :: Y) = d :: Y := fun Y =>
        skipWS_eq _ (digitChar_not_WS d hdd)
      cases fp with
      | nil =>
          have htw := takeWhile_append_stop isDigitChar (d :: ds) rest hipd hrestd
          have ht1 := htw.1
          have ht2 := htw.2
          simp only [List.cons_append] at ht1 ht2
          have hin : printLen (some ⟨d :: ds, []⟩) ++ rest = ':' :: (d :: (ds ++ rest)) := by
            simp [printLen]
          rw [hin]
          cases rest with
          | nil =>
              simp only [List.append_nil] at ht1 ht2
              simp [parseOptLen, parseNumber, hskc, hskd, ht1, ht2, hips]
          | cons c r3 =>
              have hcd : ¬(c = '.') := hstop.2.2.1
              simp [parseOptLen, parseNumber, hskc, hskd, ht1, ht2, hips, hcd]
      | cons f fs =>
          have hfps2 : stripTrail (f :: fs) = f :: fs := hfps
          have h1 := takeWhile_append_stop isDigitChar (d :: ds)
            ('.' :: ((f :: fs) ++ rest)) hipd (show isDigitChar '.' = false by decide)
          have h2 := takeWhile_append_stop isDigitChar (f :: fs) rest hfpd hrestd
          have ht1 := h1.1
          have ht2 := h1.2
          have ht3 := h2.1
          have ht4 := h2.2
          simp only [List.cons_append] at ht1 ht2 ht3 ht4
          have hin : printLen (some ⟨d :: ds, f :: fs⟩) ++ rest
              = ':' :: (d :: (ds ++ '.' :: (f :: (fs ++ rest)))) := by
            simp [printLen]
          rw [hin]
          simp [parseOptLen, parseNumber, hskc, hskd, ht1, ht2, ht3, ht4, hips, hfps2]

theorem parseOptLabel_print (lbl? : Option (List Char)) (rest : List Char)
    (hwf : wfOptLabel lbl? = true) (hstop : labelStop rest) :
    parseOptLabel (printOptLabel lbl? ++ rest) = .ok (lbl?, rest) := by
  cases lbl? with
  | none =>
      simp only [printOptLabel, List.nil_append, parseOptLabel]
      rw [skipWS_eq rest (labelStop_not_WS rest hstop)]
      cases rest with
      | nil => rfl
      | cons c cs =>
          have hq : ¬(c = quoteChar) := hstop.2.1
          have hl : isLabelChar c = false := hstop.1
          simp [parseLabel, hq, List.takeWhile_cons, hl, List.dropWhile_cons]
  | some l =>
      have hne : l ≠ [] := by
        intro he
        subst he
        simp [wfOptLabel] at hwf
      have hie : l.isEmpty = false := by
        cases l with
        | nil => exact absurd rfl hne
        | cons a as => rfl
      have hpl := parseLabel_print l rest hne hstop
      have hhd : headNot isWS (printLabel l ++ rest) := by
        by_cases hb : bareOk l = true
        · unfold printLabel
          rw [if_pos hb]
          obtain ⟨c, cs, rfl⟩ : ∃ c cs, l = c :: cs := by
            cases l with
            | nil => exact absurd rfl hne
            | cons c cs => exact ⟨c, cs, rfl⟩
          have hcl : isLabelChar c = true := by
            simp only [bareOk, Bool.and_eq_true] at hb
            have := List.all_eq_true.mp hb.2 c (by simp)
            simpa using this
          show isWS c = false
          exact labelChar_not_WS c hcl
        · unfold printLabel
          rw [if_neg hb]
          show isWS quoteChar = false
          decide
      simp only [printOptLabel, parseOptLabel]
      rw [skipWS_eq _ hhd, hpl]
      simp [hie]

/-- Children-list continuations must not begin with the separator comma. -/
def notCommaStart : List Char → Prop
  | [] => True
  | c :: _ => c ≠ ','

theorem sepHead_not_WS (l : List Char) (h : sepHead l) : headNot isWS l :=
  labelStop_not_WS l (sep_labelStop l h)

theorem printLabel_head (l : List Char) (hne : l ≠ []) :
    ∃ c cs, printLabel l = c :: cs ∧ isWS c = false ∧ ¬(c = '(') ∧ ¬(c = '[') := by
  by_cases hb : bareOk l = true
  · obtain ⟨c, cs, rfl⟩ : ∃ c cs, l = c :: cs := by
      cases l with
      | nil => exact absurd rfl hne
      | cons c cs => exact ⟨c, cs, rfl⟩
    have hcl : isLabelChar c = true := by
      simp only [bareOk, Bool.and_eq_true] at hb
      have := List.all_eq_true.mp hb.2 c (by simp)
      simpa using this
    refine ⟨c, cs, ?_, labelChar_not_WS c hcl, ?_, ?_⟩
    · simp [printLabel, hb]
    · intro he
      rw [he] at hcl
      exact absurd hcl (by decide)
    · intro he
      rw [he] at hcl
      exact absurd hcl (by decide)
  · refine ⟨quoteChar, escQ l ++ [quoteChar], ?_, by decide, by decide, by decide⟩
    have hb2 : bareOk l = false := by simpa using hb
    simp [printLabel, hb2]

theorem printLabel_length_pos (l : List Char) (hne : l ≠ []) :
    1 ≤ (printLabel l).length := by
  obtain ⟨c, cs, hpl, _, _, _⟩ := printLabel_head l hne
  rw [hpl]
  simp

mutual
theorem sizeT_le_compose : ∀ t : NTree, wfTree t = true → sizeT t ≤ (compose_newick t).length
  | .leaf label elen, h => by
      have hne : label ≠ [] := by
        simp only [wfTree, Bool.and_eq_true, Bool.not_eq_true'] at h
        intro he
        rw [he] at h
        simp at h
      have := printLabel_length_pos label hne
      simp only [sizeT, compose_newick, List.length_append]
      omega
  | .node children label elen, h => by
      have := sizeL_le_compose children (by
        simp only [wfTree, Bool.and_eq_true] at h
        exact h.1.1)
      simp only [sizeT, compose_newick, List.length_cons, List.length_append]
      omega
theorem sizeL_le_compose : ∀ l : NTreeList, wfList l = true →
    sizeL l ≤ (compose_newick_list l).length + 1
  | .one t, h => by
      have := sizeT_le_compose t (by simpa [wfList] using h)
      simp only [sizeL, compose_newick_list]
      omega
  | .more t ts, h => by
      have hp : wfTree t = true ∧ wfList ts = true := by
        simpa [wfList, Bool.and_eq_true] using h
      have a1 := sizeT_le_compose t hp.1
      have a2 := sizeL_le_compose ts hp.2
      simp only [sizeL, compose_newick_list, List.length_append, List.length_cons]
      omega
end

theorem parse_print_aux : ∀ fuel : Nat,
    (∀ t rest tns, wfTree t = true → sizeT t ≤ fuel → sepHead rest →
      ∃ tns2, parseTree fuel (compose_newick t ++ rest) tns = .ok (t, tns2, rest))
    ∧ (∀ l rest tns, wfList l = true → sizeL l ≤ fuel → sepHead rest → notCommaStart rest →
      ∃ tns2, parseChildren fuel (compose_newick_list l ++ rest) tns = .ok (l, tns2, rest)) := by
  intro fuel
  induction fuel with
  | zero =>
      constructor
      · intro t rest tns _ hsz _
        exact absurd hsz (by cases t <;> simp [sizeT])
      · intro l rest tns _ hsz _ _
        exact absurd hsz (by cases l <;> simp [sizeL])
  | succ fuel ih =>
      obtain ⟨ihT, ihL⟩ := ih
      constructor
      · intro t rest tns hwf hsz hsep
        cases t with
        | leaf label elen =>
            have hp : label.isEmpty = false ∧ wfOptLen elen = true := by
              simpa [wfTree, Bool.and_eq_true, Bool.not_eq_true'] using hwf
            have hne : label ≠ [] := by
              intro he
              rw [he] at hp
              simp at hp
            obtain ⟨c, cs, hpl, hnws, hnpar, hnlb⟩ := printLabel_head label hne
            have hplp := parseLabel_print label (printLen elen ++ rest) hne
              (labelStop_printLen elen rest hsep)
            have holp := parseOptLen_print elen rest hp.2 (sep_lenStop rest hsep)
            refine ⟨(require_taxon tns label).1, ?_⟩
            have hin : compose_newick (.leaf label elen) ++ rest
                = c :: (cs ++ (printLen elen ++ rest)) := by
              simp only [compose_newick, List.append_assoc, hpl, List.cons_append]
            rw [hin]
            rw [hpl] at hplp
            simp only [List.cons_append] at hplp
            have hie : label.isEmpty = false := hp.1
            simp only [parseTree]
            rw [skipWS_eq _ (show headNot isWS (c :: (cs ++ (printLen elen ++ rest)))
              from hnws)]
            simp [hnpar, hplp, hie, holp]
        | node children label elen =>
            have hps : wfList children = true ∧ wfOptLabel label = true
                ∧ wfOptLen elen = true := by
              have := hwf
              simp only [wfTree, Bool.and_eq_true] at this
              exact ⟨this.1.1, this.1.2, this.2⟩
            have hsz2 : sizeL children ≤ fuel := by
              simp only [sizeT] at hsz
              omega
            have hsep2 : sepHead (')' :: (printOptLabel label ++ (printLen elen ++ rest))) := by
              show ')' = ',' ∨ ')' = ')' ∨ ')' = ';'
              exact Or.inr (Or.inl rfl)
            have hnc2 : notCommaStart (')' :: (printOptLabel label ++ (printLen elen ++ rest))) := by
              show ')' ≠ ','
              decide
            obtain ⟨tns2, hpc⟩ := ihL children
              (')' :: (printOptLabel label ++ (printLen elen ++ rest))) tns hps.1 hsz2 hsep2 hnc2
            have holb := parseOptLabel_print label (printLen elen ++ rest) hps.2.1
              (labelStop_printLen elen rest hsep)
            have holn := parseOptLen_print elen rest hps.2.2 (sep_lenStop rest hsep)
            refine ⟨tns2, ?_⟩
            have hin : compose_newick (.node children label elen) ++ rest
                = '(' :: (compose_newick_list children
                    ++ (')' :: (printOptLabel label ++ (printLen elen ++ rest)))) := by
              simp [compose_newick, List.append_assoc]
            rw [hin]
            have hsk1 : skipWS ('(' :: (compose_newick_list children
                ++ (')' :: (printOptLabel label ++ (printLen elen ++ rest)))))
                = '(' :: (compose_newick_list children
                    ++ (')' :: (printOptLabel label ++ (printLen elen ++ rest)))) :=
              skipWS_eq _ (show isWS '(' = false by decide)
            have hsk2 : skipWS (')' :: (printOptLabel label ++ (printLen elen ++ rest)))
                = ')' :: (printOptLabel label ++ (printLen elen ++ rest)) :=
              skipWS_eq _ (show isWS ')' = false by decide)
            simp only [parseTree]
            rw [hsk1]
            simp [hpc, hsk2, holb, holn]
      · intro l rest tns hwf hsz hsep hnc
        cases l with
        | one t =>
            have hwt : wfTree t = true := by simpa [wfList] using hwf
            have hsz2 : sizeT t ≤ fuel := by
              simp only [sizeL] at hsz
              omega
            obtain ⟨tns2, hpt⟩ := ihT t rest tns hwt hsz2 hsep
            refine ⟨tns2, ?_⟩
            have hskr : skipWS rest = rest := skipWS_eq rest (sepHead_not_WS rest hsep)
            show parseChildren (fuel + 1) (compose_newick t ++ rest) tns = _
            simp only [parseChildren]
            rw [hpt]
            cases rest with
            | nil => simp [hskr]
            | cons c cs =>
                have hcc : ¬(c = ',') := hnc
                simp [hskr, hcc]
        | more t ts =>
            have hp : wfTree t = true ∧ wfList ts = true := by
              simpa [wfList, Bool.and_eq_true] using hwf
            have hszt : sizeT t ≤ fuel := by
              simp only [sizeL] at hsz
              omega
            have hszl : sizeL ts ≤ fuel := by
              simp only [sizeL] at hsz
              omega
            have hsept : sepHead (',' :: (compose_newick_list ts ++ rest)) := by
              show ',' = ',' ∨ ',' = ')' ∨ ',' = ';'
              exact Or.inl rfl
            obtain ⟨tns2, hpt⟩ := ihT t (',' :: (compose_newick_list ts ++ rest)) tns
              hp.1 hszt hsept
            obtain ⟨tns3, hpl⟩ := ihL ts rest tns2 hp.2 hszl hsep hnc
            refine ⟨tns3, ?_⟩
            have hin : compose_newick_list (.more t ts) ++ rest
                = compose_newick t ++ (',' :: (compose_newick_list ts ++ rest)) := by
              simp [compose_newick_list]
            rw [hin]
            simp only [parseChildren]
            rw [hpt]
            have hskc : skipWS (',' :: (compose_newick_list ts ++ rest))
                = ',' :: (compose_newick_list ts ++ rest) :=
              skipWS_eq _ (show isWS ',' = false by decide)
            simp [hskc, hpl]

theorem parseNumber_wf (input : List Char) (el : EdgeLen) (r : List Char)
    (h : parseNumber input = .ok (el, r)) : wfLen el = true := by
  have hd1 : ((skipWS input).takeWhile isDigitChar).all isDigitChar = true :=
    List.all_takeWhile
  simp only [parseNumber] at h
  split at h
  · simp at h
  · split at h
    · rename_i c r3
      split at h
      · split at h
        · simp at h
        · simp only [Except.ok.injEq, Prod.mk.injEq] at h
          rw [← h.1]
          exact wfLen_strip _ _ hd1 List.all_takeWhile
      · simp only [Except.ok.injEq, Prod.mk.injEq] at h
        rw [← h.1]
        have hw : wfLen ⟨stripLead ((skipWS input).takeWhile isDigitChar), stripTrail []⟩
            = true := wfLen_strip _ [] hd1 (by decide)
        simpa using hw
    · simp only [Except.ok.injEq, Prod.mk.injEq] at h
      rw [← h.1]
      have hw : wfLen ⟨stripLead ((skipWS input).takeWhile isDigitChar), stripTrail []⟩
          = true := wfLen_strip _ [] hd1 (by decide)
      simpa using hw

theorem parseOptLen_wf (input : List Char) (el? : Option EdgeLen) (r : List Char)
    (h : parseOptLen input = .ok (el?, r)) : wfOptLen el? = true := by
  simp only [parseOptLen] at h
  split at h
  · rename_i c r2
    split at h
    · split at h
      · simp at h
      · rename_i el2 r3 hpn
        simp only [Except.ok.injEq, Prod.mk.injEq] at h
        rw [← h.1]
        exact parseNumber_wf _ _ _ hpn
    · simp only [Except.ok.injEq, Prod.mk.injEq] at h
      rw [← h.1]
      rfl
  · simp only [Except.ok.injEq, Prod.mk.injEq] at h
    rw [← h.1]
    rfl

theorem parseOptLabel_wf (input : List Char) (lbl? : Option (List Char)) (r : List Char)
    (h : parseOptLabel input = .ok (lbl?, r)) : wfOptLabel lbl? = true := by
  simp only [parseOptLabel] at h
  split at h
  · simp at h
  · rename_i lab rst heq
    simp only [Except.ok.injEq, Prod.mk.injEq] at h
    rw [← h.1]
    by_cases he : lab.isEmpty = true
    · simp [he, wfOptLabel]
    · have he2 : lab.isEmpty = false := by simpa using he
      simp [he2, wfOptLabel]

theorem parse_wf_aux : ∀ fuel : Nat,
    (∀ input tns r, parseTree fuel input tns = .ok r → wfTree r.1 = true)
    ∧ (∀ input tns r, parseChildren fuel input tns = .ok r → wfList r.1 = true) := by
  intro fuel
  induction fuel with
  | zero =>
      constructor
      · intro input tns r h
        simp [parseTree] at h
      · intro input tns r h
        simp [parseChildren] at h
  | succ fuel ih =>
      obtain ⟨ihT, ihL⟩ := ih
      constructor
      · intro input tns r h
        simp only [parseTree] at h
        split at h
        · simp at h
        · rename_i c rest hsk0
          split at h
          · split at h
            · simp at h
            · rename_i ts tns2 rest2 hpc
              split at h
              · simp at h
              · rename_i c2 rest3 hsk2
                split at h
                · split at h
                  · simp at h
                  · rename_i lbl rest4 holb
                    split at h
                    · simp at h
                    · rename_i el rest5 holn
                      simp only [Except.ok.injEq] at h
                      subst h
                      show wfTree (NTree.node ts lbl el) = true
                      have h1 := ihL rest tns (ts, tns2, rest2) hpc
                      have h2 := parseOptLabel_wf rest3 lbl rest4 holb
                      have h3 := parseOptLen_wf rest4 el rest5 holn
                      simp [wfTree, h1, h2, h3]
                · simp at h
          · split at h
            · simp at h
            · rename_i lab rest2 hpl
              split at h
              · simp at h
              · rename_i hle
                split at h
                · simp at h
                · rename_i el rest3 holn
                  simp only [Except.ok.injEq] at h
                  subst h
                  show wfTree (NTree.leaf lab el) = true
                  have h3 := parseOptLen_wf rest2 el rest3 holn
                  have hle2 : lab.isEmpty = false := by simpa using hle
                  simp [wfTree, hle2, h3]
      · intro input tns r h
        simp only [parseChildren] at h
        split at h
        · simp at h
        · rename_i t tns2 rest hpt
          have hwt : wfTree t = true := ihT input tns (t, tns2, rest) hpt
          split at h
          · simp only [Except.ok.injEq] at h
            subst h
            simpa [wfList] using hwt
          · rename_i c rest2 hskp
            split at h
            · split at h
              · simp at h
              · rename_i ts tns3 rest3 hpc
                have hwl : wfList ts = true := ihL rest2 tns2 (ts, tns3, rest3) hpc
                simp only [Except.ok.injEq] at h
                subst h
                simp [wfList, hwt, hwl]
            · simp only [Except.ok.injEq] at h
              subst h
              simpa [wfList] using hwt

theorem compose_head_facts (t : NTree) (hwf : wfTree t = true) (Y : List Char) :
    ∃ c cs, compose_newick t ++ Y = c :: cs ∧ isWS c = false ∧ ¬(c = '[') := by
  cases t with
  | leaf label elen =>
      have hne : label ≠ [] := by
        simp only [wfTree, Bool.and_eq_true, Bool.not_eq_true'] at hwf
        intro he
        rw [he] at hwf
        simp at hwf
      obtain ⟨c, cs, hpl, hws, _, hlb⟩ := printLabel_head label hne
      refine ⟨c, cs ++ (printLen elen ++ Y), ?_, hws, hlb⟩
      simp [compose_newick, hpl]
  | node children label elen =>
      refine ⟨'(', compose_newick_list children
        ++ (')' :: (printOptLabel label ++ (printLen elen ++ Y))), ?_, by decide, by decide⟩
      simp [compose_newick]

theorem parseRooting_mark (r : Rooting) (X : List Char)
    (hX : ∀ c ∈ X.head?, ¬(c = '[')) :
    parseRooting (rootingMark r ++ X) = (r, X) := by
  cases r with
  | rooted => simp [rootingMark, parseRooting]
  | unrooted => simp [rootingMark, parseRooting]
  | unknown =>
      simp only [rootingMark, List.nil_append]
      match X, hX with
      | [], _ => rfl
      | [c1], h => rfl
      | [c1, c2], h => rfl
      | [c1, c2, c3], h => rfl
      | c1 :: c2 :: c3 :: c4 :: X4, h =>
          have hc : ¬(c1 = '[') := h c1 (by simp)
          simp [parseRooting, hc]

theorem parseTrees_print (trees : List Tree) :
    ∀ (fuel : Nat) (tns : TaxonNamespace), trees.length < fuel →
      (∀ t ∈ trees, wfTree t.root = true) →
      ∃ tns2, parseTrees fuel ((trees.map compose_newick_tree).flatten) tns
          = .ok (trees, tns2) := by
  induction trees with
  | nil =>
      intro fuel tns hf _
      match fuel, hf with
      | f + 1, _ => exact ⟨tns, by simp [parseTrees, skipWS]⟩
  | cons t ts ih =>
      intro fuel tns hf hwf
      match fuel, hf with
      | f + 1, hf =>
        have hwt : wfTree t.root = true := hwf t (by simp)
        have hwts : ∀ u ∈ ts, wfTree u.root = true := fun u hu => hwf u (by simp [hu])
        have hin : (((t :: ts).map compose_newick_tree).flatten : List Char)
            = rootingMark t.is_rooted
                ++ (compose_newick t.root ++ (';' :: ((ts.map compose_newick_tree).flatten))) := by
          simp [compose_newick_tree]
        obtain ⟨c0, cs0, hX, hws0, hlb0⟩ :=
          compose_head_facts t.root hwt (';' :: ((ts.map compose_newick_tree).flatten))
        have hrootp : parseRooting (rootingMark t.is_rooted
            ++ (compose_newick t.root ++ (';' :: ((ts.map compose_newick_tree).flatten))))
            = (t.is_rooted, compose_newick t.root
                ++ (';' :: ((ts.map compose_newick_tree).flatten))) := by
          apply parseRooting_mark
          rw [hX]
          intro c hc
          simp at hc
          subst hc
          exact hlb0
        have hskin : skipWS (rootingMark t.is_rooted
            ++ (compose_newick t.root ++ (';' :: ((ts.map compose_newick_tree).flatten))))
            = rootingMark t.is_rooted
                ++ (compose_newick t.root ++ (';' :: ((ts.map compose_newick_tree).flatten))) := by
          cases hr : t.is_rooted with
          | rooted => exact skipWS_eq _ (show isWS '[' = false by decide)
          | unrooted => exact skipWS_eq _ (show isWS '[' = false by decide)
          | unknown =>
              simp only [rootingMark, List.nil_append]
              rw [hX]
              exact skipWS_eq _ hws0
        have hfuel : sizeT t.root
            ≤ (rootingMark t.is_rooted ++ (compose_newick t.root
                ++ (';' :: ((ts.map compose_newick_tree).flatten)))).length + 1 := by
          have h1 := sizeT_le_compose t.root hwt
          simp only [List.length_append, List.length_cons]
          omega
        obtain ⟨tns2, hpt⟩ := (parse_print_aux
            ((rootingMark t.is_rooted ++ (compose_newick t.root
              ++ (';' :: ((ts.map compose_newick_tree).flatten)))).length + 1)).1
          t.root (';' :: ((ts.map compose_newick_tree).flatten)) tns hwt hfuel
          (show (';' : Char) = ',' ∨ (';' : Char) = ')' ∨ (';' : Char) = ';' from
            Or.inr (Or.inr rfl))
        have hsks : skipWS (';' :: ((ts.map compose_newick_tree).flatten))
            = ';' :: ((ts.map compose_newick_tree).flatten) :=
          skipWS_eq _ (show isWS ';' = false by decide)
        obtain ⟨tns3, hts⟩ := ih f tns2 (by simpa using hf) hwts
        refine ⟨tns3, ?_⟩
        rw [hin]
        have hne0 : (rootingMark t.is_rooted ++ (compose_newick t.root
            ++ (';' :: ((ts.map compose_newick_tree).flatten)))).isEmpty = false := by
          rw [List.isEmpty_eq_false_iff_exists_mem]
          exact ⟨';', by simp⟩
        simp only [parseTrees]
        rw [hskin]
        simp only [List.length_append, List.length_cons, List.length_flatten,
          List.map_map] at hpt
        simp [hne0, hrootp, hpt, hsks, hts]

theorem parseTrees_wf : ∀ (fuel : Nat) (input : List Char) (tns : TaxonNamespace)
    (ts : List Tree) (tns2 : TaxonNamespace),
    parseTrees fuel input tns = .ok (ts, tns2) → ∀ t ∈ ts, wfTree t.root = true := by
  intro fuel
  induction fuel with
  | zero =>
      intro input tns ts tns2 h
      simp [parseTrees] at h
  | succ f ih =>
      intro input tns ts tns2 h
      simp only [parseTrees] at h
      split at h
      · simp only [Except.ok.injEq, Prod.mk.injEq] at h
        obtain ⟨h1, h2⟩ := h
        subst h1
        intro t ht
        simp at ht
      · split at h
        · simp at h
        · rename_i t0 tns2a rest2 hpt
          have hw : wfTree t0 = true := (parse_wf_aux (input.length + 1)).1 _ _ _ hpt
          split at h
          · simp at h
          · rename_i c2 rest3 hsk
            split at h
            · split at h
              · simp at h
              · rename_i ts2 tns3 hrec
                simp only [Except.ok.injEq, Prod.mk.injEq] at h
                obtain ⟨h1, h2⟩ := h
                subst h1
                intro u hu
                rcases List.mem_cons.mp hu with h3 | h3
                · subst h3
                  simpa using hw
                · exact ih rest3 tns2a ts2 tns3 hrec u h3
            · simp at h

/-- C8: a parse failure is atomic with respect to the taxon namespace:
whenever the NEWICK reader returns a `ParseError`, the caller's
`TaxonNamespace` comes back unchanged, with no partially registered taxa. -/
theorem claim_C8_parse_failure_atomicity (input : List Char) (tns : TaxonNamespace)
    (e : ParseError) (h : (read_newick input tns).1 = .error e) :
    (read_newick input tns).2 = tns := by
  unfold read_newick at h ⊢
  cases hp : parseTrees (input.length + 1) input tns with
  | error e2 => rfl
  | ok p =>
      obtain ⟨ts, tns2⟩ := p
      rw [hp] at h
      simp at h

/-- C8 witness: the truncated document `(A,` fails with `unexpectedEnd` and
the empty namespace passed in comes back unchanged. -/
theorem claim_C8_parse_failure_atomicity_witness :
    (read_newick ['(', 'A', ','] ⟨[]⟩).1 = Except.error ParseError.unexpectedEnd
    ∧ (read_newick ['(', 'A', ','] ⟨[]⟩).2 = (⟨[]⟩ : TaxonNamespace) :=
  ⟨rfl, claim_C8_parse_failure_atomicity ['(', 'A', ','] ⟨[]⟩ ParseError.unexpectedEnd rfl⟩

/-- Decimal digit character for a value below ten. -/
def digitChar (d : Nat) : Char := Char.ofNat (48 + d)

/-- Fuel-bounded big-endian decimal rendering of a natural number. -/
def natToDigitsAux : Nat → Nat → List Char
  | 0, _ => []
  | fuel + 1, n =>
      if n < 10 then [digitChar n]
      else natToDigitsAux fuel (n / 10) ++ [digitChar (n % 10)]

/-- Big-endian decimal rendering of a natural number, used for NEXUS
TRANSLATE tokens and NeXML element identifiers. -/
def natToDigits (n : Nat) : List Char := natToDigitsAux (n + 1) n

/-- Numeric value of a digit character. -/
def digitVal (c : Char) : Nat := c.toNat - 48

/-- Numeric value of a big-endian digit list. -/
def digitsVal (l : List Char) : Nat := l.foldl (fun a c => 10 * a + digitVal c) 0

theorem digitVal_digitChar : ∀ d : Nat, d < 10 → digitVal (digitChar d) = d := by decide

theorem isDigitChar_digitChar : ∀ d : Nat, d < 10 → isDigitChar (digitChar d) = true := by
  decide

theorem digitsVal_append (A : List Char) (c : Char) :
    digitsVal (A ++ [c]) = 10 * digitsVal A + digitVal c := by
  simp [digitsVal, List.foldl_append]

theorem digitsVal_natToDigitsAux : ∀ fuel n, n < fuel →
    digitsVal (natToDigitsAux fuel n) = n := by
  intro fuel
  induction fuel with
  | zero => intro n h; omega
  | succ f ih =>
      intro n h
      by_cases h10 : n < 10
      · simp only [natToDigitsAux, if_pos h10]
        have hd := digitVal_digitChar n h10
        simp [digitsVal, hd]
      · have hn0 : 0 < n := by omega
        have h1 : n / 10 < n := Nat.div_lt_self hn0 (by omega)
        have hdiv : n / 10 < f := by omega
        simp only [natToDigitsAux, if_neg h10]
        rw [digitsVal_append, ih (n / 10) hdiv,
          digitVal_digitChar (n % 10) (Nat.mod_lt n (by omega))]
        omega

theorem digitsVal_natToDigits (n : Nat) : digitsVal (natToDigits n) = n :=
  digitsVal_natToDigitsAux (n + 1) n (by omega)

theorem natToDigits_inj (a b : Nat) (h : natToDigits a = natToDigits b) : a = b := by
  have ha := digitsVal_natToDigits a
  rw [h, digitsVal_natToDigits] at ha
  omega

theorem natToDigitsAux_digits : ∀ fuel n, (natToDigitsAux fuel n).all isDigitChar = true := by
  intro fuel
  induction fuel with
  | zero => intro n; rfl
  | succ f ih =>
      intro n
      by_cases h10 : n < 10
      · simp only [natToDigitsAux, if_pos h10]
        simp [isDigitChar_digitChar n h10]
      · simp only [natToDigitsAux, if_neg h10]
        simp [List.all_append, ih (n / 10),
          isDigitChar_digitChar (n % 10) (Nat.mod_lt n (by omega))]

theorem natToDigits_digits (n : Nat) : (natToDigits n).all isDigitChar = true :=
  natToDigitsAux_digits (n + 1) n

theorem natToDigits_ne_nil (n : Nat) : natToDigits n ≠ [] := by
  unfold natToDigits natToDigitsAux
  by_cases h10 : n < 10
  · simp [h10]
  · simp [h10]

theorem require_taxon_labels_not_mem (ls : List (List Char)) (lbl : List Char)
    (h : lbl ∉ ls) :
    (require_taxon_labels ls lbl).1 = ls ++ [lbl]
    ∧ (require_taxon_labels ls lbl).2 = ls.length := by
  induction ls with
  | nil => exact ⟨rfl, rfl⟩
  | cons x xs ih =>
      have hx : ¬(x = lbl) := by
        intro he
        exact h (by rw [← he]; exact List.mem_cons_self x xs)
      have hm : lbl ∉ xs := fun hm => h (List.mem_cons_of_mem x hm)
      obtain ⟨ih1, ih2⟩ := ih hm
      constructor
      · simp [require_taxon_labels, hx, ih1]
      · simp [require_taxon_labels, hx, ih2]

theorem require_taxon_labels_self_mem (ls : List (List Char)) (lbl : List Char) :
    lbl ∈ (require_taxon_labels ls lbl).1 := by
  by_cases h : lbl ∈ ls
  · rw [(require_taxon_labels_mem ls lbl h).1]
    exact h
  · rw [(require_taxon_labels_not_mem ls lbl h).1]
    simp

theorem require_taxon_labels_mono (ls : List (List Char)) (lbl x : List Char)
    (h : x ∈ ls) : x ∈ (require_taxon_labels ls lbl).1 := by
  obtain ⟨tail, ht⟩ := require_taxon_labels_append ls lbl
  rw [ht]
  exact List.mem_append_left _ h

theorem require_taxon_labels_nodup (ls : List (List Char)) (lbl : List Char)
    (h : ls.Nodup) : (require_taxon_labels ls lbl).1.Nodup := by
  by_cases hm : lbl ∈ ls
  · rw [(require_taxon_labels_mem ls lbl hm).1]
    exact h
  · rw [(require_taxon_labels_not_mem ls lbl hm).1]
    refine h.append (List.nodup_singleton lbl) ?_
    intro a ha hb
    simp at hb
    subst hb
    exact hm ha

theorem require_taxon_labels_ne_nil (ls : List (List Char)) (lbl : List Char)
    (hls : ∀ x ∈ ls, x ≠ []) (hlbl : lbl ≠ []) :
    ∀ x ∈ (require_taxon_labels ls lbl).1, x ≠ [] := by
  by_cases hm : lbl ∈ ls
  · rw [(require_taxon_labels_mem ls lbl hm).1]
    exact hls
  · rw [(require_taxon_labels_not_mem ls lbl hm).1]
    intro x hx
    rcases List.mem_append.mp hx with h | h
    · exact hls x h
    · simp at h
      subst h
      exact hlbl

/-- Fold taxon registration over a list of labels, in order. -/
def registerAll (ls : List (List Char)) (labels : List (List Char)) : List (List Char) :=
  ls.foldl (fun acc l => (require_taxon_labels acc l).1) labels

theorem registerAll_mono (ls : List (List Char)) :
    ∀ (labels : List (List Char)) (x : List Char),
      x ∈ labels → x ∈ registerAll ls labels := by
  induction ls with
  | nil => intro labels x h; exact h
  | cons l ls ih =>
      intro labels x h
      exact ih _ x (require_taxon_labels_mono labels l x h)

theorem registerAll_mem_arg (ls : List (List Char)) :
    ∀ (labels : List (List Char)) (x : List Char),
      x ∈ ls → x ∈ registerAll ls labels := by
  induction ls with
  | nil => intro labels x h; cases h
  | cons l ls ih =>
      intro labels x h
      rcases List.mem_cons.mp h with h1 | h1
      · subst h1
        exact registerAll_mono ls _ x (require_taxon_labels_self_mem labels x)
      · exact ih _ x h1

theorem registerAll_noop (ls : List (List Char)) :
    ∀ labels : List (List Char), (∀ l ∈ ls, l ∈ labels) →
      registerAll ls labels = labels := by
  induction ls with
  | nil => intro labels _; rfl
  | cons l ls ih =>
      intro labels h
      have h1 : l ∈ labels := h l (List.mem_cons_self l ls)
      have h2 : (require_taxon_labels labels l).1 = labels :=
        (require_taxon_labels_mem labels l h1).1
      show registerAll ls (require_taxon_labels labels l).1 = labels
      rw [h2]
      exact ih labels (fun x hx => h x (List.mem_cons_of_mem l hx))

theorem registerAll_nodup (ls : List (List Char)) :
    ∀ labels : List (List Char), labels.Nodup → (registerAll ls labels).Nodup := by
  induction ls with
  | nil => intro labels h; exact h
  | cons l ls ih =>
      intro labels h
      exact ih _ (require_taxon_labels_nodup labels l h)

theorem registerAll_ne_nil (ls : List (List Char)) :
    ∀ labels : List (List Char), (∀ x ∈ labels, x ≠ []) → (∀ x ∈ ls, x ≠ []) →
      ∀ x ∈ registerAll ls labels, x ≠ [] := by
  induction ls with
  | nil => intro labels h _; exact h
  | cons l ls ih =>
      intro labels h hl
      exact ih _
        (require_taxon_labels_ne_nil labels l h (hl l (List.mem_cons_self l ls)))
        (fun x hx => hl x (List.mem_cons_of_mem l hx))

theorem registerAll_of_nodup_append : ∀ (L acc : List (List Char)),
    (acc ++ L).Nodup → registerAll L acc = acc ++ L := by
  intro L
  induction L with
  | nil => intro acc h; simp [registerAll]
  | cons l L ih =>
      intro acc h
      have hdis := (List.nodup_append.mp h).2.2
      have hnm : l ∉ acc := fun hm => hdis hm (List.mem_cons_self l L)
      have h2 : (require_taxon_labels acc l).1 = acc ++ [l] :=
        (require_taxon_labels_not_mem acc l hnm).1
      show registerAll L (require_taxon_labels acc l).1 = acc ++ l :: L
      rw [h2]
      have h3 : ((acc ++ [l]) ++ L).Nodup := by
        rw [List.append_assoc]
        simpa using h
      rw [ih (acc ++ [l]) h3]
      simp

/-- Characters allowed in an unquoted NEXUS token: alphanumerics and the
underscore (which stands for a space). -/
def isNexusTokenChar (c : Char) : Bool := c.isAlphanum || c = '_'

/-- NEXUS unquoted-label decoding: underscores are translated to spaces. -/
def underscoreToSpace (c : Char) : Char := if c = '_' then spaceChar else c

/-- NEXUS unquoted-label encoding: spaces are rendered as underscores. -/
def spaceToUnderscore (c : Char) : Char := if c = spaceChar then '_' else c

/-- Labels renderable as an unquoted NEXUS token (spaces become
underscores): nonempty, every character alphanumeric or a space. -/
def bareNexusOk (l : List Char) : Bool :=
  !l.isEmpty && l.all (fun c => c.isAlphanum || c = spaceChar)

/-- Modelled from the spec: canonical NEXUS label rendering — an unquoted
token with spaces as underscores when possible, otherwise single-quoted with
doubled internal quotes. -/
def printNexusLabel (l : List Char) : List Char :=
  if bareNexusOk l then l.map spaceToUnderscore
  else quoteChar :: (escQ l ++ [quoteChar])

/-- Read one NEXUS label: quoted verbatim, or an unquoted token whose
underscores are translated to spaces. -/
def parseNexusLabel (input : List Char) : Except ParseError (List Char × List Char) :=
  match input with
  | c :: rest =>
      if c = quoteChar then readQuoted (rest.length + 1) rest
      else .ok ((input.takeWhile isNexusTokenChar).map underscoreToSpace,
                input.dropWhile isNexusTokenChar)
  | [] => .ok ([], [])

/-- NEXUS keyword `BEGIN`. -/
def kwBEGIN : List Char := ['B', 'E', 'G', 'I', 'N']

/-- NEXUS keyword `TAXA`. -/
def kwTAXA : List Char := ['T', 'A', 'X', 'A']

/-- NEXUS keyword `TREES`. -/
def kwTREES : List Char := ['T', 'R', 'E', 'E', 'S']

/-- NEXUS keyword `TRANSLATE`. -/
def kwTRANSLATE : List Char := ['T', 'R', 'A', 'N', 'S', 'L', 'A', 'T', 'E']

/-- NEXUS keyword `TREE`. -/
def kwTREE : List Char := ['T', 'R', 'E', 'E']

/-- NEXUS keyword `END`. -/
def kwEND : List Char := ['E', 'N', 'D']

/-- Consume a literal keyword at the head of the input. -/
def dropLit (kw input : List Char) : Option (List Char) :=
  if input.take kw.length = kw then some (input.drop kw.length) else none

mutual
/-- Leaf labels of a tree, left to right. -/
def leafLabelsT : NTree → List (List Char)
  | .leaf l _ => [l]
  | .node ts _ _ => leafLabelsL ts
def leafLabelsL : NTreeList → List (List Char)
  | .one t => leafLabelsT t
  | .more t ts => leafLabelsT t ++ leafLabelsL ts
end

mutual
/-- Replace every leaf label by its numeric TRANSLATE token (position of the
label in the registry, one-based). -/
def replaceLeavesT (labels : List (List Char)) : NTree → NTree
  | .leaf l el => .leaf (natToDigits ((require_taxon_labels labels l).2 + 1)) el
  | .node ts lbl el => .node (replaceLeavesL labels ts) lbl el
def replaceLeavesL (labels : List (List Char)) : NTreeList → NTreeList
  | .one t => .one (replaceLeavesT labels t)
  | .more t ts => .more (replaceLeavesT labels t) (replaceLeavesL labels ts)
end

/-- The label registry a trees block is written against: the block's own
namespace extended (in leaf order) by any leaf label not yet registered —
the writer infers the taxa of the block before serializing it. -/
def block_labels (b : TreesBlock) : List (List Char) :=
  registerAll ((b.tree_list.map (fun t => leafLabelsT t.root)).flatten) b.taxa_block.labels

/-- Rendered TRANSLATE pairs `token label`, comma-separated, ending with the
closing semicolon. -/
def transPairs : List (List Char) → Nat → List Char
  | [], _ => [';']
  | l :: rest, i =>
      natToDigits (i + 1) ++ spaceChar :: (printNexusLabel l ++
        (match rest with
         | [] => [';']
         | _ :: _ => ',' :: transPairs rest (i + 1)))

/-- The token-to-label association list a TRANSLATE table denotes. -/
def transTable : List (List Char) → Nat → List (List Char × List Char)
  | [], _ => []
  | l :: rest, i => (natToDigits (i + 1), l) :: transTable rest (i + 1)

/-- One rendered `TREE name = tree;` statement over the numeric tokens. -/
def treeStmt (labels : List (List Char)) (k : Nat) (t : Tree) : List Char :=
  kwTREE ++ spaceChar :: ('t' :: (natToDigits (k + 1) ++ '=' ::
    (rootingMark t.is_rooted ++ (compose_newick (replaceLeavesT labels t.root) ++ [';']))))

/-- All rendered tree statements of a block, numbered from `k`. -/
def treeStmts (labels : List (List Char)) : List Tree → Nat → List Char
  | [], _ => []
  | t :: rest, k => treeStmt labels k t ++ treeStmts labels rest (k + 1)

/-- Modelled from the spec: the NEXUS rendering of one trees block:
`BEGIN TREES;` then the TRANSLATE table over the block's inferred labels,
then one `TREE name = tree;` statement per tree, then `END;`. -/
def write_nexus_block (b : TreesBlock) : List Char :=
  kwBEGIN ++ spaceChar :: (kwTREES ++ ';' :: (kwTRANSLATE ++ spaceChar ::
    (transPairs (block_labels b) 0 ++
      (treeStmts (block_labels b) b.tree_list 0 ++ (kwEND ++ [';'])))))

/-- Modelled from the spec: `NexusWriter.write_dataset`: the rendered blocks,
in order. -/
def write_nexus (d : Dataset) : List Char :=
  (d.trees_blocks.map write_nexus_block).flatten

/-- Read the TRANSLATE pairs up to and including the closing semicolon,
registering each taxon label in order. -/
def parseTranslatePairs : Nat → List Char → List (List Char) →
    Except ParseError (List (List Char × List Char) × List (List Char) × List Char)
  | 0, _, _ => .error .outOfFuel
  | fuel + 1, input, reg =>
      match skipWS input with
      | [] => .error .unexpectedEnd
      | c :: rest =>
          if c = ';' then .ok ([], reg, rest)
          else
            let tok := (c :: rest).takeWhile isDigitChar
            let r2 := (c :: rest).dropWhile isDigitChar
            if tok.isEmpty then .error .unexpectedToken
            else
              match parseNexusLabel (skipWS r2) with
              | .error e => .error e
              | .ok (lbl, r3) =>
                  if lbl.isEmpty then .error .unexpectedToken
                  else
                    match skipWS r3 with
                    | [] => .error .unexpectedEnd
                    | c2 :: rest2 =>
                        if c2 = ',' then
                          match parseTranslatePairs fuel rest2
                              ((require_taxon_labels reg lbl).1) with
                          | .error e => .error e
                          | .ok (tbl, reg2, r5) => .ok ((tok, lbl) :: tbl, reg2, r5)
                        else if c2 = ';' then
                          .ok ([(tok, lbl)], (require_taxon_labels reg lbl).1, rest2)
                        else .error .unexpectedToken

/-- Look a token up in a TRANSLATE association list. -/
def lookupTok : List (List Char × List Char) → List Char → Option (List Char)
  | [], _ => none
  | (k, v) :: rest, tok => if k = tok then some v else lookupTok rest tok

mutual
/-- Resolve every leaf token of a parsed tree through the TRANSLATE table; an
unresolvable token is a `labelMismatch`. -/
def mapLeavesT (tbl : List (List Char × List Char)) : NTree → Except ParseError NTree
  | .leaf l el =>
      match lookupTok tbl l with
      | some lbl => .ok (.leaf lbl el)
      | none => .error .labelMismatch
  | .node ts lbl el =>
      match mapLeavesL tbl ts with
      | .error e => .error e
      | .ok ts2 => .ok (.node ts2 lbl el)
def mapLeavesL (tbl : List (List Char × List Char)) : NTreeList → Except ParseError NTreeList
  | .one t =>
      match mapLeavesT tbl t with
      | .error e => .error e
      | .ok t2 => .ok (.one t2)
  | .more t ts =>
      match mapLeavesT tbl t with
      | .error e => .error e
      | .ok t2 =>
          match mapLeavesL tbl ts with
          | .error e => .error e
          | .ok ts2 => .ok (.more t2 ts2)
end

/-- Read `TREE name = tree;` statements until the closing `END;` of the
block, resolving leaf tokens through the TRANSLATE table. -/
def parseTreeStmts : Nat → List Char → List (List Char × List Char) →
    Except ParseError (List Tree × List Char)
  | 0, _, _ => .error .outOfFuel
  | fuel + 1, input, tbl =>
      let r := skipWS input
      match dropLit kwEND r with
      | some r2 =>
          (match skipWS r2 with
           | c :: rest => if c = ';' then .ok ([], rest) else .error .unexpectedToken
           | [] => .error .unexpectedEnd)
      | none =>
          match dropLit kwTREE r with
          | none => .error .unexpectedToken
          | some r2 =>
              let r3 := skipWS r2
              let name := r3.takeWhile isNexusTokenChar
              let r4 := r3.dropWhile isNexusTokenChar
              if name.isEmpty then .error .unexpectedToken
              else
                match skipWS r4 with
                | [] => .error .unexpectedEnd
                | c :: rest =>
                    if c = '=' then
                      let p := parseRooting (skipWS rest)
                      match parseTree ((skipWS rest).length + 1) p.2 ⟨[]⟩ with
                      | .error e => .error e
                      | .ok (t0, _, rest2) =>
                          match mapLeavesT tbl t0 with
                          | .error e => .error e
                          | .ok t1 =>
                              match skipWS rest2 with
                              | [] => .error .unexpectedEnd
                              | c2 :: rest3 =>
                                  if c2 = ';' then
                                    match parseTreeStmts fuel rest3 tbl with
                                    | .error e => .error e
                                    | .ok (ts, r5) => .ok (⟨p.1, t1⟩ :: ts, r5)
                                  else .error .unexpectedToken
                    else .error .unexpectedToken

/-- Skip to just past the next `END;`, discarding the skipped content (used
for TAXA blocks, whose labels are re-registered lazily anyway). -/
def skipPastEnd : Nat → List Char → Option (List Char)
  | 0, _ => none
  | fuel + 1, input =>
      match input with
      | [] => none
      | c :: rest =>
          match dropLit (kwEND ++ [';']) (c :: rest) with
          | some r => some r
          | none => skipPastEnd fuel rest

/-- Read the sequence of NEXUS blocks: TAXA blocks are skipped (taxa being
registered lazily from the TRANSLATE tables), each TREES block yields one
`TreesBlock` with its own namespace populated from its TRANSLATE table. -/
def parseNexusBlocks : Nat → List Char → Except ParseError (List TreesBlock)
  | 0, _ => .error .outOfFuel
  | fuel + 1, input =>
      let r := skipWS input
      if r.isEmpty then .ok []
      else
        match dropLit kwBEGIN r with
        | none => .error .unexpectedToken
        | some r2 =>
            let r3 := skipWS r2
            match dropLit kwTAXA r3 with
            | some r4 =>
                match skipPastEnd (r4.length + 1) r4 with
                | none => .error .unexpectedEnd
                | some r5 => parseNexusBlocks fuel r5
            | none =>
                match dropLit kwTREES r3 with
                | none => .error .unexpectedToken
                | some r4 =>
                    match skipWS r4 with
                    | [] => .error .unexpectedEnd
                    | c :: rest =>
                        if c = ';' then
                          match dropLit kwTRANSLATE (skipWS rest) with
                          | none => .error .unexpectedToken
                          | some r6 =>
                              match parseTranslatePairs (r6.length + 1) r6 [] with
                              | .error e => .error e
                              | .ok (tbl, reg, r7) =>
                                  match parseTreeStmts (r7.length + 1) r7 tbl with
                                  | .error e => .error e
                                  | .ok (ts, r8) =>
                                      match parseNexusBlocks fuel r8 with
                                      | .error e => .error e
                                      | .ok bs => .ok (⟨⟨reg⟩, ts⟩ :: bs)
                        else .error .unexpectedToken

/-- Modelled from the spec: the NEXUS reader: every `BEGIN TREES ... END;`
block of the document becomes one trees block whose namespace is populated
from its TRANSLATE table. -/
def read_nexus (input : List Char) : Except ParseError Dataset :=
  match parseNexusBlocks (input.length + 1) input with
  | .error e => .error e
  | .ok bs => .ok ⟨bs⟩

theorem dropLit_self (kw X : List Char) : dropLit kw (kw ++ X) = some X := by
  simp [dropLit, List.take_left, List.drop_left]

theorem nexus_bare_char_token (c : Char) (h : (c.isAlphanum || c = spaceChar) = true) :
    isNexusTokenChar (spaceToUnderscore c) = true := by
  by_cases hs : c = spaceChar
  · subst hs
    decide
  · have ha : c.isAlphanum = true := by
      simp only [Bool.or_eq_true, decide_eq_true_eq] at h
      rcases h with h | h
      · exact h
      · exact absurd h hs
    simp [spaceToUnderscore, hs, isNexusTokenChar, ha]

theorem nexus_bare_char_ne_quote (c : Char) (h : (c.isAlphanum || c = spaceChar) = true) :
    ¬(spaceToUnderscore c = quoteChar) := by
  by_cases hs : c = spaceChar
  · subst hs
    decide
  · have ha : c.isAlphanum = true := by
      simp only [Bool.or_eq_true, decide_eq_true_eq] at h
      rcases h with h | h
      · exact h
      · exact absurd h hs
    intro he
    simp only [spaceToUnderscore, if_neg hs] at he
    rw [he] at ha
    exact absurd ha (by decide)

theorem nexus_u2s_s2u (c : Char) (h : (c.isAlphanum || c = spaceChar) = true) :
    underscoreToSpace (spaceToUnderscore c) = c := by
  by_cases hs : c = spaceChar
  · subst hs
    decide
  · have ha : c.isAlphanum = true := by
      simp only [Bool.or_eq_true, decide_eq_true_eq] at h
      rcases h with h | h
      · exact h
      · exact absurd h hs
    have hu : ¬(c = '_') := by
      intro he
      rw [he] at ha
      exact absurd ha (by decide)
    simp [spaceToUnderscore, hs, underscoreToSpace, hu]

theorem map_u2s_s2u (l : List Char)
    (h : l.all (fun c => c.isAlphanum || c = spaceChar) = true) :
    (l.map spaceToUnderscore).map underscoreToSpace = l := by
  induction l with
  | nil => rfl
  | cons c cs ih =>
      simp only [List.all_cons, Bool.and_eq_true] at h
      simp [nexus_u2s_s2u c h.1, ih h.2]

theorem nexus_token_not_WS (c : Char) (h : isNexusTokenChar c = true) : isWS c = false := by
  simp only [isNexusTokenChar, Bool.or_eq_true, decide_eq_true_eq] at h
  rcases h with h | h
  · exact labelChar_not_WS c h
  · subst h
    decide

/-- Continuations at which a NEXUS label read must stop. -/
def nexusLabelStop : List Char → Prop
  | [] => True
  | c :: _ => isNexusTokenChar c = false ∧ c ≠ quoteChar ∧ isWS c = false

theorem printNexusLabel_head (l : List Char) (hne : l ≠ []) :
    ∃ c cs, printNexusLabel l = c :: cs ∧ isWS c = false := by
  by_cases hb : bareNexusOk l = true
  · obtain ⟨c0, cs0, rfl⟩ : ∃ c0 cs0, l = c0 :: cs0 := by
      cases l with
      | nil => exact absurd rfl hne
      | cons a b => exact ⟨a, b, rfl⟩
    have hc : (c0.isAlphanum || c0 = spaceChar) = true := by
      simp only [bareNexusOk, Bool.and_eq_true] at hb
      have := List.all_eq_true.mp hb.2 c0 (by simp)
      simpa using this
    refine ⟨spaceToUnderscore c0, cs0.map spaceToUnderscore, ?_, ?_⟩
    · simp [printNexusLabel, hb]
    · exact nexus_token_not_WS _ (nexus_bare_char_token c0 hc)
  · have hb2 : bareNexusOk l = false := by simpa using hb
    exact ⟨quoteChar, escQ l ++ [quoteChar], by simp [printNexusLabel, hb2], by decide⟩

theorem parseNexusLabel_print (l rest : List Char) (hne : l ≠ [])
    (hstop : nexusLabelStop rest) :
    parseNexusLabel (printNexusLabel l ++ rest) = .ok (l, rest) := by
  by_cases hb : bareNexusOk l = true
  · have hall : l.all (fun c => c.isAlphanum || c = spaceChar) = true := by
      simp only [bareNexusOk, Bool.and_eq_true] at hb
      exact hb.2
    have htokall : (l.map spaceToUnderscore).all isNexusTokenChar = true := by
      rw [List.all_eq_true]
      intro x hx
      obtain ⟨c, hc, rfl⟩ := List.mem_map.mp hx
      exact nexus_bare_char_token c (List.all_eq_true.mp hall c hc)
    have hmap := map_u2s_s2u l hall
    obtain ⟨c0, cs0, rfl⟩ : ∃ c0 cs0, l = c0 :: cs0 := by
      cases l with
      | nil => exact absurd rfl hne
      | cons a b => exact ⟨a, b, rfl⟩
    have hc0 : (c0.isAlphanum || c0 = spaceChar) = true := by
      have := List.all_eq_true.mp hall c0 (by simp)
      simpa using this
    have hq0 : ¬(spaceToUnderscore c0 = quoteChar) := nexus_bare_char_ne_quote c0 hc0
    have hstop2 : headNot isNexusTokenChar rest := by
      cases rest with
      | nil => trivial
      | cons d ds => exact hstop.1
    have htw := takeWhile_append_stop isNexusTokenChar ((c0 :: cs0).map spaceToUnderscore)
      rest htokall hstop2
    have ht1 := htw.1
    have ht2 := htw.2
    simp only [List.map_cons, List.cons_append] at ht1 ht2
    simp only [printNexusLabel, if_pos hb, List.map_cons, List.cons_append,
      parseNexusLabel, if_neg hq0]
    rw [ht1, ht2]
    show Except.ok (((c0 :: cs0).map spaceToUnderscore).map underscoreToSpace, rest)
      = Except.ok (c0 :: cs0, rest)
    rw [hmap]
  · have hb2 : bareNexusOk l = false := by simpa using hb
    have hrest : rest = [] ∨ ∀ c ∈ rest.head?, c ≠ quoteChar := by
      cases rest with
      | nil => exact Or.inl rfl
      | cons d ds =>
          refine Or.inr ?_
          intro c hc
          simp at hc
          subst hc
          exact hstop.2.1
    have hq := readQuoted_escape l ((escQ l ++ quoteChar :: rest).length + 1) rest
      (by simp; omega) hrest
    have harr : printNexusLabel l ++ rest = quoteChar :: (escQ l ++ quoteChar :: rest) := by
      simp [printNexusLabel, hb2]
    rw [harr]
    simp only [parseNexusLabel, if_true]
    simpa using hq

theorem parseTranslatePairs_pair (fuel i : Nat) (reg : List (List Char)) (l : List Char)
    (hne : l ≠ []) (c2 : Char) (rest2 : List Char) (hc2 : c2 = ',' ∨ c2 = ';') :
    parseTranslatePairs (fuel + 1)
        (natToDigits (i + 1) ++ spaceChar :: (printNexusLabel l ++ c2 :: rest2)) reg
      = if c2 = ',' then
          (match parseTranslatePairs fuel rest2 ((require_taxon_labels reg l).1) with
           | .error e => .error e
           | .ok (tbl, reg2, r5) => .ok ((natToDigits (i + 1), l) :: tbl, reg2, r5))
        else .ok ([(natToDigits (i + 1), l)], (require_taxon_labels reg l).1, rest2) := by
  obtain ⟨d0, ds0, hdig⟩ : ∃ d0 ds0, natToDigits (i + 1) = d0 :: ds0 := by
    cases hd : natToDigits (i + 1) with
    | nil => exact absurd hd (natToDigits_ne_nil _)
    | cons a b => exact ⟨a, b, rfl⟩
  have halldig : ∀ c ∈ natToDigits (i + 1), isDigitChar c = true := by
    simpa [List.all_eq_true] using natToDigits_digits (i + 1)
  have hd0 : isDigitChar d0 = true := halldig d0 (by rw [hdig]; simp)
  have hnws : isWS d0 = false := digitChar_not_WS d0 hd0
  have hns : ¬(d0 = ';') := by
    intro he
    rw [he] at hd0
    exact absurd hd0 (by decide)
  have hin : natToDigits (i + 1) ++ spaceChar :: (printNexusLabel l ++ c2 :: rest2)
      = d0 :: (ds0 ++ spaceChar :: (printNexusLabel l ++ c2 :: rest2)) := by
    rw [hdig]
    rfl
  have hsk0 : skipWS (natToDigits (i + 1) ++ spaceChar :: (printNexusLabel l ++ c2 :: rest2))
      = d0 :: (ds0 ++ spaceChar :: (printNexusLabel l ++ c2 :: rest2)) := by
    rw [hin]
    exact skipWS_eq _ hnws
  have htw := takeWhile_append_stop isDigitChar (natToDigits (i + 1))
      (spaceChar :: (printNexusLabel l ++ c2 :: rest2)) (natToDigits_digits (i + 1))
      (show isDigitChar spaceChar = false by decide)
  have ht1 := htw.1
  have ht2 := htw.2
  rw [hdig] at ht1 ht2
  simp only [List.cons_append] at ht1 ht2
  obtain ⟨cl, csl, hpl, hplws⟩ := printNexusLabel_head l hne
  have hsk1 : skipWS (printNexusLabel l ++ c2 :: rest2) = printNexusLabel l ++ c2 :: rest2 := by
    apply skipWS_eq
    rw [hpl]
    exact hplws
  have hsk2 : skipWS (spaceChar :: (printNexusLabel l ++ c2 :: rest2))
      = printNexusLabel l ++ c2 :: rest2 := by
    simp only [skipWS, List.dropWhile_cons]
    rw [if_pos (show isWS spaceChar = true by decide)]
    exact hsk1
  have hstop : nexusLabelStop (c2 :: rest2) := by
    rcases hc2 with h | h <;> (subst h; exact ⟨by decide, by decide, by decide⟩)
  have hplab := parseNexusLabel_print l (c2 :: rest2) hne hstop
  have hle : l.isEmpty = false := by
    cases l with
    | nil => exact absurd rfl hne
    | cons a b => rfl
  have hskl : skipWS (c2 :: rest2) = c2 :: rest2 := by
    apply skipWS_eq
    rcases hc2 with h | h
    · subst h
      exact (show isWS ',' = false by decide)
    · subst h
      exact (show isWS ';' = false by decide)
  simp only [parseTranslatePairs]
  rw [hsk0]
  simp only [hns, ht1, ht2, hle, hsk2, hplab, hskl]
  rw [← hdig]
  rcases hc2 with h | h
  · subst h
    simp [natToDigits_ne_nil]
  · subst h
    simp [natToDigits_ne_nil]

theorem transPairs_length : ∀ (L : List (List Char)) (i : Nat),
    L.length ≤ (transPairs L i).length := by
  intro L
  induction L with
  | nil => intro i; simp [transPairs]
  | cons l L ih =>
      intro i
      cases L with
      | nil =>
          simp only [transPairs, List.length_append, List.length_cons, List.length_nil]
          omega
      | cons l2 L2 =>
          have := ih (i + 1)
          simp only [transPairs, List.length_append, List.length_cons] at this ⊢
          omega

theorem parseTranslatePairs_print : ∀ (L : List (List Char)) (i : Nat) (fuel : Nat)
    (reg : List (List Char)) (rest : List Char),
    L.length < fuel → (∀ l ∈ L, l ≠ []) →
    parseTranslatePairs fuel (transPairs L i ++ rest) reg
      = .ok (transTable L i, registerAll L reg, rest) := by
  intro L
  induction L with
  | nil =>
      intro i fuel reg rest hf _
      match fuel, hf with
      | f + 1, _ =>
        have hskl : skipWS (';' :: rest) = ';' :: rest :=
          skipWS_eq _ (show isWS ';' = false by decide)
        simp [parseTranslatePairs, transPairs, hskl, transTable, registerAll]
  | cons l L ih =>
      intro i fuel reg rest hf hne
      match fuel, hf with
      | f + 1, hf =>
        have hnel : l ≠ [] := hne l (by simp)
        cases L with
        | nil =>
            have harr : transPairs [l] i ++ rest
                = natToDigits (i + 1) ++ spaceChar :: (printNexusLabel l ++ ';' :: rest) := by
              simp [transPairs]
            rw [harr, parseTranslatePairs_pair f i reg l hnel ';' rest (Or.inr rfl)]
            simp [transTable, registerAll]
        | cons l2 L2 =>
            have harr : transPairs (l :: l2 :: L2) i ++ rest
                = natToDigits (i + 1) ++ spaceChar ::
                    (printNexusLabel l ++ ',' :: (transPairs (l2 :: L2) (i + 1) ++ rest)) := by
              simp [transPairs]
            rw [harr, parseTranslatePairs_pair f i reg l hnel ','
              (transPairs (l2 :: L2) (i + 1) ++ rest) (Or.inl rfl)]
            have hrec := ih (i + 1) f ((require_taxon_labels reg l).1) rest
              (by simpa using hf) (fun x hx => hne x (by simp [hx]))
            simp [hrec, transTable, registerAll]

theorem lookupTok_transTable : ∀ (L : List (List Char)) (i j : Nat) (l : List Char),
    L.get? j = some l →
    lookupTok (transTable L i) (natToDigits (i + j + 1)) = some l := by
  intro L
  induction L with
  | nil =>
      intro i j l h
      simp at h
  | cons x L ih =>
      intro i j l h
      cases j with
      | zero =>
          simp only [List.get?_cons_zero, Option.some.injEq] at h
          subst h
          simp [transTable, lookupTok]
      | succ j =>
          simp only [List.get?_cons_succ] at h
          have hkey : ¬(natToDigits (i + 1) = natToDigits (i + (j + 1) + 1)) := by
            intro he
            have := natToDigits_inj _ _ he
            omega
          have hrec := ih (i + 1) j l h
          have harg : i + 1 + j + 1 = i + (j + 1) + 1 := by omega
          rw [harg] at hrec
          simp [transTable, lookupTok, hkey, hrec]

/-- A digit character is a NEXUS token character. -/
theorem digit_token (c : Char) (h : isDigitChar c = true) : isNexusTokenChar c = true := by
  simp only [isDigitChar] at h
  simp [isNexusTokenChar, Char.isAlphanum, h]

mutual
theorem wf_replaceT : ∀ (L : List (List Char)) (t : NTree), wfTree t = true →
    wfTree (replaceLeavesT L t) = true
  | L, .leaf l el, h => by
      simp only [wfTree, Bool.and_eq_true] at h
      have hne : (natToDigits ((require_taxon_labels L l).2 + 1)).isEmpty = false := by
        cases hd : natToDigits ((require_taxon_labels L l).2 + 1) with
        | nil => exact absurd hd (natToDigits_ne_nil _)
        | cons a b => rfl
      simp [replaceLeavesT, wfTree, hne, h.2]
  | L, .node ts lbl el, h => by
      simp only [wfTree, Bool.and_eq_true] at h
      simp [replaceLeavesT, wfTree, wf_replaceL L ts h.1.1, h.1.2, h.2]
theorem wf_replaceL : ∀ (L : List (List Char)) (ts : NTreeList), wfList ts = true →
    wfList (replaceLeavesL L ts) = true
  | L, .one t, h => by
      simp only [wfList] at h
      simp [replaceLeavesL, wfList, wf_replaceT L t h]
  | L, .more t ts, h => by
      simp only [wfList, Bool.and_eq_true] at h
      simp [replaceLeavesL, wfList, wf_replaceT L t h.1, wf_replaceL L ts h.2]
end

mutual
theorem mapLeavesT_replace : ∀ (L : List (List Char)) (t : NTree),
    (∀ l ∈ leafLabelsT t, l ∈ L) →
    mapLeavesT (transTable L 0) (replaceLeavesT L t) = .ok t
  | L, .leaf l el, h => by
      have hmem : l ∈ L := h l (by simp [leafLabelsT])
      have hget := (require_taxon_labels_mem L l hmem).2
      have hlook := lookupTok_transTable L 0 (require_taxon_labels L l).2 l hget
      have harg : 0 + (require_taxon_labels L l).2 + 1 = (require_taxon_labels L l).2 + 1 := by
        omega
      rw [harg] at hlook
      simp [replaceLeavesT, mapLeavesT, hlook]
  | L, .node ts lbl el, h => by
      have hrec := mapLeavesL_replace L ts (by
        intro x hx
        exact h x (by simpa [leafLabelsT] using hx))
      simp [replaceLeavesT, mapLeavesT, hrec]
theorem mapLeavesL_replace : ∀ (L : List (List Char)) (ts : NTreeList),
    (∀ l ∈ leafLabelsL ts, l ∈ L) →
    mapLeavesL (transTable L 0) (replaceLeavesL L ts) = .ok ts
  | L, .one t, h => by
      have hrec := mapLeavesT_replace L t (by
        intro x hx
        exact h x (by simpa [leafLabelsL] using hx))
      simp [replaceLeavesL, mapLeavesL, hrec]
  | L, .more t ts, h => by
      have hrec1 := mapLeavesT_replace L t (by
        intro x hx
        exact h x (by simp [leafLabelsL, hx]))
      have hrec2 := mapLeavesL_replace L ts (by
        intro x hx
        exact h x (by simp [leafLabelsL, hx]))
      simp [replaceLeavesL, mapLeavesL, hrec1, hrec2]
end

theorem dropLit_END_TREE (X : List Char) : dropLit kwEND (kwTREE ++ X) = none := by
  have h : List.take kwEND.length (kwTREE ++ X) = ['T', 'R', 'E'] := rfl
  simp only [dropLit]
  rw [h]
  rw [if_neg (show ¬(['T', 'R', 'E'] = kwEND) by decide)]

theorem parseTreeStmts_print : ∀ (ts : List Tree) (k fuel : Nat) (L : List (List Char))
    (rest : List Char),
    ts.length < fuel →
    (∀ t ∈ ts, wfTree t.root = true) →
    (∀ t ∈ ts, ∀ l ∈ leafLabelsT t.root, l ∈ L) →
    parseTreeStmts fuel (treeStmts L ts k ++ (kwEND ++ ';' :: rest)) (transTable L 0)
      = .ok (ts, rest) := by
  intro ts
  induction ts with
  | nil =>
      intro k fuel L rest hf _ _
      match fuel, hf with
      | f + 1, _ =>
        have hsk : skipWS (kwEND ++ ';' :: rest) = kwEND ++ ';' :: rest :=
          skipWS_eq _ (show isWS 'E' = false by decide)
        have hdl := dropLit_self kwEND (';' :: rest)
        have hsk2 : skipWS (';' :: rest) = ';' :: rest :=
          skipWS_eq _ (show isWS ';' = false by decide)
        simp [parseTreeStmts, treeStmts, hsk, hdl, hsk2]
  | cons t ts ih =>
      intro k fuel L rest hf hwf hlv
      match fuel, hf with
      | f + 1, hf =>
        have hwt : wfTree t.root = true := hwf t (by simp)
        have hrepl : wfTree (replaceLeavesT L t.root) = true := wf_replaceT L t.root hwt
        have hin : treeStmts L (t :: ts) k ++ (kwEND ++ ';' :: rest)
            = kwTREE ++ spaceChar :: ('t' :: (natToDigits (k + 1) ++ '=' ::
                (rootingMark t.is_rooted ++ (compose_newick (replaceLeavesT L t.root)
                  ++ ';' :: (treeStmts L ts (k + 1) ++ (kwEND ++ ';' :: rest)))))) := by
          simp [treeStmts, treeStmt]
        have hskin : skipWS (kwTREE ++ spaceChar :: ('t' :: (natToDigits (k + 1) ++ '=' ::
            (rootingMark t.is_rooted ++ (compose_newick (replaceLeavesT L t.root)
              ++ ';' :: (treeStmts L ts (k + 1) ++ (kwEND ++ ';' :: rest)))))))
            = kwTREE ++ spaceChar :: ('t' :: (natToDigits (k + 1) ++ '=' ::
                (rootingMark t.is_rooted ++ (compose_newick (replaceLeavesT L t.root)
                  ++ ';' :: (treeStmts L ts (k + 1) ++ (kwEND ++ ';' :: rest)))))) :=
          skipWS_eq _ (show isWS 'T' = false by decide)
        have hend := dropLit_END_TREE (spaceChar :: ('t' :: (natToDigits (k + 1) ++ '=' ::
            (rootingMark t.is_rooted ++ (compose_newick (replaceLeavesT L t.root)
              ++ ';' :: (treeStmts L ts (k + 1) ++ (kwEND ++ ';' :: rest)))))))
        have htree := dropLit_self kwTREE (spaceChar :: ('t' :: (natToDigits (k + 1) ++ '=' ::
            (rootingMark t.is_rooted ++ (compose_newick (replaceLeavesT L t.root)
              ++ ';' :: (treeStmts L ts (k + 1) ++ (kwEND ++ ';' :: rest)))))))
        have hsk3 : skipWS (spaceChar :: ('t' :: (natToDigits (k + 1) ++ '=' ::
            (rootingMark t.is_rooted ++ (compose_newick (replaceLeavesT L t.root)
              ++ ';' :: (treeStmts L ts (k + 1) ++ (kwEND ++ ';' :: rest)))))))
            = 't' :: (natToDigits (k + 1) ++ '=' ::
                (rootingMark t.is_rooted ++ (compose_newick (replaceLeavesT L t.root)
                  ++ ';' :: (treeStmts L ts (k + 1) ++ (kwEND ++ ';' :: rest))))) := by
          simp only [skipWS, List.dropWhile_cons]
          rw [if_pos (show isWS spaceChar = true by decide)]
          rw [if_neg (show ¬(isWS 't' = true) by decide)]
        have hallname : ('t' :: natToDigits (k + 1)).all isNexusTokenChar = true := by
          simp only [List.all_cons, Bool.and_eq_true]
          constructor
          · decide
          · rw [List.all_eq_true]
            intro c hc
            have halld : ∀ c ∈ natToDigits (k + 1), isDigitChar c = true := by
              simpa [List.all_eq_true] using natToDigits_digits (k + 1)
            exact digit_token c (halld c hc)
        have htw := takeWhile_append_stop isNexusTokenChar ('t' :: natToDigits (k + 1))
          ('=' :: (rootingMark t.is_rooted ++ (compose_newick (replaceLeavesT L t.root)
            ++ ';' :: (treeStmts L ts (k + 1) ++ (kwEND ++ ';' :: rest)))))
          hallname (show isNexusTokenChar '=' = false by decide)
        have ht1 := htw.1
        have ht2 := htw.2
        simp only [List.cons_append] at ht1 ht2
        have hske : skipWS ('=' :: (rootingMark t.is_rooted
            ++ (compose_newick (replaceLeavesT L t.root)
              ++ ';' :: (treeStmts L ts (k + 1) ++ (kwEND ++ ';' :: rest)))))
            = '=' :: (rootingMark t.is_rooted ++ (compose_newick (replaceLeavesT L t.root)
                ++ ';' :: (treeStmts L ts (k + 1) ++ (kwEND ++ ';' :: rest)))) :=
          skipWS_eq _ (show isWS '=' = false by decide)
        obtain ⟨c0, cs0, hX, hws0, hlb0⟩ :=
          compose_head_facts (replaceLeavesT L t.root) hrepl
            (';' :: (treeStmts L ts (k + 1) ++ (kwEND ++ ';' :: rest)))
        have hZsk : skipWS (rootingMark t.is_rooted
            ++ (compose_newick (replaceLeavesT L t.root)
              ++ ';' :: (treeStmts L ts (k + 1) ++ (kwEND ++ ';' :: rest))))
            = rootingMark t.is_rooted ++ (compose_newick (replaceLeavesT L t.root)
                ++ ';' :: (treeStmts L ts (k + 1) ++ (kwEND ++ ';' :: rest))) := by
          cases hr : t.is_rooted with
          | rooted => exact skipWS_eq _ (show isWS '[' = false by decide)
          | unrooted => exact skipWS_eq _ (show isWS '[' = false by decide)
          | unknown =>
              simp only [rootingMark, List.nil_append]
              rw [hX]
              exact skipWS_eq _ hws0
        have hroot : parseRooting (rootingMark t.is_rooted
            ++ (compose_newick (replaceLeavesT L t.root)
              ++ ';' :: (treeStmts L ts (k + 1) ++ (kwEND ++ ';' :: rest))))
            = (t.is_rooted, compose_newick (replaceLeavesT L t.root)
                ++ ';' :: (treeStmts L ts (k + 1) ++ (kwEND ++ ';' :: rest))) := by
          apply parseRooting_mark
          rw [hX]
          intro c hc
          simp at hc
          subst hc
          exact hlb0
        have hfuel : sizeT (replaceLeavesT L t.root)
            ≤ (rootingMark t.is_rooted ++ (compose_newick (replaceLeavesT L t.root)
                ++ ';' :: (treeStmts L ts (k + 1) ++ (kwEND ++ ';' :: rest)))).length + 1 := by
          have h1 := sizeT_le_compose (replaceLeavesT L t.root) hrepl
          simp only [List.length_append, List.length_cons]
          omega
        obtain ⟨tns2, hpt⟩ := (parse_print_aux
            ((rootingMark t.is_rooted ++ (compose_newick (replaceLeavesT L t.root)
              ++ ';' :: (treeStmts L ts (k + 1) ++ (kwEND ++ ';' :: rest)))).length + 1)).1
          (replaceLeavesT L t.root)
          (';' :: (treeStmts L ts (k + 1) ++ (kwEND ++ ';' :: rest))) ⟨[]⟩ hrepl hfuel
          (show (';' : Char) = ',' ∨ (';' : Char) = ')' ∨ (';' : Char) = ';' from
            Or.inr (Or.inr rfl))
        have hmap := mapLeavesT_replace L t.root (hlv t (by simp))
        have hsks : skipWS (';' :: (treeStmts L ts (k + 1) ++ (kwEND ++ ';' :: rest)))
            = ';' :: (treeStmts L ts (k + 1) ++ (kwEND ++ ';' :: rest)) :=
          skipWS_eq _ (show isWS ';' = false by decide)
        have hrec := ih (k + 1) f L rest (by simpa using hf)
          (fun u hu => hwf u (by simp [hu])) (fun u hu => hlv u (by simp [hu]))
        rw [hin]
        simp only [parseTreeStmts]
        rw [hskin]
        simp only [List.length_append, List.length_cons] at hpt
        simp [hend, htree, hsk3, ht1, ht2, hske, hZsk, hroot, hpt, hmap, hsks, hrec]

/-- The invariants every trees block produced by the NEXUS (or NeXML) reader
satisfies: a deduplicated namespace of nonempty labels, well-formed trees, and
every leaf label registered in the block's namespace. -/
def wfNexusBlock (b : TreesBlock) : Prop :=
  b.taxa_block.labels.Nodup
  ∧ (∀ l ∈ b.taxa_block.labels, l ≠ [])
  ∧ (∀ t ∈ b.tree_list, wfTree t.root = true)
  ∧ (∀ t ∈ b.tree_list, ∀ l ∈ leafLabelsT t.root, l ∈ b.taxa_block.labels)

theorem block_labels_eq (b : TreesBlock) (h : wfNexusBlock b) :
    block_labels b = b.taxa_block.labels := by
  apply registerAll_noop
  intro l hl
  simp only [List.mem_flatten, List.mem_map] at hl
  obtain ⟨g, ⟨t, ht, rfl⟩, hg⟩ := hl
  exact h.2.2.2 t ht l hg

theorem dropLit_TAXA_TREES (X : List Char) : dropLit kwTAXA (kwTREES ++ X) = none := by
  have h : List.take kwTAXA.length (kwTREES ++ X) = ['T', 'R', 'E', 'E'] := rfl
  simp only [dropLit]
  rw [h]
  rw [if_neg (show ¬(['T', 'R', 'E', 'E'] = kwTAXA) by decide)]

theorem treeStmts_length (L : List (List Char)) : ∀ (ts : List Tree) (k : Nat),
    ts.length ≤ (treeStmts L ts k).length := by
  intro ts
  induction ts with
  | nil => intro k; simp [treeStmts]
  | cons t ts ih =>
      intro k
      have := ih (k + 1)
      simp only [treeStmts, treeStmt, kwTREE, List.length_append, List.length_cons,
        List.length_nil] at this ⊢
      omega

theorem parseTranslatePairs_skip (fuel : Nat) (input : List Char)
    (reg : List (List Char)) :
    parseTranslatePairs (fuel + 1) (spaceChar :: input) reg
      = parseTranslatePairs (fuel + 1) input reg := by
  simp only [parseTranslatePairs]
  rw [show skipWS (spaceChar :: input) = skipWS input from by
    simp only [skipWS, List.dropWhile_cons]
    rw [if_pos (show isWS spaceChar = true by decide)]]

theorem write_block_parse : ∀ (bs : List TreesBlock) (fuel : Nat),
    bs.length < fuel → (∀ b ∈ bs, wfNexusBlock b) →
    parseNexusBlocks fuel ((bs.map write_nexus_block).flatten) = .ok bs := by
  intro bs
  induction bs with
  | nil =>
      intro fuel hf _
      match fuel, hf with
      | f + 1, _ => simp [parseNexusBlocks, skipWS]
  | cons b bs ih =>
      intro fuel hf hwf
      match fuel, hf with
      | f + 1, hf =>
        have hwb : wfNexusBlock b := hwf b (by simp)
        have hLeq : block_labels b = b.taxa_block.labels := block_labels_eq b hwb
        have hin : ((b :: bs).map write_nexus_block).flatten
            = kwBEGIN ++ spaceChar :: (kwTREES ++ ';' :: (kwTRANSLATE ++ spaceChar ::
                (transPairs (block_labels b) 0 ++
                  (treeStmts (block_labels b) b.tree_list 0 ++
                    (kwEND ++ ';' :: ((bs.map write_nexus_block).flatten)))))) := by
          simp [write_nexus_block]
        have hskin : skipWS (kwBEGIN ++ spaceChar :: (kwTREES ++ ';' ::
            (kwTRANSLATE ++ spaceChar :: (transPairs (block_labels b) 0 ++
              (treeStmts (block_labels b) b.tree_list 0 ++
                (kwEND ++ ';' :: ((bs.map write_nexus_block).flatten)))))))
            = kwBEGIN ++ spaceChar :: (kwTREES ++ ';' ::
                (kwTRANSLATE ++ spaceChar :: (transPairs (block_labels b) 0 ++
                  (treeStmts (block_labels b) b.tree_list 0 ++
                    (kwEND ++ ';' :: ((bs.map write_nexus_block).flatten)))))) :=
          skipWS_eq _ (show isWS 'B' = false by decide)
        have hne0 : (kwBEGIN ++ spaceChar :: (kwTREES ++ ';' ::
            (kwTRANSLATE ++ spaceChar :: (transPairs (block_labels b) 0 ++
              (treeStmts (block_labels b) b.tree_list 0 ++
                (kwEND ++ ';' :: ((bs.map write_nexus_block).flatten))))))).isEmpty
            = false := by
          rw [List.isEmpty_eq_false_iff_exists_mem]
          exact ⟨'B', by simp [kwBEGIN]⟩
        have hbeg := dropLit_self kwBEGIN (spaceChar :: (kwTREES ++ ';' ::
            (kwTRANSLATE ++ spaceChar :: (transPairs (block_labels b) 0 ++
              (treeStmts (block_labels b) b.tree_list 0 ++
                (kwEND ++ ';' :: ((bs.map write_nexus_block).flatten)))))))
        have hsk1 : skipWS (spaceChar :: (kwTREES ++ ';' ::
            (kwTRANSLATE ++ spaceChar :: (transPairs (block_labels b) 0 ++
              (treeStmts (block_labels b) b.tree_list 0 ++
                (kwEND ++ ';' :: ((bs.map write_nexus_block).flatten)))))))
            = kwTREES ++ ';' :: (kwTRANSLATE ++ spaceChar ::
                (transPairs (block_labels b) 0 ++
                  (treeStmts (block_labels b) b.tree_list 0 ++
                    (kwEND ++ ';' :: ((bs.map write_nexus_block).flatten))))) := by
          simp only [skipWS, List.dropWhile_cons]
          rw [if_pos (show isWS spaceChar = true by decide)]
          have h2 : skipWS (kwTREES ++ ';' :: (kwTRANSLATE ++ spaceChar ::
              (transPairs (block_labels b) 0 ++
                (treeStmts (block_labels b) b.tree_list 0 ++
                  (kwEND ++ ';' :: ((bs.map write_nexus_block).flatten))))))
              = kwTREES ++ ';' :: (kwTRANSLATE ++ spaceChar ::
                  (transPairs (block_labels b) 0 ++
                    (treeStmts (block_labels b) b.tree_list 0 ++
                      (kwEND ++ ';' :: ((bs.map write_nexus_block).flatten))))) :=
            skipWS_eq _ (show isWS 'T' = false by decide)
          exact h2
        have htaxa := dropLit_TAXA_TREES (';' :: (kwTRANSLATE ++ spaceChar ::
            (transPairs (block_labels b) 0 ++
              (treeStmts (block_labels b) b.tree_list 0 ++
                (kwEND ++ ';' :: ((bs.map write_nexus_block).flatten))))))
        have htrees := dropLit_self kwTREES (';' :: (kwTRANSLATE ++ spaceChar ::
            (transPairs (block_labels b) 0 ++
              (treeStmts (block_labels b) b.tree_list 0 ++
                (kwEND ++ ';' :: ((bs.map write_nexus_block).flatten))))))
        have hsk2 : skipWS (';' :: (kwTRANSLATE ++ spaceChar ::
            (transPairs (block_labels b) 0 ++
              (treeStmts (block_labels b) b.tree_list 0 ++
                (kwEND ++ ';' :: ((bs.map write_nexus_block).flatten))))))
            = ';' :: (kwTRANSLATE ++ spaceChar :: (transPairs (block_labels b) 0 ++
                (treeStmts (block_labels b) b.tree_list 0 ++
                  (kwEND ++ ';' :: ((bs.map write_nexus_block).flatten))))) :=
          skipWS_eq _ (show isWS ';' = false by decide)
        have hsk3 : skipWS (kwTRANSLATE ++ spaceChar :: (transPairs (block_labels b) 0 ++
            (treeStmts (block_labels b) b.tree_list 0 ++
              (kwEND ++ ';' :: ((bs.map write_nexus_block).flatten)))))
            = kwTRANSLATE ++ spaceChar :: (transPairs (block_labels b) 0 ++
                (treeStmts (block_labels b) b.tree_list 0 ++
                  (kwEND ++ ';' :: ((bs.map write_nexus_block).flatten)))) :=
          skipWS_eq _ (show isWS 'T' = false by decide)
        have htrans := dropLit_self kwTRANSLATE (spaceChar ::
            (transPairs (block_labels b) 0 ++
              (treeStmts (block_labels b) b.tree_list 0 ++
                (kwEND ++ ';' :: ((bs.map write_nexus_block).flatten)))))
        have hnel : ∀ l ∈ block_labels b, l ≠ [] := by
          rw [hLeq]
          exact hwb.2.1
        have hfuelp : (block_labels b).length
            < (spaceChar :: (transPairs (block_labels b) 0 ++
                (treeStmts (block_labels b) b.tree_list 0 ++
                  (kwEND ++ ';' :: ((bs.map write_nexus_block).flatten))))).length := by
          have := transPairs_length (block_labels b) 0
          simp only [List.length_cons, List.length_append]
          omega
        have hpairs : parseTranslatePairs
            ((spaceChar :: (transPairs (block_labels b) 0 ++
              (treeStmts (block_labels b) b.tree_list 0 ++
                (kwEND ++ ';' :: ((bs.map write_nexus_block).flatten))))).length + 1)
            (spaceChar :: (transPairs (block_labels b) 0 ++
              (treeStmts (block_labels b) b.tree_list 0 ++
                (kwEND ++ ';' :: ((bs.map write_nexus_block).flatten))))) []
            = .ok (transTable (block_labels b) 0, registerAll (block_labels b) [],
                treeStmts (block_labels b) b.tree_list 0 ++
                  (kwEND ++ ';' :: ((bs.map write_nexus_block).flatten))) := by
          rw [parseTranslatePairs_skip]
          exact parseTranslatePairs_print (block_labels b) 0 _ []
            (treeStmts (block_labels b) b.tree_list 0 ++
              (kwEND ++ ';' :: ((bs.map write_nexus_block).flatten)))
            (by simpa using Nat.lt_succ_of_lt hfuelp) hnel
        have hreg : registerAll (block_labels b) [] = block_labels b := by
          have := registerAll_of_nodup_append (block_labels b) []
          rw [List.nil_append] at this
          exact this (by rw [hLeq]; exact hwb.1)
        have hstmts : parseTreeStmts
            ((treeStmts (block_labels b) b.tree_list 0 ++
              (kwEND ++ ';' :: ((bs.map write_nexus_block).flatten))).length + 1)
            (treeStmts (block_labels b) b.tree_list 0 ++
              (kwEND ++ ';' :: ((bs.map write_nexus_block).flatten)))
            (transTable (block_labels b) 0)
            = .ok (b.tree_list, (bs.map write_nexus_block).flatten) := by
          apply parseTreeStmts_print
          · have := treeStmts_length (block_labels b) b.tree_list 0
            simp only [List.length_append]
            omega
          · exact hwb.2.2.1
          · intro t ht l hl
            rw [hLeq]
            exact hwb.2.2.2 t ht l hl
        have hrec := ih f (by simpa using hf) (fun x hx => hwf x (by simp [hx]))
        rw [hLeq] at hin hskin hne0 hbeg hsk1 htaxa htrees hsk2 hsk3 htrans hpairs hreg hstmts
        rw [hin]
        simp only [parseNexusBlocks]
        rw [hskin]
        simp only [List.length_cons, List.length_append, List.length_flatten,
          List.map_map] at hpairs hstmts
        simp [hne0, hbeg, hsk1, htaxa, htrees, hsk2, hsk3, htrans, hpairs, hreg,
          hstmts, hrec]

theorem write_block_length_pos (b : TreesBlock) : 1 ≤ (write_nexus_block b).length := by
  simp only [write_nexus_block, kwBEGIN, List.length_append, List.length_cons,
    List.length_nil]
  omega

theorem blocks_length_le (bs : List TreesBlock) :
    bs.length ≤ ((bs.map write_nexus_block).flatten).length := by
  induction bs with
  | nil => simp
  | cons b bs ih =>
      have := write_block_length_pos b
      simp only [List.map_cons, List.flatten_cons, List.length_append, List.length_cons]
      omega

theorem read_nexus_write (d : Dataset) (h : ∀ b ∈ d.trees_blocks, wfNexusBlock b) :
    read_nexus (write_nexus d) = .ok d := by
  unfold read_nexus write_nexus
  rw [write_block_parse d.trees_blocks
    (((d.trees_blocks.map write_nexus_block).flatten).length + 1)
    (Nat.lt_succ_of_le (blocks_length_le d.trees_blocks)) h]

theorem lookupTok_mem : ∀ (tbl : List (List Char × List Char)) (tok v : List Char),
    lookupTok tbl tok = some v → ∃ k, (k, v) ∈ tbl := by
  intro tbl
  induction tbl with
  | nil =>
      intro tok v h
      simp [lookupTok] at h
  | cons kv tbl ih =>
      intro tok v h
      obtain ⟨k0, v0⟩ := kv
      simp only [lookupTok] at h
      by_cases hk : k0 = tok
      · rw [if_pos hk] at h
        simp only [Option.some.injEq] at h
        subst h
        exact ⟨k0, by simp⟩
      · rw [if_neg hk] at h
        obtain ⟨k, hmem⟩ := ih tok v h
        exact ⟨k, by simp [hmem]⟩

mutual
theorem mapLeavesT_wf : ∀ (P : List Char → Prop) (tbl : List (List Char × List Char)),
    (∀ kv ∈ tbl, kv.2 ≠ [] ∧ P kv.2) → ∀ (t t' : NTree),
    mapLeavesT tbl t = .ok t' → wfTree t = true →
    wfTree t' = true ∧ ∀ l ∈ leafLabelsT t', P l
  | P, tbl, htbl, .leaf l el, t', h, hwf => by
      simp only [mapLeavesT] at h
      cases hl : lookupTok tbl l with
      | none =>
          rw [hl] at h
          simp at h
      | some v =>
          rw [hl] at h
          simp only [Except.ok.injEq] at h
          subst h
          obtain ⟨k, hk⟩ := lookupTok_mem tbl l v hl
          have hv := htbl (k, v) hk
          constructor
          · simp only [wfTree, Bool.and_eq_true] at hwf ⊢
            refine ⟨?_, hwf.2⟩
            cases hvv : v with
            | nil => exact absurd hvv hv.1
            | cons a b => rfl
          · intro x hx
            simp only [leafLabelsT, List.mem_singleton] at hx
            subst hx
            exact hv.2
  | P, tbl, htbl, .node ts lbl el, t', h, hwf => by
      simp only [mapLeavesT] at h
      cases hm : mapLeavesL tbl ts with
      | error e =>
          rw [hm] at h
          simp at h
      | ok ts2 =>
          rw [hm] at h
          simp only [Except.ok.injEq] at h
          subst h
          simp only [wfTree, Bool.and_eq_true] at hwf
          have hrec := mapLeavesL_wf P tbl htbl ts ts2 hm hwf.1.1
          constructor
          · simp [wfTree, hrec.1, hwf.1.2, hwf.2]
          · intro x hx
            simp only [leafLabelsT] at hx
            exact hrec.2 x hx
theorem mapLeavesL_wf : ∀ (P : List Char → Prop) (tbl : List (List Char × List Char)),
    (∀ kv ∈ tbl, kv.2 ≠ [] ∧ P kv.2) → ∀ (ts ts' : NTreeList),
    mapLeavesL tbl ts = .ok ts' → wfList ts = true →
    wfList ts' = true ∧ ∀ l ∈ leafLabelsL ts', P l
  | P, tbl, htbl, .one t, ts', h, hwf => by
      simp only [mapLeavesL] at h
      cases hm : mapLeavesT tbl t with
      | error e =>
          rw [hm] at h
          simp at h
      | ok t2 =>
          rw [hm] at h
          simp only [Except.ok.injEq] at h
          subst h
          simp only [wfList] at hwf
          have hrec := mapLeavesT_wf P tbl htbl t t2 hm hwf
          constructor
          · simpa [wfList] using hrec.1
          · intro x hx
            simp only [leafLabelsL] at hx
            exact hrec.2 x hx
  | P, tbl, htbl, .more t ts, ts', h, hwf => by
      simp only [mapLeavesL] at h
      cases hm : mapLeavesT tbl t with
      | error e =>
          rw [hm] at h
          simp at h
      | ok t2 =>
          rw [hm] at h
          cases hm2 : mapLeavesL tbl ts with
          | error e =>
              rw [hm2] at h
              simp at h
          | ok ts2 =>
              rw [hm2] at h
              simp only [Except.ok.injEq] at h
              subst h
              simp only [wfList, Bool.and_eq_true] at hwf
              have hrec1 := mapLeavesT_wf P tbl htbl t t2 hm hwf.1
              have hrec2 := mapLeavesL_wf P tbl htbl ts ts2 hm2 hwf.2
              constructor
              · simp [wfList, hrec1.1, hrec2.1]
              · intro x hx
                simp only [leafLabelsL, List.mem_append] at hx
                rcases hx with hx | hx
                · exact hrec1.2 x hx
                · exact hrec2.2 x hx
end

theorem parseTranslatePairs_wf : ∀ (fuel : Nat) (input : List Char)
    (reg : List (List Char)) (tbl : List (List Char × List Char))
    (reg2 : List (List Char)) (r : List Char),
    parseTranslatePairs fuel input reg = .ok (tbl, reg2, r) →
    (reg.Nodup → reg2.Nodup)
    ∧ ((∀ x ∈ reg, x ≠ []) → ∀ x ∈ reg2, x ≠ [])
    ∧ (∀ x ∈ reg, x ∈ reg2)
    ∧ (∀ kv ∈ tbl, kv.2 ≠ [] ∧ kv.2 ∈ reg2) := by
  intro fuel
  induction fuel with
  | zero =>
      intro input reg tbl reg2 r h
      simp [parseTranslatePairs] at h
  | succ f ih =>
      intro input reg tbl reg2 r h
      simp only [parseTranslatePairs] at h
      split at h
      · simp at h
      · rename_i c rest hsk
        split at h
        · simp only [Except.ok.injEq, Prod.mk.injEq] at h
          obtain ⟨h1, h2, h3⟩ := h
          subst h1
          subst h2
          exact ⟨fun hn => hn, fun hn => hn, fun x hx => hx, by simp⟩
        · split at h
          · simp at h
          · split at h
            · simp at h
            · rename_i lbl r3 hpl
              split at h
              · simp at h
              · rename_i hle
                have hlbl : lbl ≠ [] := by
                  intro he
                  rw [he] at hle
                  exact hle rfl
                split at h
                · simp at h
                · rename_i c2 rest2 hsk2
                  split at h
                  · split at h
                    · simp at h
                    · rename_i tbl2 reg3 r5 hrec
                      simp only [Except.ok.injEq, Prod.mk.injEq] at h
                      obtain ⟨h1, h2, h3⟩ := h
                      subst h1
                      subst h2
                      have hih := ih rest2 ((require_taxon_labels reg lbl).1) _ _ _ hrec
                      refine ⟨?_, ?_, ?_, ?_⟩
                      · intro hn
                        exact hih.1 (require_taxon_labels_nodup reg lbl hn)
                      · intro hn
                        exact hih.2.1 (require_taxon_labels_ne_nil reg lbl hn hlbl)
                      · intro x hx
                        exact hih.2.2.1 x (require_taxon_labels_mono reg lbl x hx)
                      · intro kv hkv
                        rcases List.mem_cons.mp hkv with h4 | h4
                        · subst h4
                          exact ⟨hlbl,
                            hih.2.2.1 lbl (require_taxon_labels_self_mem reg lbl)⟩
                        · exact hih.2.2.2 kv h4
                  · split at h
                    · simp only [Except.ok.injEq, Prod.mk.injEq] at h
                      obtain ⟨h1, h2, h3⟩ := h
                      subst h1
                      subst h2
                      refine ⟨?_, ?_, ?_, ?_⟩
                      · intro hn
                        exact require_taxon_labels_nodup reg lbl hn
                      · intro hn
                        exact require_taxon_labels_ne_nil reg lbl hn hlbl
                      · intro x hx
                        exact require_taxon_labels_mono reg lbl x hx
                      · intro kv hkv
                        simp only [List.mem_singleton] at hkv
                        subst hkv
                        exact ⟨hlbl, require_taxon_labels_self_mem reg lbl⟩
                    · simp at h

theorem parseTreeStmts_wf : ∀ (fuel : Nat) (input : List Char)
    (tbl : List (List Char × List Char)) (P : List Char → Prop),
    (∀ kv ∈ tbl, kv.2 ≠ [] ∧ P kv.2) → ∀ (ts : List Tree) (r : List Char),
    parseTreeStmts fuel input tbl = .ok (ts, r) →
    ∀ t ∈ ts, wfTree t.root = true ∧ ∀ l ∈ leafLabelsT t.root, P l := by
  intro fuel
  induction fuel with
  | zero =>
      intro input tbl P htbl ts r h
      simp [parseTreeStmts] at h
  | succ f ih =>
      intro input tbl P htbl ts r h
      simp only [parseTreeStmts] at h
      split at h
      · split at h
        · rename_i c rest hsk
          split at h
          · simp only [Except.ok.injEq, Prod.mk.injEq] at h
            obtain ⟨h1, h2⟩ := h
            subst h1
            intro t ht
            simp at ht
          · simp at h
        · simp at h
      · split at h
        · simp at h
        · split at h
          · simp at h
          · rename_i hne
            split at h
            · simp at h
            · rename_i c rest hsk4
              split at h
              · split at h
                · simp at h
                · rename_i t0 tns0 rest2 hpt
                  split at h
                  · simp at h
                  · rename_i t1 hmap
                    have hwf0 : wfTree t0 = true :=
                      (parse_wf_aux _).1 _ _ _ hpt
                    have hw1 := mapLeavesT_wf P tbl htbl t0 t1 hmap hwf0
                    split at h
                    · simp at h
                    · rename_i c2 rest3 hsk5
                      split at h
                      · split at h
                        · simp at h
                        · rename_i ts2 r5 hrec
                          simp only [Except.ok.injEq, Prod.mk.injEq] at h
                          obtain ⟨h1, h2⟩ := h
                          subst h1
                          intro u hu
                          rcases List.mem_cons.mp hu with h3 | h3
                          · subst h3
                            exact ⟨hw1.1, hw1.2⟩
                          · exact ih rest3 tbl P htbl ts2 r5 hrec u h3
                      · simp at h
              · simp at h

theorem parseNexusBlocks_wf : ∀ (fuel : Nat) (input : List Char) (bs : List TreesBlock),
    parseNexusBlocks fuel input = .ok bs → ∀ b ∈ bs, wfNexusBlock b := by
  intro fuel
  induction fuel with
  | zero =>
      intro input bs h
      simp [parseNexusBlocks] at h
  | succ f ih =>
      intro input bs h
      simp only [parseNexusBlocks] at h
      split at h
      · simp only [Except.ok.injEq] at h
        subst h
        intro b hb
        simp at hb
      · split at h
        · simp at h
        · split at h
          · split at h
            · simp at h
            · exact ih _ bs h
          · split at h
            · simp at h
            · split at h
              · simp at h
              · rename_i c rest hsk
                split at h
                · split at h
                  · simp at h
                  · rename_i r6 htr
                    split at h
                    · simp at h
                    · rename_i tbl reg r7 hpairs
                      split at h
                      · simp at h
                      · rename_i ts r8 hstmts
                        split at h
                        · simp at h
                        · rename_i bs2 hrec
                          simp only [Except.ok.injEq] at h
                          subst h
                          have hpw := parseTranslatePairs_wf _ _ _ _ _ _ hpairs
                          have hsw := parseTreeStmts_wf _ _ _ (fun l => l ∈ reg)
                            (fun kv hkv => hpw.2.2.2 kv hkv) _ _ hstmts
                          intro b hb
                          rcases List.mem_cons.mp hb with h3 | h3
                          · subst h3
                            refine ⟨?_, ?_, ?_, ?_⟩
                            · exact hpw.1 List.nodup_nil
                            · exact hpw.2.1 (by intro x hx; simp at hx)
                            · intro t ht
                              exact (hsw t ht).1
                            · intro t ht
                              exact (hsw t ht).2
                          · exact ih _ bs2 hrec b h3
                · simp at h

theorem read_nexus_wf (input : List Char) (d : Dataset)
    (h : read_nexus input = .ok d) : ∀ b ∈ d.trees_blocks, wfNexusBlock b := by
  unfold read_nexus at h
  cases hp : parseNexusBlocks (input.length + 1) input with
  | error e =>
      rw [hp] at h
      simp at h
  | ok bs =>
      rw [hp] at h
      simp only [Except.ok.injEq] at h
      subst h
      exact parseNexusBlocks_wf _ _ _ hp

theorem dropLit_none_at (kw input : List Char) (i : Nat) (hi : i < kw.length)
    (ha : kw.get? i ≠ input.get? i) : dropLit kw input = none := by
  simp only [dropLit]
  rw [if_neg]
  intro he
  apply ha
  rw [← he, List.get?_take hi]

/-- Escape an XML attribute value: internal double quotes are doubled. -/
def escD : List Char → List Char
  | [] => []
  | c :: rest => if c = dquoteChar then c :: c :: escD rest else c :: escD rest

/-- Read a double-quoted XML attribute value after its opening quote, undoing
the doubled-quote escape; stops after the closing quote. -/
def readQuotedD : Nat → List Char → Except ParseError (List Char × List Char)
  | 0, _ => .error .outOfFuel
  | _ + 1, [] => .error .unexpectedEnd
  | fuel + 1, c :: rest =>
      if c = dquoteChar then
        match rest with
        | c2 :: rest2 =>
            if c2 = dquoteChar then
              match readQuotedD fuel rest2 with
              | .error e => .error e
              | .ok (l, r) => .ok (dquoteChar :: l, r)
            else .ok ([], rest)
        | [] => .ok ([], [])
      else
        match readQuotedD fuel rest with
        | .error e => .error e
        | .ok (l, r) => .ok (c :: l, r)

theorem readQuotedD_escape (l : List Char) :
    ∀ (fuel : Nat) (rest : List Char), (escD l).length < fuel →
      (rest = [] ∨ ∀ c ∈ rest.head?, c ≠ dquoteChar) →
      readQuotedD fuel (escD l ++ dquoteChar :: rest) = .ok (l, rest) := by
  induction l with
  | nil =>
      intro fuel rest hf hr
      match fuel, hf with
      | f + 1, _ =>
        simp only [escD, List.nil_append, readQuotedD, if_pos rfl]
        cases rest with
        | nil => rfl
        | cons c2 r2 =>
            have hc2 : ¬(c2 = dquoteChar) := by
              cases hr with
              | inl h => cases h
              | inr h => exact h c2 (by simp)
            simp [hc2]
  | cons c cs ih =>
      intro fuel rest hf hr
      by_cases hc : c = dquoteChar
      · subst hc
        simp only [escD, if_pos rfl] at hf ⊢
        match fuel, hf with
        | f + 1, hf =>
          simp only [List.cons_append, readQuotedD, if_pos rfl]
          have hrec := ih f rest (by simp at hf ⊢; omega) hr
          simp [hrec]
      · simp only [escD, if_neg hc] at hf ⊢
        match fuel, hf with
        | f + 1, hf =>
          simp only [List.cons_append, readQuotedD, if_neg hc]
          have hrec := ih f rest (by simp at hf ⊢; omega) hr
          simp [hrec]

/-- The digits of a canonical edge length, without the NEWICK colon: used as
the value of NeXML `length` attributes. -/
def lenBody (el : EdgeLen) : List Char :=
  el.ip ++ (if el.fp.isEmpty then [] else '.' :: el.fp)

theorem parseNumber_print (el : EdgeLen) (rest : List Char) (hwf : wfLen el = true)
    (hstop : lenStop rest) : parseNumber (lenBody el ++ rest) = .ok (el, rest) := by
  obtain ⟨ip, fp⟩ := el
  simp only [wfLen, Bool.and_eq_true, beq_iff_eq] at hwf
  obtain ⟨⟨⟨hipd, hips⟩, hfpd⟩, hfps⟩ := hwf
  have hipne : ip ≠ [] := by
    rw [← hips]
    exact stripLead_ne_nil ip
  obtain ⟨d, ds, rfl⟩ : ∃ d ds, ip = d :: ds := by
    cases ip with
    | nil => exact absurd rfl hipne
    | cons d ds => exact ⟨d, ds, rfl⟩
  have hdd : isDigitChar d = true := by
    have := List.all_eq_true.mp hipd d (by simp)
    simpa using this
  have hrestd : headNot isDigitChar rest := by
    cases rest with
    | nil => trivial
    | cons c cs => exact hstop.1
  have hskd : ∀ Y : List Char, skipWS (d :: Y) = d :: Y := fun Y =>
    skipWS_eq _ (digitChar_not_WS d hdd)
  cases fp with
  | nil =>
      have htw := takeWhile_append_stop isDigitChar (d :: ds) rest hipd hrestd
      have ht1 := htw.1
      have ht2 := htw.2
      simp only [List.cons_append] at ht1 ht2
      have hin : lenBody ⟨d :: ds, []⟩ ++ rest = d :: (ds ++ rest) := by
        simp [lenBody]
      rw [hin]
      cases rest with
      | nil =>
          simp only [List.append_nil] at ht1 ht2
          simp [parseNumber, hskd, ht1, ht2, hips]
      | cons c r3 =>
          have hcd : ¬(c = '.') := hstop.2.2.1
          simp [parseNumber, hskd, ht1, ht2, hips, hcd]
  | cons f fs =>
      have hfps2 : stripTrail (f :: fs) = f :: fs := hfps
      have h1 := takeWhile_append_stop isDigitChar (d :: ds)
        ('.' :: ((f :: fs) ++ rest)) hipd (show isDigitChar '.' = false by decide)
      have h2 := takeWhile_append_stop isDigitChar (f :: fs) rest hfpd hrestd
      have ht1 := h1.1
      have ht2 := h1.2
      have ht3 := h2.1
      have ht4 := h2.2
      simp only [List.cons_append] at ht1 ht2 ht3 ht4
      have hin : lenBody ⟨d :: ds, f :: fs⟩ ++ rest
          = d :: (ds ++ '.' :: (f :: (fs ++ rest))) := by
        simp [lenBody]
      rw [hin]
      simp [parseNumber, hskd, ht1, ht2, ht3, ht4, hips, hfps2]

/-- NeXML literal `<otus>`. -/
def xOtusOpen : List Char := ['<', 'o', 't', 'u', 's', '>']

/-- NeXML literal `</otus>`. -/
def xOtusClose : List Char := ['<', '/', 'o', 't', 'u', 's', '>']

/-- NeXML literal `<otu id="`. -/
def xOtuA : List Char := ['<', 'o', 't', 'u', ' ', 'i', 'd', '=', dquoteChar]

/-- NeXML literal `" label="` (between the id value and the label value). -/
def xAttrLabel : List Char :=
  [dquoteChar, ' ', 'l', 'a', 'b', 'e', 'l', '=', dquoteChar]

/-- NeXML literal `"/>` (closing quote and self-closing bracket). -/
def xSelfClose : List Char := [dquoteChar, '/', '>']

/-- NeXML literal `/>` (after a value whose closing quote was consumed). -/
def xClose2 : List Char := ['/', '>']

/-- NeXML literal `<trees>`. -/
def xTreesOpen : List Char := ['<', 't', 'r', 'e', 'e', 's', '>']

/-- NeXML literal `</trees>`. -/
def xTreesClose : List Char := ['<', '/', 't', 'r', 'e', 'e', 's', '>']

/-- NeXML literal `<tree root="R">` (rooted tree). -/
def xTreeOpenR : List Char :=
  ['<', 't', 'r', 'e', 'e', ' ', 'r', 'o', 'o', 't', '=', dquoteChar, 'R', dquoteChar, '>']

/-- NeXML literal `<tree root="U">` (unrooted tree). -/
def xTreeOpenU : List Char :=
  ['<', 't', 'r', 'e', 'e', ' ', 'r', 'o', 'o', 't', '=', dquoteChar, 'U', dquoteChar, '>']

/-- NeXML literal `<tree>` (rooting unknown). -/
def xTreeOpen : List Char := ['<', 't', 'r', 'e', 'e', '>']

/-- NeXML literal `</tree>`. -/
def xTreeClose : List Char := ['<', '/', 't', 'r', 'e', 'e', '>']

/-- NeXML literal `<node id="`. -/
def xNodeA : List Char := ['<', 'n', 'o', 'd', 'e', ' ', 'i', 'd', '=', dquoteChar]

/-- NeXML literal `" otu="` (between a node id and its otu reference). -/
def xAttrOtu : List Char := [dquoteChar, ' ', 'o', 't', 'u', '=', dquoteChar]

/-- NeXML literal `<edge source="`. -/
def xEdgeA : List Char :=
  ['<', 'e', 'd', 'g', 'e', ' ', 's', 'o', 'u', 'r', 'c', 'e', '=', dquoteChar]

/-- NeXML literal `" target="`. -/
def xAttrTarget : List Char :=
  [dquoteChar, ' ', 't', 'a', 'r', 'g', 'e', 't', '=', dquoteChar]

/-- NeXML literal `" length="`. -/
def xAttrLength : List Char :=
  [dquoteChar, ' ', 'l', 'e', 'n', 'g', 't', 'h', '=', dquoteChar]

/-- NeXML literal `<rootedge length="`. -/
def xRootedgeA : List Char :=
  ['<', 'r', 'o', 'o', 't', 'e', 'd', 'g', 'e', ' ',
   'l', 'e', 'n', 'g', 't', 'h', '=', dquoteChar]

/-- Modelled from the spec: a NeXML `node` element: an id, an optional `otu`
id-reference (leaves), and an optional label (internal nodes). -/
structure XNode where
  id : List Char
  otu : Option (List Char)
  label : Option (List Char)
deriving DecidableEq

/-- Modelled from the spec: a NeXML `edge` element: `source` and `target`
node id-references and an optional branch length. -/
structure XEdge where
  src : List Char
  tgt : List Char
  len : Option EdgeLen
deriving DecidableEq

/-- The edge length carried by a subtree's root node. -/
def elenOf : NTree → Option EdgeLen
  | .leaf _ el => el
  | .node _ _ el => el

/-- Replace the edge length carried by a subtree's root node. -/
def setLen : NTree → Option EdgeLen → NTree
  | .leaf l _, el => .leaf l el
  | .node ts lbl _, el => .node ts lbl el

/-- The children of a tree list, as a plain list. -/
def listOf : NTreeList → List NTree
  | .one t => [t]
  | .more t ts => t :: listOf ts

/-- Rebuild a nonempty children list; fails on an empty list. -/
def toL : List NTree → Option NTreeList
  | [] => none
  | [t] => some (.one t)
  | t :: ts =>
      match toL ts with
      | some l => some (.more t l)
      | none => none

mutual
/-- Flatten a tree into NeXML node and edge element streams, assigning ids by
preorder numbering from `n`; a node's own branch length is carried by its
inbound edge (emitted by the parent), leaf taxa are referenced by otu id. -/
def serT (labels : List (List Char)) : NTree → Nat → List XNode × List XEdge × Nat
  | .leaf l _, n =>
      ([⟨natToDigits n, some (natToDigits ((require_taxon_labels labels l).2 + 1)), none⟩],
        [], n + 1)
  | .node ts lbl _, n =>
      match serL labels ts (natToDigits n) (n + 1) with
      | (ns, es, n2) => (⟨natToDigits n, none, lbl⟩ :: ns, es, n2)
def serL (labels : List (List Char)) : NTreeList → List Char → Nat →
    List XNode × List XEdge × Nat
  | .one t, pid, n =>
      match serT labels t n with
      | (ns, es, n2) => (ns, ⟨pid, natToDigits n, elenOf t⟩ :: es, n2)
  | .more t ts, pid, n =>
      match serT labels t n with
      | (ns, es, n2) =>
          match serL labels ts pid n2 with
          | (ns2, es2, n3) => (ns ++ ns2, (⟨pid, natToDigits n, elenOf t⟩ :: es) ++ es2, n3)
end

/-- Render one NeXML `node` element. -/
def nodeElem (nd : XNode) : List Char :=
  xNodeA ++ nd.id ++
    (match nd.otu with
     | some ref => xAttrOtu ++ ref ++ xSelfClose
     | none =>
         match nd.label with
         | some l => xAttrLabel ++ escD l ++ xSelfClose
         | none => xSelfClose)

/-- Render one NeXML `edge` element. -/
def edgeElem (e : XEdge) : List Char :=
  xEdgeA ++ e.src ++ xAttrTarget ++ e.tgt ++
    (match e.len with
     | some el => xAttrLength ++ lenBody el ++ xSelfClose
     | none => xSelfClose)

/-- Render the optional `rootedge` element carrying the root's branch
length. -/
def rootedgeElem : Option EdgeLen → List Char
  | none => []
  | some el => xRootedgeA ++ lenBody el ++ xSelfClose

/-- The opening `tree` tag, carrying the rooting state. -/
def treeOpenTag : Rooting → List Char
  | .rooted => xTreeOpenR
  | .unrooted => xTreeOpenU
  | .unknown => xTreeOpen

/-- Render one NeXML `tree` element: all nodes in preorder, then all edges in
preorder, then the optional rootedge. -/
def treeXml (labels : List (List Char)) (t : Tree) : List Char :=
  treeOpenTag t.is_rooted ++
    ((((serT labels t.root 1).1.map nodeElem).flatten) ++
      ((((serT labels t.root 1).2.1.map edgeElem).flatten) ++
        (rootedgeElem (elenOf t.root) ++ xTreeClose)))

/-- Render one NeXML `otu` element. -/
def otuElem (i : Nat) (l : List Char) : List Char :=
  xOtuA ++ natToDigits (i + 1) ++ (xAttrLabel ++ (escD l ++ xSelfClose))

/-- Render the `otu` elements of a label list, ids numbered from `i`. -/
def otuElems : List (List Char) → Nat → List Char
  | [], _ => []
  | l :: rest, i => otuElem i l ++ otuElems rest (i + 1)

/-- Modelled from the spec: the NeXML rendering of one trees block: the
`otus` element declaring every taxon with its id, then a `trees` element
holding every tree, nodes and edges bound by id-references. -/
def write_nexml_block (b : TreesBlock) : List Char :=
  xOtusOpen ++ (otuElems (block_labels b) 0 ++ (xOtusClose ++
    (xTreesOpen ++ ((b.tree_list.map (treeXml (block_labels b))).flatten ++ xTreesClose))))

/-- Modelled from the spec: `NexmlWriter.write_dataset`: the rendered blocks,
in order. -/
def write_nexml (d : Dataset) : List Char :=
  (d.trees_blocks.map write_nexml_block).flatten

mutual
/-- Rebuild one subtree from the node and edge element streams: the next node
is this subtree's root; a leaf resolves its otu id-reference through the otus
table; an internal node consumes children as long as the next edge's `source`
references its own id.  The rebuilt root carries no length (its inbound edge
does). -/
def buildT (tbl : List (List Char × List Char)) :
    Nat → List XNode → List XEdge → Except ParseError (NTree × List XNode × List XEdge)
  | 0, _, _ => .error .outOfFuel
  | fuel + 1, nodes, edges =>
      match nodes with
      | [] => .error .unexpectedEnd
      | nd :: nodes2 =>
          match nd.otu with
          | some ref =>
              match lookupTok tbl ref with
              | some lbl => .ok (.leaf lbl none, nodes2, edges)
              | none => .error .labelMismatch
          | none =>
              match buildChildren tbl fuel nd.id nodes2 edges with
              | .error e => .error e
              | .ok (cs, nodes3, edges3) =>
                  match toL cs with
                  | some l => .ok (.node l nd.label none, nodes3, edges3)
                  | none => .error .unexpectedToken
def buildChildren (tbl : List (List Char × List Char)) :
    Nat → List Char → List XNode → List XEdge →
    Except ParseError (List NTree × List XNode × List XEdge)
  | 0, _, _, _ => .error .outOfFuel
  | _ + 1, _, nodes, [] => .ok ([], nodes, [])
  | fuel + 1, pid, nodes, e :: edges2 =>
      if e.src = pid then
        match nodes with
        | [] => .error .unexpectedEnd
        | nd :: _ =>
            if nd.id = e.tgt then
              match buildT tbl fuel nodes edges2 with
              | .error e2 => .error e2
              | .ok (t, nodes3, edges3) =>
                  match buildChildren tbl fuel pid nodes3 edges3 with
                  | .error e2 => .error e2
                  | .ok (ts, nodes4, edges4) => .ok (setLen t e.len :: ts, nodes4, edges4)
            else .error .labelMismatch
      else .ok ([], nodes, e :: edges2)
end

/-- Read the `otu` elements up to and including `</otus>`, registering each
taxon label. -/
def parseOtus : Nat → List Char → List (List Char) →
    Except ParseError (List (List Char × List Char) × List (List Char) × List Char)
  | 0, _, _ => .error .outOfFuel
  | fuel + 1, input, reg =>
      match dropLit xOtusClose input with
      | some r => .ok ([], reg, r)
      | none =>
          match dropLit xOtuA input with
          | none => .error .unexpectedToken
          | some r1 =>
              let tok := r1.takeWhile isDigitChar
              let r2 := r1.dropWhile isDigitChar
              if tok.isEmpty then .error .unexpectedToken
              else
                match dropLit xAttrLabel r2 with
                | none => .error .unexpectedToken
                | some r3 =>
                    match readQuotedD (r3.length + 1) r3 with
                    | .error e => .error e
                    | .ok (lbl, r4) =>
                        if lbl.isEmpty then .error .unexpectedToken
                        else
                          match dropLit xClose2 r4 with
                          | none => .error .unexpectedToken
                          | some r5 =>
                              match parseOtus fuel r5 ((require_taxon_labels reg lbl).1) with
                              | .error e => .error e
                              | .ok (tbl, reg2, r6) => .ok ((tok, lbl) :: tbl, reg2, r6)

/-- Read the `node` elements at the head of a tree element. -/
def parseNodesX : Nat → List Char → Except ParseError (List XNode × List Char)
  | 0, _ => .error .outOfFuel
  | fuel + 1, input =>
      match dropLit xNodeA input with
      | none => .ok ([], input)
      | some r1 =>
          let idt := r1.takeWhile isDigitChar
          let r2 := r1.dropWhile isDigitChar
          if idt.isEmpty then .error .unexpectedToken
          else
            match dropLit xAttrOtu r2 with
            | some r3 =>
                let ref := r3.takeWhile isDigitChar
                let r4 := r3.dropWhile isDigitChar
                if ref.isEmpty then .error .unexpectedToken
                else
                  match dropLit xSelfClose r4 with
                  | none => .error .unexpectedToken
                  | some r5 =>
                      match parseNodesX fuel r5 with
                      | .error e => .error e
                      | .ok (ns, r6) => .ok (⟨idt, some ref, none⟩ :: ns, r6)
            | none =>
                match dropLit xAttrLabel r2 with
                | some r3 =>
                    match readQuotedD (r3.length + 1) r3 with
                    | .error e => .error e
                    | .ok (lbl, r4) =>
                        if lbl.isEmpty then .error .unexpectedToken
                        else
                          match dropLit xClose2 r4 with
                          | none => .error .unexpectedToken
                          | some r5 =>
                              match parseNodesX fuel r5 with
                              | .error e => .error e
                              | .ok (ns, r6) => .ok (⟨idt, none, some lbl⟩ :: ns, r6)
                | none =>
                    match dropLit xSelfClose r2 with
                    | none => .error .unexpectedToken
                    | some r5 =>
                        match parseNodesX fuel r5 with
                        | .error e => .error e
                        | .ok (ns, r6) => .ok (⟨idt, none, none⟩ :: ns, r6)

/-- Read the `edge` elements of a tree element. -/
def parseEdgesX : Nat → List Char → Except ParseError (List XEdge × List Char)
  | 0, _ => .error .outOfFuel
  | fuel + 1, input =>
      match dropLit xEdgeA input with
      | none => .ok ([], input)
      | some r1 =>
          let st := r1.takeWhile isDigitChar
          let r2 := r1.dropWhile isDigitChar
          if st.isEmpty then .error .unexpectedToken
          else
            match dropLit xAttrTarget r2 with
            | none => .error .unexpectedToken
            | some r3 =>
                let tg := r3.takeWhile isDigitChar
                let r4 := r3.dropWhile isDigitChar
                if tg.isEmpty then .error .unexpectedToken
                else
                  match dropLit xAttrLength r4 with
                  | some r5 =>
                      match parseNumber r5 with
                      | .error e => .error e
                      | .ok (el, r6) =>
                          match dropLit xSelfClose r6 with
                          | none => .error .unexpectedToken
                          | some r7 =>
                              match parseEdgesX fuel r7 with
                              | .error e => .error e
                              | .ok (es, r8) => .ok (⟨st, tg, some el⟩ :: es, r8)
                  | none =>
                      match dropLit xSelfClose r4 with
                      | none => .error .unexpectedToken
                      | some r5 =>
                          match parseEdgesX fuel r5 with
                          | .error e => .error e
                          | .ok (es, r6) => .ok (⟨st, tg, none⟩ :: es, r6)

/-- Read the optional `rootedge` element. -/
def parseRootedge (input : List Char) :
    Except ParseError (Option EdgeLen × List Char)  :=
  match dropLit xRootedgeA input with
  | none => .ok (none, input)
  | some r1 =>
      match parseNumber r1 with
      | .error e => .error e
      | .ok (el, r2) =>
          match dropLit xSelfClose r2 with
          | none => .error .unexpectedToken
          | some r3 => .ok (some el, r3)

/-- Read the `tree` elements up to and including `</trees>`, rebuilding each
tree from its node and edge streams through the otus table. -/
def parseTreesX : Nat → List Char → List (List Char × List Char) →
    Except ParseError (List Tree × List Char)
  | 0, _, _ => .error .outOfFuel
  | fuel + 1, input, tbl =>
      match dropLit xTreesClose input with
      | some r => .ok ([], r)
      | none =>
          let p : Rooting × List Char :=
            match dropLit xTreeOpenR input with
            | some r1 => (.rooted, r1)
            | none =>
                match dropLit xTreeOpenU input with
                | some r1 => (.unrooted, r1)
                | none =>
                    match dropLit xTreeOpen input with
                    | some r1 => (.unknown, r1)
                    | none => (.unknown, input)
          match dropLit xTreeOpenR input, dropLit xTreeOpenU input,
              dropLit xTreeOpen input with
          | none, none, none => .error .unexpectedToken
          | _, _, _ =>
              match parseNodesX (p.2.length + 1) p.2 with
              | .error e => .error e
              | .ok (ns, r2) =>
                  match parseEdgesX (r2.length + 1) r2 with
                  | .error e => .error e
                  | .ok (es, r3) =>
                      match parseRootedge r3 with
                      | .error e => .error e
                      | .ok (rel, r4) =>
                          match dropLit xTreeClose r4 with
                          | none => .error .unexpectedToken
                          | some r5 =>
                              match buildT tbl (2 * (ns.length + es.length) + 2)
                                  ns es with
                              | .error e => .error e
                              | .ok (t0, nrest, erest) =>
                                  if nrest.isEmpty && erest.isEmpty then
                                    match parseTreesX fuel r5 tbl with
                                    | .error e => .error e
                                    | .ok (ts, r6) =>
                                        .ok (⟨p.1, setLen t0 rel⟩ :: ts, r6)
                                  else .error .unexpectedToken

/-- Read the sequence of NeXML blocks: each `otus`/`trees` pair yields one
`TreesBlock` whose namespace is populated from the otu declarations. -/
def parseBlocksX : Nat → List Char → Except ParseError (List TreesBlock)
  | 0, _ => .error .outOfFuel
  | fuel + 1, input =>
      if input.isEmpty then .ok []
      else
        match dropLit xOtusOpen input with
        | none => .error .unexpectedToken
        | some r1 =>
            match parseOtus (r1.length + 1) r1 [] with
            | .error e => .error e
            | .ok (tbl, reg, r2) =>
                match dropLit xTreesOpen r2 with
                | none => .error .unexpectedToken
                | some r3 =>
                    match parseTreesX (r3.length + 1) r3 tbl with
                    | .error e => .error e
                    | .ok (ts, r4) =>
                        match parseBlocksX fuel r4 with
                        | .error e => .error e
                        | .ok bs => .ok (⟨⟨reg⟩, ts⟩ :: bs)

/-- Modelled from the spec: the NeXML reader: every `otus`/`trees` pair of
the document becomes one trees block, trees reassembled from their node and
edge elements by id-reference. -/
def read_nexml (input : List Char) : Except ParseError Dataset :=
  match parseBlocksX (input.length + 1) input with
  | .error e => .error e
  | .ok bs => .ok ⟨bs⟩

theorem sizeT_pos (t : NTree) : 1 ≤ sizeT t := by
  cases t with
  | leaf l el => simp [sizeT]
  | node ts lbl el => simp [sizeT]

theorem setLen_setLen (t : NTree) : setLen (setLen t none) (elenOf t) = t := by
  cases t with
  | leaf l el => rfl
  | node ts lbl el => rfl

theorem listOf_ne_nil (ts : NTreeList) : listOf ts ≠ [] := by
  cases ts with
  | one t => simp [listOf]
  | more t ts => simp [listOf]

theorem toL_listOf : ∀ ts : NTreeList, toL (listOf ts) = some ts
  | .one t => rfl
  | .more t ts => by
      have ih := toL_listOf ts
      cases hts : listOf ts with
      | nil => exact absurd hts (listOf_ne_nil ts)
      | cons a as =>
          rw [hts] at ih
          simp [listOf, toL, hts, ih]

mutual
theorem serT_counter : ∀ (L : List (List Char)) (t : NTree) (n : Nat)
    (ns : List XNode) (es : List XEdge) (n2 : Nat),
    serT L t n = (ns, es, n2) → n < n2
  | L, .leaf l el, n, ns, es, n2, h => by
      simp only [serT, Prod.mk.injEq] at h
      obtain ⟨h1, h2, h3⟩ := h
      omega
  | L, .node ts lbl el, n, ns, es, n2, h => by
      cases hs : serL L ts (natToDigits n) (n + 1) with
      | mk nsL p =>
          cases p with
          | mk esL n2L =>
              have ih := serL_counter L ts (natToDigits n) (n + 1) nsL esL n2L hs
              simp only [serT] at h
              rw [hs] at h
              simp only [Prod.mk.injEq] at h
              obtain ⟨h1, h2, h3⟩ := h
              omega
theorem serL_counter : ∀ (L : List (List Char)) (ts : NTreeList) (pid : List Char)
    (n : Nat) (ns : List XNode) (es : List XEdge) (n2 : Nat),
    serL L ts pid n = (ns, es, n2) → n < n2
  | L, .one t, pid, n, ns, es, n2, h => by
      cases hs : serT L t n with
      | mk nsT p =>
          cases p with
          | mk esT n2T =>
              have ih := serT_counter L t n nsT esT n2T hs
              simp only [serL] at h
              rw [hs] at h
              simp only [Prod.mk.injEq] at h
              obtain ⟨h1, h2, h3⟩ := h
              omega
  | L, .more t ts, pid, n, ns, es, n2, h => by
      cases hs : serT L t n with
      | mk nsT p =>
          cases p with
          | mk esT n2T =>
              cases hs2 : serL L ts pid n2T with
              | mk ns2 p2 =>
                  cases p2 with
                  | mk es2 n3 =>
                      have ih1 := serT_counter L t n nsT esT n2T hs
                      have ih2 := serL_counter L ts pid n2T ns2 es2 n3 hs2
                      simp only [serL] at h
                      rw [hs, hs2] at h
                      simp only [Prod.mk.injEq] at h
                      obtain ⟨h1, h2, h3⟩ := h
                      omega
end

mutual
theorem serT_size : ∀ (L : List (List Char)) (t : NTree) (n : Nat)
    (ns : List XNode) (es : List XEdge) (n2 : Nat),
    serT L t n = (ns, es, n2) → 2 * sizeT t ≤ 2 * (ns.length + es.length)
  | L, .leaf l el, n, ns, es, n2, h => by
      simp only [serT, Prod.mk.injEq] at h
      obtain ⟨h1, h2, h3⟩ := h
      subst h1
      subst h2
      simp [sizeT]
  | L, .node ts lbl el, n, ns, es, n2, h => by
      cases hs : serL L ts (natToDigits n) (n + 1) with
      | mk nsL p =>
          cases p with
          | mk esL n2L =>
              have ih := serL_size L ts (natToDigits n) (n + 1) nsL esL n2L hs
              simp only [serT] at h
              rw [hs] at h
              simp only [Prod.mk.injEq] at h
              obtain ⟨h1, h2, h3⟩ := h
              subst h1
              subst h2
              simp only [sizeT, List.length_cons]
              omega
theorem serL_size : ∀ (L : List (List Char)) (ts : NTreeList) (pid : List Char)
    (n : Nat) (ns : List XNode) (es : List XEdge) (n2 : Nat),
    serL L ts pid n = (ns, es, n2) → 2 * sizeL ts ≤ 2 * (ns.length + es.length)
  | L, .one t, pid, n, ns, es, n2, h => by
      cases hs : serT L t n with
      | mk nsT p =>
          cases p with
          | mk esT n2T =>
              have ih := serT_size L t n nsT esT n2T hs
              simp only [serL] at h
              rw [hs] at h
              simp only [Prod.mk.injEq] at h
              obtain ⟨h1, h2, h3⟩ := h
              subst h1
              subst h2
              simp only [sizeL, List.length_cons]
              omega
  | L, .more t ts, pid, n, ns, es, n2, h => by
      cases hs : serT L t n with
      | mk nsT p =>
          cases p with
          | mk esT n2T =>
              cases hs2 : serL L ts pid n2T with
              | mk ns2 p2 =>
                  cases p2 with
                  | mk es2 n3 =>
                      have ih1 := serT_size L t n nsT esT n2T hs
                      have ih2 := serL_size L ts pid n2T ns2 es2 n3 hs2
                      simp only [serL] at h
                      rw [hs, hs2] at h
                      simp only [Prod.mk.injEq] at h
                      obtain ⟨h1, h2, h3⟩ := h
                      subst h1
                      subst h2
                      simp only [sizeL, List.length_cons, List.length_append]
                      omega
end

theorem serT_head (L : List (List Char)) (t : NTree) (n : Nat) :
    ∃ o lb tl, (serT L t n).1 = ⟨natToDigits n, o, lb⟩ :: tl := by
  cases t with
  | leaf l el => exact ⟨_, _, _, rfl⟩
  | node ts lbl el =>
      cases hs : serL L ts (natToDigits n) (n + 1) with
      | mk nsL p =>
          cases p with
          | mk esL n2L =>
              refine ⟨none, lbl, nsL, ?_⟩
              simp [serT, hs]

theorem serL_head (L : List (List Char)) (ts : NTreeList) (pid : List Char) (n : Nat) :
    ∃ el tl, (serL L ts pid n).2.1 = ⟨pid, natToDigits n, el⟩ :: tl := by
  cases ts with
  | one t =>
      cases hs : serT L t n with
      | mk nsT p =>
          cases p with
          | mk esT n2T =>
              refine ⟨elenOf t, esT, ?_⟩
              simp [serL, hs]
  | more t ts =>
      cases hs : serT L t n with
      | mk nsT p =>
          cases p with
          | mk esT n2T =>
              cases hs2 : serL L ts pid n2T with
              | mk ns2 p2 =>
                  cases p2 with
                  | mk es2 n3 =>
                      refine ⟨elenOf t, esT ++ es2, ?_⟩
                      simp [serL, hs, hs2]

theorem buildChildren_stop (tbl : List (List Char × List Char)) (f : Nat)
    (pid : List Char) (NS : List XNode) (ES : List XEdge) (hf : 1 ≤ f)
    (hes : ES = [] ∨ ∃ e tl, ES = e :: tl ∧ ¬(e.src = pid)) :
    buildChildren tbl f pid NS ES = .ok ([], NS, ES) := by
  match f, hf with
  | f + 1, _ =>
    rcases hes with h | ⟨e, tl, rfl, hne⟩
    · subst h
      rfl
    · simp [buildChildren, hne]

theorem sizeL_pos (ts : NTreeList) : 1 ≤ sizeL ts := by
  cases ts with
  | one t => simp [sizeL]
  | more t ts => simp [sizeL]

theorem build_ser_aux : ∀ fuel : Nat,
    (∀ (L : List (List Char)) (t : NTree) (n : Nat) (ns : List XNode) (es : List XEdge)
        (n2 : Nat) (NS : List XNode) (ES : List XEdge),
        serT L t n = (ns, es, n2) →
        wfTree t = true → (∀ l ∈ leafLabelsT t, l ∈ L) →
        2 * sizeT t ≤ fuel →
        (ES = [] ∨ ∃ q e tl, ES = e :: tl ∧ e.src = natToDigits q ∧ q < n) →
        buildT (transTable L 0) fuel (ns ++ NS) (es ++ ES) = .ok (setLen t none, NS, ES))
    ∧ (∀ (L : List (List Char)) (ts : NTreeList) (p n : Nat) (ns : List XNode)
        (es : List XEdge) (n2 : Nat) (NS : List XNode) (ES : List XEdge),
        serL L ts (natToDigits p) n = (ns, es, n2) →
        wfList ts = true → (∀ l ∈ leafLabelsL ts, l ∈ L) →
        2 * sizeL ts ≤ fuel → p < n →
        (ES = [] ∨ ∃ q e tl, ES = e :: tl ∧ e.src = natToDigits q ∧ q < n ∧ q ≠ p) →
        buildChildren (transTable L 0) fuel (natToDigits p) (ns ++ NS) (es ++ ES)
          = .ok (listOf ts, NS, ES)) := by
  intro fuel
  induction fuel with
  | zero =>
      constructor
      · intro L t n ns es n2 NS ES hser hwf hlv hfuel hES
        have := sizeT_pos t
        omega
      · intro L ts p n ns es n2 NS ES hser hwf hlv hfuel hpn hES
        have := sizeL_pos ts
        omega
  | succ fuel ih =>
      obtain ⟨ihT, ihL⟩ := ih
      constructor
      · intro L t n ns es n2 NS ES hser hwf hlv hfuel hES
        cases t with
        | leaf l el =>
            simp only [serT, Prod.mk.injEq] at hser
            obtain ⟨h1, h2, h3⟩ := hser
            subst h1
            subst h2
            have hmem : l ∈ L := hlv l (by simp [leafLabelsT])
            have hget := (require_taxon_labels_mem L l hmem).2
            have hlook := lookupTok_transTable L 0 (require_taxon_labels L l).2 l hget
            have harg : 0 + (require_taxon_labels L l).2 + 1
                = (require_taxon_labels L l).2 + 1 := by omega
            rw [harg] at hlook
            simp [buildT, hlook, setLen]
        | node ts lbl el =>
            cases hs : serL L ts (natToDigits n) (n + 1) with
            | mk nsL pp =>
                cases pp with
                | mk esL n2L =>
                    simp only [serT] at hser
                    rw [hs] at hser
                    simp only [Prod.mk.injEq] at hser
                    obtain ⟨h1, h2, h3⟩ := hser
                    subst h1
                    subst h2
                    simp only [wfTree, Bool.and_eq_true] at hwf
                    have hrec := ihL L ts n (n + 1) nsL esL n2L NS ES hs hwf.1.1
                      (fun x hx => hlv x (by simpa [leafLabelsT] using hx))
                      (by simp only [sizeT] at hfuel; omega)
                      (by omega)
                      (by rcases hES with h | ⟨q, e, tl, he, hsrc, hq⟩
                          · exact Or.inl h
                          · exact Or.inr ⟨q, e, tl, he, hsrc, by omega, by omega⟩)
                    simp only [List.cons_append, buildT]
                    simp [hrec, toL_listOf, setLen]
      · intro L ts p n ns es n2 NS ES hser hwf hlv hfuel hpn hES
        cases ts with
        | one c =>
            cases hs : serT L c n with
            | mk nsc pp =>
                cases pp with
                | mk esc n2c =>
                    simp only [serL] at hser
                    rw [hs] at hser
                    simp only [Prod.mk.injEq] at hser
                    obtain ⟨h1, h2, h3⟩ := hser
                    subst h1
                    subst h2
                    simp only [wfList] at hwf
                    have hrecT := ihT L c n nsc esc n2c NS ES hs hwf
                      (fun x hx => hlv x (by simpa [leafLabelsL] using hx))
                      (by simp only [sizeL] at hfuel; omega)
                      (by rcases hES with h | ⟨q, e, tl, he, hsrc, hq, hqp⟩
                          · exact Or.inl h
                          · exact Or.inr ⟨q, e, tl, he, hsrc, hq⟩)
                    obtain ⟨o, lb, tl, hhead⟩ := serT_head L c n
                    rw [hs] at hhead
                    have hh2 : nsc = ⟨natToDigits n, o, lb⟩ :: tl := hhead
                    have hstop := buildChildren_stop (transTable L 0) fuel
                      (natToDigits p) NS ES
                      (by have := sizeT_pos c; simp only [sizeL] at hfuel; omega)
                      (by rcases hES with h | ⟨q, e, tl2, he, hsrc, hq, hqp⟩
                          · exact Or.inl h
                          · refine Or.inr ⟨e, tl2, he, ?_⟩
                            intro hep
                            rw [hsrc] at hep
                            exact hqp (natToDigits_inj q p hep))
                    rw [hh2] at hrecT
                    simp only [List.cons_append] at hrecT
                    simp only [List.cons_append, buildChildren]
                    rw [hh2]
                    simp [hrecT, hstop, setLen_setLen, listOf]
        | more c ts2 =>
            cases hs : serT L c n with
            | mk nsc pp =>
                cases pp with
                | mk esc n2c =>
                    cases hs2 : serL L ts2 (natToDigits p) n2c with
                    | mk ns2 pp2 =>
                        cases pp2 with
                        | mk es2 n3 =>
                            simp only [serL] at hser
                            rw [hs, hs2] at hser
                            simp only [Prod.mk.injEq] at hser
                            obtain ⟨h1, h2, h3⟩ := hser
                            subst h1
                            subst h2
                            simp only [wfList, Bool.and_eq_true] at hwf
                            have hcnt := serT_counter L c n nsc esc n2c hs
                            obtain ⟨el2, tl2, hh⟩ := serL_head L ts2 (natToDigits p) n2c
                            rw [hs2] at hh
                            have hh2 : es2 = ⟨natToDigits p, natToDigits n2c, el2⟩ :: tl2 := hh
                            have hrecT := ihT L c n nsc esc n2c (ns2 ++ NS) (es2 ++ ES) hs
                              hwf.1
                              (fun x hx => hlv x (by simp [leafLabelsL, hx]))
                              (by simp only [sizeL] at hfuel; omega)
                              (by refine Or.inr ⟨p, ⟨natToDigits p, natToDigits n2c, el2⟩,
                                    tl2 ++ ES, ?_, rfl, hpn⟩
                                  rw [hh2]
                                  simp)
                            have hrecL := ihL L ts2 p n2c ns2 es2 n3 NS ES hs2 hwf.2
                              (fun x hx => hlv x (by simp [leafLabelsL, hx]))
                              (by have := sizeT_pos c; simp only [sizeL] at hfuel; omega)
                              (by omega)
                              (by rcases hES with h | ⟨q, e, tl3, he, hsrc, hq, hqp⟩
                                  · exact Or.inl h
                                  · exact Or.inr ⟨q, e, tl3, he, hsrc, by omega, hqp⟩)
                            obtain ⟨o, lb, tlh, hheadc⟩ := serT_head L c n
                            rw [hs] at hheadc
                            have hh3 : nsc = ⟨natToDigits n, o, lb⟩ :: tlh := hheadc
                            rw [hh3] at hrecT
                            simp only [List.cons_append, List.append_assoc] at hrecT hrecL
                            simp only [List.cons_append, List.append_assoc, buildChildren]
                            rw [hh3]
                            simp only [List.cons_append]
                            simp [hrecT, hrecL, setLen_setLen, listOf]

/-- Well-formedness of a NeXML node element: nonempty digit id, nonempty
digit otu reference when present, nonempty label when present. -/
def wfXNode (nd : XNode) : Prop :=
  nd.id ≠ [] ∧ nd.id.all isDigitChar = true
  ∧ (∀ r ∈ nd.otu, r ≠ [] ∧ r.all isDigitChar = true)
  ∧ (∀ l ∈ nd.label, l ≠ [])
  ∧ (nd.otu = none ∨ nd.label = none)

/-- Well-formedness of a NeXML edge element: nonempty digit id-references and
a canonical length when present. -/
def wfXEdge (e : XEdge) : Prop :=
  e.src ≠ [] ∧ e.src.all isDigitChar = true
  ∧ e.tgt ≠ [] ∧ e.tgt.all isDigitChar = true
  ∧ (∀ el ∈ e.len, wfLen el = true)

theorem elenOf_wf (t : NTree) (h : wfTree t = true) : wfOptLen (elenOf t) = true := by
  cases t with
  | leaf l el =>
      simp only [wfTree, Bool.and_eq_true] at h
      exact h.2
  | node ts lbl el =>
      simp only [wfTree, Bool.and_eq_true] at h
      exact h.2

theorem wfXNode_digits (n : Nat) (o lb : Option (List Char))
    (ho : ∀ r ∈ o, ∃ m, r = natToDigits m) (hl : ∀ l ∈ lb, l ≠ [])
    (hol : o = none ∨ lb = none) :
    wfXNode ⟨natToDigits n, o, lb⟩ := by
  refine ⟨natToDigits_ne_nil n, natToDigits_digits n, ?_, ?_, hol⟩
  · intro r hr
    obtain ⟨m, rfl⟩ := ho r hr
    exact ⟨natToDigits_ne_nil m, natToDigits_digits m⟩
  · exact hl

mutual
theorem serT_elems_wf : ∀ (L : List (List Char)) (t : NTree) (n : Nat)
    (ns : List XNode) (es : List XEdge) (n2 : Nat),
    serT L t n = (ns, es, n2) → wfTree t = true →
    (∀ nd ∈ ns, wfXNode nd) ∧ (∀ e ∈ es, wfXEdge e)
  | L, .leaf l el, n, ns, es, n2, h, hwf => by
      simp only [serT, Prod.mk.injEq] at h
      obtain ⟨h1, h2, h3⟩ := h
      subst h1
      subst h2
      constructor
      · intro nd hnd
        simp only [List.mem_singleton] at hnd
        subst hnd
        exact wfXNode_digits n _ none (fun r hr => by
          simp only [Option.mem_def, Option.some.injEq] at hr
          exact ⟨_, hr.symm⟩) (by simp) (Or.inr rfl)
      · intro e he
        simp at he
  | L, .node ts lbl el, n, ns, es, n2, h, hwf => by
      cases hs : serL L ts (natToDigits n) (n + 1) with
      | mk nsL pp =>
          cases pp with
          | mk esL n2L =>
              simp only [serT] at h
              rw [hs] at h
              simp only [Prod.mk.injEq] at h
              obtain ⟨h1, h2, h3⟩ := h
              subst h1
              subst h2
              simp only [wfTree, Bool.and_eq_true] at hwf
              have ih := serL_elems_wf L ts (natToDigits n) (n + 1) nsL esL n2L hs hwf.1.1
              constructor
              · intro nd hnd
                rcases List.mem_cons.mp hnd with h4 | h4
                · subst h4
                  refine wfXNode_digits n none lbl (by simp) ?_ (Or.inl rfl)
                  intro l hl
                  cases hlbl : lbl with
                  | none => rw [hlbl] at hl; simp at hl
                  | some l2 =>
                      rw [hlbl] at hl
                      simp only [Option.mem_def, Option.some.injEq] at hl
                      subst hl
                      have := hwf.1.2
                      rw [hlbl] at this
                      simp only [wfOptLabel, Bool.not_eq_true'] at this
                      intro he
                      rw [he] at this
                      simp at this
                · exact ih.1 nd h4
              · exact ih.2 ⟨natToDigits_ne_nil n, natToDigits_digits n⟩
theorem serL_elems_wf : ∀ (L : List (List Char)) (ts : NTreeList) (pid : List Char)
    (n : Nat) (ns : List XNode) (es : List XEdge) (n2 : Nat),
    serL L ts pid n = (ns, es, n2) → wfList ts = true →
    (∀ nd ∈ ns, wfXNode nd)
    ∧ ((pid ≠ [] ∧ pid.all isDigitChar = true) → ∀ e ∈ es, wfXEdge e)
  | L, .one t, pid, n, ns, es, n2, h, hwf => by
      cases hs : serT L t n with
      | mk nsT pp =>
          cases pp with
          | mk esT n2T =>
              simp only [serL] at h
              rw [hs] at h
              simp only [Prod.mk.injEq] at h
              obtain ⟨h1, h2, h3⟩ := h
              subst h1
              subst h2
              simp only [wfList] at hwf
              have ih := serT_elems_wf L t n nsT esT n2T hs hwf
              refine ⟨ih.1, ?_⟩
              intro hpid e he
              rcases List.mem_cons.mp he with h4 | h4
              · subst h4
                exact ⟨hpid.1, hpid.2, natToDigits_ne_nil n, natToDigits_digits n,
                  fun el2 hel => by
                    have := elenOf_wf t hwf
                    simp only [Option.mem_def] at hel
                    rw [hel] at this
                    simpa [wfOptLen] using this⟩
              · exact ih.2 e h4
  | L, .more t ts, pid, n, ns, es, n2, h, hwf => by
      cases hs : serT L t n with
      | mk nsT pp =>
          cases pp with
          | mk esT n2T =>
              cases hs2 : serL L ts pid n2T with
              | mk ns2 pp2 =>
                  cases pp2 with
                  | mk es2 n3 =>
                      simp only [serL] at h
                      rw [hs, hs2] at h
                      simp only [Prod.mk.injEq] at h
                      obtain ⟨h1, h2, h3⟩ := h
                      subst h1
                      subst h2
                      simp only [wfList, Bool.and_eq_true] at hwf
                      have ih1 := serT_elems_wf L t n nsT esT n2T hs hwf.1
                      have ih2 := serL_elems_wf L ts pid n2T ns2 es2 n3 hs2 hwf.2
                      constructor
                      · intro nd hnd
                        rcases List.mem_append.mp hnd with h4 | h4
                        · exact ih1.1 nd h4
                        · exact ih2.1 nd h4
                      · intro hpid e he
                        rcases List.mem_append.mp he with h4 | h4
                        · rcases List.mem_cons.mp h4 with h5 | h5
                          · subst h5
                            exact ⟨hpid.1, hpid.2, natToDigits_ne_nil n,
                              natToDigits_digits n, fun el2 hel => by
                                have := elenOf_wf t hwf.1
                                simp only [Option.mem_def] at hel
                                rw [hel] at this
                                simpa [wfOptLen] using this⟩
                          · exact ih1.2 e h5
                        · exact ih2.2 hpid e h4
end

theorem isEmpty_false_of_ne_nil {l : List Char} (h : l ≠ []) : l.isEmpty = false := by
  cases l with
  | nil => exact absurd rfl h
  | cons a b => rfl

theorem parseNodesX_print : ∀ (ns : List XNode) (fuel : Nat) (rest : List Char),
    ns.length < fuel → (∀ nd ∈ ns, wfXNode nd) →
    dropLit xNodeA rest = none →
    parseNodesX fuel ((ns.map nodeElem).flatten ++ rest) = .ok (ns, rest) := by
  intro ns
  induction ns with
  | nil =>
      intro fuel rest hf _ hstop
      match fuel, hf with
      | f + 1, _ => simp [parseNodesX, hstop]
  | cons nd ns ih =>
      intro fuel rest hf hwf hstop
      match fuel, hf with
      | f + 1, hf =>
        obtain ⟨idv, o, lb⟩ := nd
        obtain ⟨hid1, hid2, ho, hlb, hol⟩ := hwf ⟨idv, o, lb⟩ (by simp)
        have hie : idv.isEmpty = false := isEmpty_false_of_ne_nil hid1
        have hrec := ih f rest (by simpa using hf) (fun x hx => hwf x (by simp [hx])) hstop
        cases o with
        | some ref =>
            have hlbn : lb = none := by
              rcases hol with h | h
              · simp at h
              · exact h
            subst hlbn
            obtain ⟨hr1, hr2⟩ := ho ref (by simp)
            have hre : ref.isEmpty = false := isEmpty_false_of_ne_nil hr1
            have hin : (((⟨idv, some ref, none⟩ : XNode) :: ns).map nodeElem).flatten ++ rest
                = xNodeA ++ (idv ++ (xAttrOtu ++ (ref ++ (dquoteChar :: ('/' :: ('>' ::
                    ((ns.map nodeElem).flatten ++ rest))))))) := by
              simp [nodeElem, xSelfClose]
            have h1 := dropLit_self xNodeA (idv ++ (xAttrOtu ++ (ref ++ (dquoteChar ::
              ('/' :: ('>' :: ((ns.map nodeElem).flatten ++ rest)))))))
            have htw := takeWhile_append_stop isDigitChar idv (xAttrOtu ++ (ref ++
              (dquoteChar :: ('/' :: ('>' :: ((ns.map nodeElem).flatten ++ rest))))))
              hid2 (show isDigitChar dquoteChar = false by decide)
            have h2 := dropLit_self xAttrOtu (ref ++ (dquoteChar :: ('/' :: ('>' ::
              ((ns.map nodeElem).flatten ++ rest)))))
            have htw2 := takeWhile_append_stop isDigitChar ref (dquoteChar :: ('/' :: ('>' ::
              ((ns.map nodeElem).flatten ++ rest)))) hr2
              (show isDigitChar dquoteChar = false by decide)
            have h3 : dropLit xSelfClose (dquoteChar :: ('/' :: ('>' ::
                ((ns.map nodeElem).flatten ++ rest))))
                = some ((ns.map nodeElem).flatten ++ rest) :=
              dropLit_self xSelfClose ((ns.map nodeElem).flatten ++ rest)
            rw [hin]
            simp only [parseNodesX]
            simp [h1, htw.1, htw.2, hie, h2, htw2.1, htw2.2, hre, h3, hrec]
        | none =>
            cases lb with
            | some l =>
                have hlv : l ≠ [] := hlb l (by simp)
                have hle : l.isEmpty = false := isEmpty_false_of_ne_nil hlv
                have hin : (((⟨idv, none, some l⟩ : XNode) :: ns).map nodeElem).flatten ++ rest
                    = xNodeA ++ (idv ++ (xAttrLabel ++ (escD l ++ (dquoteChar :: ('/' :: ('>' ::
                        ((ns.map nodeElem).flatten ++ rest))))))) := by
                  simp [nodeElem, xSelfClose]
                have h1 := dropLit_self xNodeA (idv ++ (xAttrLabel ++ (escD l ++ (dquoteChar ::
                  ('/' :: ('>' :: ((ns.map nodeElem).flatten ++ rest)))))))
                have htw := takeWhile_append_stop isDigitChar idv (xAttrLabel ++ (escD l ++
                  (dquoteChar :: ('/' :: ('>' :: ((ns.map nodeElem).flatten ++ rest))))))
                  hid2 (show isDigitChar dquoteChar = false by decide)
                have hno : dropLit xAttrOtu (xAttrLabel ++ (escD l ++ (dquoteChar :: ('/' ::
                    ('>' :: ((ns.map nodeElem).flatten ++ rest)))))) = none := by
                  apply dropLit_none_at _ _ 2 (by decide)
                  rw [show (xAttrLabel ++ (escD l ++ (dquoteChar :: ('/' :: ('>' ::
                    ((ns.map nodeElem).flatten ++ rest)))))).get? 2 = some 'l' from rfl]
                  decide
                have h2 := dropLit_self xAttrLabel (escD l ++ (dquoteChar :: ('/' :: ('>' ::
                  ((ns.map nodeElem).flatten ++ rest)))))
                have hq := readQuotedD_escape l ((escD l ++ (dquoteChar :: ('/' :: ('>' ::
                  ((ns.map nodeElem).flatten ++ rest))))).length + 1)
                  ('/' :: ('>' :: ((ns.map nodeElem).flatten ++ rest)))
                  (by simp only [List.length_append, List.length_cons]; omega)
                  (Or.inr (by intro c hc; simp at hc; subst hc; decide))
                have h3 : dropLit xClose2 ('/' :: ('>' ::
                    ((ns.map nodeElem).flatten ++ rest)))
                    = some ((ns.map nodeElem).flatten ++ rest) :=
                  dropLit_self xClose2 ((ns.map nodeElem).flatten ++ rest)
                rw [hin]
                simp only [parseNodesX]
                simp only [List.length_append, List.length_cons, List.length_flatten,
                  List.map_map] at hq
                simp [h1, htw.1, htw.2, hie, hno, h2, hq, hle, h3, hrec]
            | none =>
                have hin : (((⟨idv, none, none⟩ : XNode) :: ns).map nodeElem).flatten ++ rest
                    = xNodeA ++ (idv ++ (dquoteChar :: ('/' :: ('>' ::
                        ((ns.map nodeElem).flatten ++ rest))))) := by
                  simp [nodeElem, xSelfClose]
                have h1 := dropLit_self xNodeA (idv ++ (dquoteChar :: ('/' :: ('>' ::
                  ((ns.map nodeElem).flatten ++ rest)))))
                have htw := takeWhile_append_stop isDigitChar idv (dquoteChar :: ('/' :: ('>' ::
                  ((ns.map nodeElem).flatten ++ rest)))) hid2
                  (show isDigitChar dquoteChar = false by decide)
                have hno : dropLit xAttrOtu (dquoteChar :: ('/' :: ('>' ::
                    ((ns.map nodeElem).flatten ++ rest)))) = none := by
                  apply dropLit_none_at _ _ 1 (by decide)
                  rw [show (dquoteChar :: ('/' :: ('>' ::
                    ((ns.map nodeElem).flatten ++ rest)))).get? 1 = some '/' from rfl]
                  decide
                have hno2 : dropLit xAttrLabel (dquoteChar :: ('/' :: ('>' ::
                    ((ns.map nodeElem).flatten ++ rest)))) = none := by
                  apply dropLit_none_at _ _ 1 (by decide)
                  rw [show (dquoteChar :: ('/' :: ('>' ::
                    ((ns.map nodeElem).flatten ++ rest)))).get? 1 = some '/' from rfl]
                  decide
                have h3 : dropLit xSelfClose (dquoteChar :: ('/' :: ('>' ::
                    ((ns.map nodeElem).flatten ++ rest))))
                    = some ((ns.map nodeElem).flatten ++ rest) :=
                  dropLit_self xSelfClose ((ns.map nodeElem).flatten ++ rest)
                rw [hin]
                simp only [parseNodesX]
                simp [h1, htw.1, htw.2, hie, hno, hno2, h3, hrec]

theorem parseEdgesX_print : ∀ (es : List XEdge) (fuel : Nat) (rest : List Char),
    es.length < fuel → (∀ e ∈ es, wfXEdge e) →
    dropLit xEdgeA rest = none →
    parseEdgesX fuel ((es.map edgeElem).flatten ++ rest) = .ok (es, rest) := by
  intro es
  induction es with
  | nil =>
      intro fuel rest hf _ hstop
      match fuel, hf with
      | f + 1, _ => simp [parseEdgesX, hstop]
  | cons e es ih =>
      intro fuel rest hf hwf hstop
      match fuel, hf with
      | f + 1, hf =>
        obtain ⟨sv, tv, lv⟩ := e
        obtain ⟨hs1, hs2, ht1, ht2, hl⟩ := hwf ⟨sv, tv, lv⟩ (by simp)
        have hse : sv.isEmpty = false := isEmpty_false_of_ne_nil hs1
        have hte : tv.isEmpty = false := isEmpty_false_of_ne_nil ht1
        have hrec := ih f rest (by simpa using hf) (fun x hx => hwf x (by simp [hx])) hstop
        cases lv with
        | some el =>
            have hel : wfLen el = true := hl el (by simp)
            have hin : (((⟨sv, tv, some el⟩ : XEdge) :: es).map edgeElem).flatten ++ rest
                = xEdgeA ++ (sv ++ (xAttrTarget ++ (tv ++ (xAttrLength ++ (lenBody el ++
                    (dquoteChar :: ('/' :: ('>' ::
                      ((es.map edgeElem).flatten ++ rest))))))))) := by
              simp [edgeElem, xSelfClose]
            have h1 := dropLit_self xEdgeA (sv ++ (xAttrTarget ++ (tv ++ (xAttrLength ++
              (lenBody el ++ (dquoteChar :: ('/' :: ('>' ::
                ((es.map edgeElem).flatten ++ rest)))))))))
            have htw := takeWhile_append_stop isDigitChar sv (xAttrTarget ++ (tv ++
              (xAttrLength ++ (lenBody el ++ (dquoteChar :: ('/' :: ('>' ::
                ((es.map edgeElem).flatten ++ rest))))))))
              hs2 (show isDigitChar dquoteChar = false by decide)
            have h2 := dropLit_self xAttrTarget (tv ++ (xAttrLength ++ (lenBody el ++
              (dquoteChar :: ('/' :: ('>' :: ((es.map edgeElem).flatten ++ rest)))))))
            have htw2 := takeWhile_append_stop isDigitChar tv (xAttrLength ++ (lenBody el ++
              (dquoteChar :: ('/' :: ('>' :: ((es.map edgeElem).flatten ++ rest))))))
              ht2 (show isDigitChar dquoteChar = false by decide)
            have h3 := dropLit_self xAttrLength (lenBody el ++ (dquoteChar :: ('/' :: ('>' ::
              ((es.map edgeElem).flatten ++ rest)))))
            have hnum := parseNumber_print el (dquoteChar :: ('/' :: ('>' ::
              ((es.map edgeElem).flatten ++ rest)))) hel
              ⟨by decide, by decide, by decide, by decide⟩
            have h4 : dropLit xSelfClose (dquoteChar :: ('/' :: ('>' ::
                ((es.map edgeElem).flatten ++ rest))))
                = some ((es.map edgeElem).flatten ++ rest) :=
              dropLit_self xSelfClose ((es.map edgeElem).flatten ++ rest)
            rw [hin]
            simp only [parseEdgesX]
            simp [h1, htw.1, htw.2, hse, h2, htw2.1, htw2.2, hte, h3, hnum, h4, hrec]
        | none =>
            have hin : (((⟨sv, tv, none⟩ : XEdge) :: es).map edgeElem).flatten ++ rest
                = xEdgeA ++ (sv ++ (xAttrTarget ++ (tv ++ (dquoteChar :: ('/' :: ('>' ::
                    ((es.map edgeElem).flatten ++ rest))))))) := by
              simp [edgeElem, xSelfClose]
            have h1 := dropLit_self xEdgeA (sv ++ (xAttrTarget ++ (tv ++ (dquoteChar ::
              ('/' :: ('>' :: ((es.map edgeElem).flatten ++ rest)))))))
            have htw := takeWhile_append_stop isDigitChar sv (xAttrTarget ++ (tv ++
              (dquoteChar :: ('/' :: ('>' :: ((es.map edgeElem).flatten ++ rest))))))
              hs2 (show isDigitChar dquoteChar = false by decide)
            have h2 := dropLit_self xAttrTarget (tv ++ (dquoteChar :: ('/' :: ('>' ::
              ((es.map edgeElem).flatten ++ rest)))))
            have htw2 := takeWhile_append_stop isDigitChar tv (dquoteChar :: ('/' :: ('>' ::
              ((es.map edgeElem).flatten ++ rest)))) ht2
              (show isDigitChar dquoteChar = false by decide)
            have hno : dropLit xAttrLength (dquoteChar :: ('/' :: ('>' ::
                ((es.map edgeElem).flatten ++ rest)))) = none := by
              apply dropLit_none_at _ _ 1 (by decide)
              rw [show (dquoteChar :: ('/' :: ('>' ::
                ((es.map edgeElem).flatten ++ rest)))).get? 1 = some '/' from rfl]
              decide
            have h4 : dropLit xSelfClose (dquoteChar :: ('/' :: ('>' ::
                ((es.map edgeElem).flatten ++ rest))))
                = some ((es.map edgeElem).flatten ++ rest) :=
              dropLit_self xSelfClose ((es.map edgeElem).flatten ++ rest)
            rw [hin]
            simp only [parseEdgesX]
            simp [h1, htw.1, htw.2, hse, h2, htw2.1, htw2.2, hte, hno, h4, hrec]

theorem parseOtus_print : ∀ (L : List (List Char)) (i fuel : Nat)
    (reg : List (List Char)) (rest : List Char),
    L.length < fuel → (∀ l ∈ L, l ≠ []) →
    parseOtus fuel (otuElems L i ++ (xOtusClose ++ rest)) reg
      = .ok (transTable L i, registerAll L reg, rest) := by
  intro L
  induction L with
  | nil =>
      intro i fuel reg rest hf _
      match fuel, hf with
      | f + 1, _ =>
        have h1 := dropLit_self xOtusClose rest
        simp [parseOtus, otuElems, h1, transTable, registerAll]
  | cons l L ih =>
      intro i fuel reg rest hf hne
      match fuel, hf with
      | f + 1, hf =>
        have hnel : l ≠ [] := hne l (by simp)
        have hle : l.isEmpty = false := isEmpty_false_of_ne_nil hnel
        have hdig : (natToDigits (i + 1)).isEmpty = false :=
          isEmpty_false_of_ne_nil (natToDigits_ne_nil _)
        have hin : otuElems (l :: L) i ++ (xOtusClose ++ rest)
            = xOtuA ++ (natToDigits (i + 1) ++ (xAttrLabel ++ (escD l ++ (dquoteChar ::
                ('/' :: ('>' :: (otuElems L (i + 1) ++ (xOtusClose ++ rest)))))))) := by
          simp [otuElems, otuElem, xSelfClose]
        have hnc : dropLit xOtusClose (xOtuA ++ (natToDigits (i + 1) ++ (xAttrLabel ++
            (escD l ++ (dquoteChar :: ('/' :: ('>' :: (otuElems L (i + 1) ++
              (xOtusClose ++ rest))))))))) = none := by
          apply dropLit_none_at _ _ 1 (by decide)
          rw [show (xOtuA ++ (natToDigits (i + 1) ++ (xAttrLabel ++ (escD l ++ (dquoteChar ::
            ('/' :: ('>' :: (otuElems L (i + 1) ++ (xOtusClose ++ rest))))))))).get? 1
            = some 'o' from rfl]
          decide
        have h1 := dropLit_self xOtuA (natToDigits (i + 1) ++ (xAttrLabel ++ (escD l ++
          (dquoteChar :: ('/' :: ('>' :: (otuElems L (i + 1) ++ (xOtusClose ++ rest))))))))
        have htw := takeWhile_append_stop isDigitChar (natToDigits (i + 1)) (xAttrLabel ++
          (escD l ++ (dquoteChar :: ('/' :: ('>' :: (otuElems L (i + 1) ++
            (xOtusClose ++ rest))))))) (natToDigits_digits (i + 1))
          (show isDigitChar dquoteChar = false by decide)
        have h2 := dropLit_self xAttrLabel (escD l ++ (dquoteChar :: ('/' :: ('>' ::
          (otuElems L (i + 1) ++ (xOtusClose ++ rest))))))
        have hq := readQuotedD_escape l ((escD l ++ (dquoteChar :: ('/' :: ('>' ::
          (otuElems L (i + 1) ++ (xOtusClose ++ rest)))))).length + 1)
          ('/' :: ('>' :: (otuElems L (i + 1) ++ (xOtusClose ++ rest))))
          (by simp only [List.length_append, List.length_cons]; omega)
          (Or.inr (by intro c hc; simp at hc; subst hc; decide))
        have h3 : dropLit xClose2 ('/' :: ('>' :: (otuElems L (i + 1) ++
            (xOtusClose ++ rest))))
            = some (otuElems L (i + 1) ++ (xOtusClose ++ rest)) :=
          dropLit_self xClose2 (otuElems L (i + 1) ++ (xOtusClose ++ rest))
        have hrec := ih (i + 1) f ((require_taxon_labels reg l).1) rest
          (by simpa using hf) (fun x hx => hne x (by simp [hx]))
        rw [hin]
        simp only [parseOtus]
        simp only [List.length_append, List.length_cons] at hq
        simp [hnc, h1, htw.1, htw.2, hdig, h2, hq, hle, h3, hrec, transTable, registerAll]

theorem parseRootedge_print_none (rest : List Char)
    (h : dropLit xRootedgeA rest = none) : parseRootedge rest = .ok (none, rest) := by
  simp [parseRootedge, h]

theorem parseRootedge_print_some (el : EdgeLen) (rest : List Char)
    (hwf : wfLen el = true) :
    parseRootedge (xRootedgeA ++ (lenBody el ++ (dquoteChar :: ('/' :: ('>' :: rest)))))
      = .ok (some el, rest) := by
  have h1 := dropLit_self xRootedgeA (lenBody el ++ (dquoteChar :: ('/' :: ('>' :: rest))))
  have hnum := parseNumber_print el (dquoteChar :: ('/' :: ('>' :: rest))) hwf
    ⟨by decide, by decide, by decide, by decide⟩
  have h2 : dropLit xSelfClose (dquoteChar :: ('/' :: ('>' :: rest))) = some rest := by
    have := dropLit_self xSelfClose rest
    exact this
  simp [parseRootedge, h1, hnum, h2]

theorem nodeStop (es : List XEdge) (el? : Option EdgeLen) (X : List Char) :
    dropLit xNodeA ((es.map edgeElem).flatten ++ (rootedgeElem el? ++ (xTreeClose ++ X)))
      = none := by
  cases es with
  | nil =>
      cases el? with
      | none =>
          apply dropLit_none_at _ _ 1 (by decide)
          rw [show ((([] : List XEdge).map edgeElem).flatten
            ++ (rootedgeElem none ++ (xTreeClose ++ X))).get? 1 = some '/' from rfl]
          decide
      | some el =>
          apply dropLit_none_at _ _ 1 (by decide)
          rw [show ((([] : List XEdge).map edgeElem).flatten
            ++ (rootedgeElem (some el) ++ (xTreeClose ++ X))).get? 1 = some 'r' from rfl]
          decide
  | cons e es2 =>
      apply dropLit_none_at _ _ 1 (by decide)
      rw [show ((((e :: es2).map edgeElem).flatten
        ++ (rootedgeElem el? ++ (xTreeClose ++ X)))).get? 1 = some 'e' from rfl]
      decide

theorem edgeStop (el? : Option EdgeLen) (X : List Char) :
    dropLit xEdgeA (rootedgeElem el? ++ (xTreeClose ++ X)) = none := by
  cases el? with
  | none =>
      apply dropLit_none_at _ _ 1 (by decide)
      rw [show (rootedgeElem none ++ (xTreeClose ++ X)).get? 1 = some '/' from rfl]
      decide
  | some el =>
      apply dropLit_none_at _ _ 1 (by decide)
      rw [show (rootedgeElem (some el) ++ (xTreeClose ++ X)).get? 1 = some 'r' from rfl]
      decide

theorem rootedgeStop (X : List Char) : dropLit xRootedgeA (xTreeClose ++ X) = none := by
  apply dropLit_none_at _ _ 1 (by decide)
  rw [show (xTreeClose ++ X).get? 1 = some '/' from rfl]
  decide

theorem nodeElems_length (ns : List XNode) :
    ns.length ≤ ((ns.map nodeElem).flatten).length := by
  induction ns with
  | nil => simp
  | cons nd ns ih =>
      have h1 : 1 ≤ (nodeElem nd).length := by
        simp only [nodeElem, xNodeA, List.length_append, List.length_cons, List.length_nil]
        omega
      simp only [List.map_cons, List.flatten_cons, List.length_append, List.length_cons]
      omega

theorem edgeElems_length (es : List XEdge) :
    es.length ≤ ((es.map edgeElem).flatten).length := by
  induction es with
  | nil => simp
  | cons e es ih =>
      have h1 : 1 ≤ (edgeElem e).length := by
        simp only [edgeElem, xEdgeA, List.length_append, List.length_cons, List.length_nil]
        omega
      simp only [List.map_cons, List.flatten_cons, List.length_append, List.length_cons]
      omega

theorem otuElems_length (L : List (List Char)) : ∀ i : Nat,
    L.length ≤ (otuElems L i).length := by
  induction L with
  | nil => intro i; simp [otuElems]
  | cons l L ih =>
      intro i
      have h1 : 1 ≤ (otuElem i l).length := by
        simp only [otuElem, xOtuA, List.length_append, List.length_cons, List.length_nil]
        omega
      have := ih (i + 1)
      simp only [otuElems, List.length_append, List.length_cons]
      omega

theorem treeXmls_length (L : List (List Char)) (trees : List Tree) :
    trees.length ≤ ((trees.map (treeXml L)).flatten).length := by
  induction trees with
  | nil => simp
  | cons t ts ih =>
      have h1 : 1 ≤ (treeXml L t).length := by
        cases hr : t.is_rooted <;>
          (simp only [treeXml, treeOpenTag, hr, xTreeOpenR, xTreeOpenU, xTreeOpen,
            List.length_append, List.length_cons, List.length_nil]
           omega)
      simp only [List.map_cons, List.flatten_cons, List.length_append, List.length_cons]
      omega

theorem parseTreesX_print : ∀ (trees : List Tree) (fuel : Nat) (L : List (List Char))
    (rest : List Char),
    trees.length < fuel →
    (∀ t ∈ trees, wfTree t.root = true) →
    (∀ t ∈ trees, ∀ l ∈ leafLabelsT t.root, l ∈ L) →
    parseTreesX fuel ((trees.map (treeXml L)).flatten ++ (xTreesClose ++ rest))
        (transTable L 0) = .ok (trees, rest) := by
  intro trees
  induction trees with
  | nil =>
      intro fuel L rest hf _ _
      match fuel, hf with
      | f + 1, _ =>
        have h1 := dropLit_self xTreesClose rest
        simp [parseTreesX, h1]
  | cons t ts ih =>
      intro fuel L rest hf hwf hlv
      match fuel, hf with
      | f + 1, hf =>
        have hwt : wfTree t.root = true := hwf t (by simp)
        have hlvt := hlv t (by simp)
        cases hs : serT L t.root 1 with
        | mk ns pp =>
        cases pp with
        | mk es n2 =>
        have hin : ((t :: ts).map (treeXml L)).flatten ++ (xTreesClose ++ rest)
            = treeOpenTag t.is_rooted ++ (((ns.map nodeElem).flatten) ++
                (((es.map edgeElem).flatten) ++ (rootedgeElem (elenOf t.root) ++
                  (xTreeClose ++
                    ((ts.map (treeXml L)).flatten ++ (xTreesClose ++ rest)))))) := by
          simp [treeXml, hs]
        have hclose : dropLit xTreesClose (treeOpenTag t.is_rooted ++
            (((ns.map nodeElem).flatten) ++ (((es.map edgeElem).flatten) ++
              (rootedgeElem (elenOf t.root) ++ (xTreeClose ++
                ((ts.map (treeXml L)).flatten ++ (xTreesClose ++ rest))))))) = none := by
          apply dropLit_none_at _ _ 1 (by decide)
          have h2 : (treeOpenTag t.is_rooted ++ (((ns.map nodeElem).flatten) ++
              (((es.map edgeElem).flatten) ++ (rootedgeElem (elenOf t.root) ++
                (xTreeClose ++ ((ts.map (treeXml L)).flatten
                  ++ (xTreesClose ++ rest))))))).get? 1 = some 't' := by
            cases t.is_rooted <;> rfl
          rw [h2]
          decide
        have hew := serT_elems_wf L t.root 1 ns es n2 hs hwt
        have hnodes := parseNodesX_print ns
          ((((ns.map nodeElem).flatten) ++ (((es.map edgeElem).flatten) ++
            (rootedgeElem (elenOf t.root) ++ (xTreeClose ++
              ((ts.map (treeXml L)).flatten ++ (xTreesClose ++ rest)))))).length + 1)
          (((es.map edgeElem).flatten) ++ (rootedgeElem (elenOf t.root) ++
            (xTreeClose ++ ((ts.map (treeXml L)).flatten ++ (xTreesClose ++ rest)))))
          (by
            have := nodeElems_length ns
            simp only [List.length_append]
            omega)
          hew.1 (nodeStop es (elenOf t.root) ((ts.map (treeXml L)).flatten
            ++ (xTreesClose ++ rest)))
        have hedges := parseEdgesX_print es
          ((((es.map edgeElem).flatten) ++ (rootedgeElem (elenOf t.root) ++
            (xTreeClose ++ ((ts.map (treeXml L)).flatten
              ++ (xTreesClose ++ rest))))).length + 1)
          (rootedgeElem (elenOf t.root) ++ (xTreeClose ++
            ((ts.map (treeXml L)).flatten ++ (xTreesClose ++ rest))))
          (by
            have := edgeElems_length es
            simp only [List.length_append]
            omega)
          hew.2 (edgeStop (elenOf t.root) ((ts.map (treeXml L)).flatten
            ++ (xTreesClose ++ rest)))
        have hroot : parseRootedge (rootedgeElem (elenOf t.root) ++ (xTreeClose ++
            ((ts.map (treeXml L)).flatten ++ (xTreesClose ++ rest))))
            = .ok (elenOf t.root, xTreeClose ++
                ((ts.map (treeXml L)).flatten ++ (xTreesClose ++ rest))) := by
          cases hel : elenOf t.root with
          | none =>
              exact parseRootedge_print_none _
                (rootedgeStop ((ts.map (treeXml L)).flatten ++ (xTreesClose ++ rest)))
          | some el =>
              have hwl : wfLen el = true := by
                have := elenOf_wf t.root hwt
                rw [hel] at this
                simpa [wfOptLen] using this
              have harr : rootedgeElem (some el) ++ (xTreeClose ++
                  ((ts.map (treeXml L)).flatten ++ (xTreesClose ++ rest)))
                  = xRootedgeA ++ (lenBody el ++ (dquoteChar :: ('/' :: ('>' ::
                      (xTreeClose ++ ((ts.map (treeXml L)).flatten
                        ++ (xTreesClose ++ rest))))))) := by
                simp [rootedgeElem, xSelfClose]
              rw [harr]
              exact parseRootedge_print_some el _ hwl
        have hclose2 := dropLit_self xTreeClose
          ((ts.map (treeXml L)).flatten ++ (xTreesClose ++ rest))
        have hbuild := (build_ser_aux (2 * (ns.length + es.length) + 2)).1 L t.root 1
          ns es n2 [] [] hs hwt hlvt
          (by have := serT_size L t.root 1 ns es n2 hs; omega)
          (Or.inl rfl)
        simp only [List.append_nil] at hbuild
        have hrec := ih f L rest (by simpa using hf)
          (fun u hu => hwf u (by simp [hu])) (fun u hu => hlv u (by simp [hu]))
        have ht : (⟨t.is_rooted, t.root⟩ : Tree) = t := rfl
        rw [hin]
        simp only [parseTreesX]
        simp only [List.length_append, List.length_cons, List.length_flatten,
          List.map_map] at hnodes hedges
        cases hr : t.is_rooted with
        | rooted =>
            have hR := dropLit_self xTreeOpenR (((ns.map nodeElem).flatten) ++
              (((es.map edgeElem).flatten) ++ (rootedgeElem (elenOf t.root) ++
                (xTreeClose ++ ((ts.map (treeXml L)).flatten ++ (xTreesClose ++ rest))))))
            rw [hr] at hclose
            simp only [treeOpenTag] at hclose
            simp only [treeOpenTag]
            simp [hclose, hR, hnodes, hedges, hroot, hclose2, hbuild, hrec,
              setLen_setLen, ← hr, ht]
        | unrooted =>
            have hRn : dropLit xTreeOpenR (xTreeOpenU ++ (((ns.map nodeElem).flatten) ++
                (((es.map edgeElem).flatten) ++ (rootedgeElem (elenOf t.root) ++
                  (xTreeClose ++ ((ts.map (treeXml L)).flatten
                    ++ (xTreesClose ++ rest))))))) = none := by
              apply dropLit_none_at _ _ 12 (by decide)
              rw [show (xTreeOpenU ++ (((ns.map nodeElem).flatten) ++
                (((es.map edgeElem).flatten) ++ (rootedgeElem (elenOf t.root) ++
                  (xTreeClose ++ ((ts.map (treeXml L)).flatten
                    ++ (xTreesClose ++ rest))))))).get? 12 = some 'U' from rfl]
              decide
            have hU := dropLit_self xTreeOpenU (((ns.map nodeElem).flatten) ++
              (((es.map edgeElem).flatten) ++ (rootedgeElem (elenOf t.root) ++
                (xTreeClose ++ ((ts.map (treeXml L)).flatten ++ (xTreesClose ++ rest))))))
            rw [hr] at hclose
            simp only [treeOpenTag] at hclose
            simp only [treeOpenTag]
            simp [hclose, hRn, hU, hnodes, hedges, hroot, hclose2, hbuild, hrec,
              setLen_setLen, ← hr, ht]
        | unknown =>
            have hRn : dropLit xTreeOpenR (xTreeOpen ++ (((ns.map nodeElem).flatten) ++
                (((es.map edgeElem).flatten) ++ (rootedgeElem (elenOf t.root) ++
                  (xTreeClose ++ ((ts.map (treeXml L)).flatten
                    ++ (xTreesClose ++ rest))))))) = none := by
              apply dropLit_none_at _ _ 5 (by decide)
              rw [show (xTreeOpen ++ (((ns.map nodeElem).flatten) ++
                (((es.map edgeElem).flatten) ++ (rootedgeElem (elenOf t.root) ++
                  (xTreeClose ++ ((ts.map (treeXml L)).flatten
                    ++ (xTreesClose ++ rest))))))).get? 5 = some '>' from rfl]
              decide
            have hUn : dropLit xTreeOpenU (xTreeOpen ++ (((ns.map nodeElem).flatten) ++
                (((es.map edgeElem).flatten) ++ (rootedgeElem (elenOf t.root) ++
                  (xTreeClose ++ ((ts.map (treeXml L)).flatten
                    ++ (xTreesClose ++ rest))))))) = none := by
              apply dropLit_none_at _ _ 5 (by decide)
              rw [show (xTreeOpen ++ (((ns.map nodeElem).flatten) ++
                (((es.map edgeElem).flatten) ++ (rootedgeElem (elenOf t.root) ++
                  (xTreeClose ++ ((ts.map (treeXml L)).flatten
                    ++ (xTreesClose ++ rest))))))).get? 5 = some '>' from rfl]
              decide
            have hP := dropLit_self xTreeOpen (((ns.map nodeElem).flatten) ++
              (((es.map edgeElem).flatten) ++ (rootedgeElem (elenOf t.root) ++
                (xTreeClose ++ ((ts.map (treeXml L)).flatten ++ (xTreesClose ++ rest))))))
            rw [hr] at hclose
            simp only [treeOpenTag] at hclose
            simp only [treeOpenTag]
            simp [hclose, hRn, hUn, hP, hnodes, hedges, hroot, hclose2, hbuild, hrec,
              setLen_setLen, ← hr, ht]

theorem write_blockX_parse : ∀ (bs : List TreesBlock) (fuel : Nat),
    bs.length < fuel → (∀ b ∈ bs, wfNexusBlock b) →
    parseBlocksX fuel ((bs.map write_nexml_block).flatten) = .ok bs := by
  intro bs
  induction bs with
  | nil =>
      intro fuel hf _
      match fuel, hf with
      | f + 1, _ => simp [parseBlocksX]
  | cons b bs ih =>
      intro fuel hf hwf
      match fuel, hf with
      | f + 1, hf =>
        have hwb : wfNexusBlock b := hwf b (by simp)
        have hLeq : block_labels b = b.taxa_block.labels := block_labels_eq b hwb
        have hin : ((b :: bs).map write_nexml_block).flatten
            = xOtusOpen ++ (otuElems (block_labels b) 0 ++ (xOtusClose ++
                (xTreesOpen ++ ((b.tree_list.map (treeXml (block_labels b))).flatten ++
                  (xTreesClose ++ ((bs.map write_nexml_block).flatten)))))) := by
          simp [write_nexml_block]
        have hne0 : (xOtusOpen ++ (otuElems (block_labels b) 0 ++ (xOtusClose ++
            (xTreesOpen ++ ((b.tree_list.map (treeXml (block_labels b))).flatten ++
              (xTreesClose ++ ((bs.map write_nexml_block).flatten))))))).isEmpty
            = false := by
          rw [List.isEmpty_eq_false_iff_exists_mem]
          exact ⟨'<', by simp [xOtusOpen]⟩
        have hopen := dropLit_self xOtusOpen (otuElems (block_labels b) 0 ++ (xOtusClose ++
          (xTreesOpen ++ ((b.tree_list.map (treeXml (block_labels b))).flatten ++
            (xTreesClose ++ ((bs.map write_nexml_block).flatten))))))
        have hnel : ∀ l ∈ block_labels b, l ≠ [] := by
          rw [hLeq]
          exact hwb.2.1
        have hotus := parseOtus_print (block_labels b) 0
          ((otuElems (block_labels b) 0 ++ (xOtusClose ++
            (xTreesOpen ++ ((b.tree_list.map (treeXml (block_labels b))).flatten ++
              (xTreesClose ++ ((bs.map write_nexml_block).flatten)))))).length + 1) []
          (xTreesOpen ++ ((b.tree_list.map (treeXml (block_labels b))).flatten ++
            (xTreesClose ++ ((bs.map write_nexml_block).flatten))))
          (by
            have := otuElems_length (block_labels b) 0
            simp only [List.length_append]
            omega)
          hnel
        have hreg : registerAll (block_labels b) [] = block_labels b := by
          have := registerAll_of_nodup_append (block_labels b) []
          rw [List.nil_append] at this
          exact this (by rw [hLeq]; exact hwb.1)
        have htreesopen := dropLit_self xTreesOpen
          ((b.tree_list.map (treeXml (block_labels b))).flatten ++
            (xTreesClose ++ ((bs.map write_nexml_block).flatten)))
        have htrees := parseTreesX_print b.tree_list
          (((b.tree_list.map (treeXml (block_labels b))).flatten ++
            (xTreesClose ++ ((bs.map write_nexml_block).flatten))).length + 1)
          (block_labels b) ((bs.map write_nexml_block).flatten)
          (by
            have := treeXmls_length (block_labels b) b.tree_list
            simp only [List.length_append]
            omega)
          hwb.2.2.1
          (by
            intro t ht l hl
            rw [hLeq]
            exact hwb.2.2.2 t ht l hl)
        have hrec := ih f (by simpa using hf) (fun x hx => hwf x (by simp [hx]))
        rw [hLeq] at hin hne0 hopen hotus hreg htreesopen htrees
        rw [hin]
        simp only [parseBlocksX]
        simp only [List.length_append, List.length_cons, List.length_flatten,
          List.map_map] at hotus htrees
        simp [hne0, hopen, hotus, hreg, htreesopen, htrees, hrec]

theorem write_blockX_length_pos (b : TreesBlock) : 1 ≤ (write_nexml_block b).length := by
  simp only [write_nexml_block, xOtusOpen, List.length_append, List.length_cons,
    List.length_nil]
  omega

theorem blocksX_length_le (bs : List TreesBlock) :
    bs.length ≤ ((bs.map write_nexml_block).flatten).length := by
  induction bs with
  | nil => simp
  | cons b bs ih =>
      have := write_blockX_length_pos b
      simp only [List.map_cons, List.flatten_cons, List.length_append, List.length_cons]
      omega

theorem read_nexml_write (d : Dataset) (h : ∀ b ∈ d.trees_blocks, wfNexusBlock b) :
    read_nexml (write_nexml d) = .ok d := by
  unfold read_nexml write_nexml
  rw [write_blockX_parse d.trees_blocks
    (((d.trees_blocks.map write_nexml_block).flatten).length + 1)
    (Nat.lt_succ_of_le (blocksX_length_le d.trees_blocks)) h]

theorem parseOtus_wf : ∀ (fuel : Nat) (input : List Char) (reg : List (List Char))
    (tbl : List (List Char × List Char)) (reg2 : List (List Char)) (r : List Char),
    parseOtus fuel input reg = .ok (tbl, reg2, r) →
    (reg.Nodup → reg2.Nodup)
    ∧ ((∀ x ∈ reg, x ≠ []) → ∀ x ∈ reg2, x ≠ [])
    ∧ (∀ x ∈ reg, x ∈ reg2)
    ∧ (∀ kv ∈ tbl, kv.2 ≠ [] ∧ kv.2 ∈ reg2) := by
  intro fuel
  induction fuel with
  | zero =>
      intro input reg tbl reg2 r h
      simp [parseOtus] at h
  | succ f ih =>
      intro input reg tbl reg2 r h
      simp only [parseOtus] at h
      split at h
      · simp only [Except.ok.injEq, Prod.mk.injEq] at h
        obtain ⟨h1, h2, h3⟩ := h
        subst h1
        subst h2
        exact ⟨fun hn => hn, fun hn => hn, fun x hx => hx, by simp⟩
      · split at h
        · simp at h
        · split at h
          · simp at h
          · split at h
            · simp at h
            · split at h
              · simp at h
              · rename_i lbl r4 hq
                split at h
                · simp at h
                · rename_i hle
                  have hlbl : lbl ≠ [] := by
                    intro he
                    rw [he] at hle
                    exact hle rfl
                  split at h
                  · simp at h
                  · split at h
                    · simp at h
                    · rename_i tbl2 reg3 r6 hrec
                      simp only [Except.ok.injEq, Prod.mk.injEq] at h
                      obtain ⟨h1, h2, h3⟩ := h
                      subst h1
                      subst h2
                      have hih := ih _ ((require_taxon_labels reg lbl).1) _ _ _ hrec
                      refine ⟨?_, ?_, ?_, ?_⟩
                      · intro hn
                        exact hih.1 (require_taxon_labels_nodup reg lbl hn)
                      · intro hn
                        exact hih.2.1 (require_taxon_labels_ne_nil reg lbl hn hlbl)
                      · intro x hx
                        exact hih.2.2.1 x (require_taxon_labels_mono reg lbl x hx)
                      · intro kv hkv
                        rcases List.mem_cons.mp hkv with h4 | h4
                        · subst h4
                          exact ⟨hlbl,
                            hih.2.2.1 lbl (require_taxon_labels_self_mem reg lbl)⟩
                        · exact hih.2.2.2 kv h4

theorem parseNodesX_wf : ∀ (fuel : Nat) (input : List Char) (ns : List XNode)
    (r : List Char), parseNodesX fuel input = .ok (ns, r) →
    ∀ nd ∈ ns, ∀ l ∈ nd.label, l ≠ [] := by
  intro fuel
  induction fuel with
  | zero =>
      intro input ns r h
      simp [parseNodesX] at h
  | succ f ih =>
      intro input ns r h
      simp only [parseNodesX] at h
      split at h
      · simp only [Except.ok.injEq, Prod.mk.injEq] at h
        obtain ⟨h1, h2⟩ := h
        subst h1
        intro nd hnd
        simp at hnd
      · split at h
        · simp at h
        · split at h
          · split at h
            · simp at h
            · split at h
              · simp at h
              · split at h
                · simp at h
                · rename_i ns2 r6 hrec
                  simp only [Except.ok.injEq, Prod.mk.injEq] at h
                  obtain ⟨h1, h2⟩ := h
                  subst h1
                  intro nd hnd
                  rcases List.mem_cons.mp hnd with h4 | h4
                  · subst h4
                    intro l hl
                    simp at hl
                  · exact ih _ ns2 r6 hrec nd h4
          · split at h
            · split at h
              · simp at h
              · rename_i lbl r4 hq
                split at h
                · simp at h
                · rename_i hle
                  split at h
                  · simp at h
                  · split at h
                    · simp at h
                    · rename_i ns2 r6 hrec
                      simp only [Except.ok.injEq, Prod.mk.injEq] at h
                      obtain ⟨h1, h2⟩ := h
                      subst h1
                      intro nd hnd
                      rcases List.mem_cons.mp hnd with h4 | h4
                      · subst h4
                        intro l hl
                        simp only [Option.mem_def, Option.some.injEq] at hl
                        subst hl
                        intro he
                        rw [he] at hle
                        exact hle rfl
                      · exact ih _ ns2 r6 hrec nd h4
            · split at h
              · simp at h
              · split at h
                · simp at h
                · rename_i ns2 r6 hrec
                  simp only [Except.ok.injEq, Prod.mk.injEq] at h
                  obtain ⟨h1, h2⟩ := h
                  subst h1
                  intro nd hnd
                  rcases List.mem_cons.mp hnd with h4 | h4
                  · subst h4
                    intro l hl
                    simp at hl
                  · exact ih _ ns2 r6 hrec nd h4

theorem parseEdgesX_wf : ∀ (fuel : Nat) (input : List Char) (es : List XEdge)
    (r : List Char), parseEdgesX fuel input = .ok (es, r) →
    ∀ e ∈ es, ∀ el ∈ e.len, wfLen el = true := by
  intro fuel
  induction fuel with
  | zero =>
      intro input es r h
      simp [parseEdgesX] at h
  | succ f ih =>
      intro input es r h
      simp only [parseEdgesX] at h
      split at h
      · simp only [Except.ok.injEq, Prod.mk.injEq] at h
        obtain ⟨h1, h2⟩ := h
        subst h1
        intro e he
        simp at he
      · split at h
        · simp at h
        · split at h
          · simp at h
          · split at h
            · simp at h
            · split at h
              · split at h
                · simp at h
                · rename_i el r6 hnum
                  split at h
                  · simp at h
                  · split at h
                    · simp at h
                    · rename_i es2 r8 hrec
                      simp only [Except.ok.injEq, Prod.mk.injEq] at h
                      obtain ⟨h1, h2⟩ := h
                      subst h1
                      intro e he
                      rcases List.mem_cons.mp he with h4 | h4
                      · subst h4
                        intro el2 hel
                        simp only [Option.mem_def, Option.some.injEq] at hel
                        subst hel
                        exact parseNumber_wf _ _ _ hnum
                      · exact ih _ es2 r8 hrec e h4
              · split at h
                · simp at h
                · split at h
                  · simp at h
                  · rename_i es2 r6 hrec
                    simp only [Except.ok.injEq, Prod.mk.injEq] at h
                    obtain ⟨h1, h2⟩ := h
                    subst h1
                    intro e he
                    rcases List.mem_cons.mp he with h4 | h4
                    · subst h4
                      intro el2 hel
                      simp at hel
                    · exact ih _ es2 r6 hrec e h4

theorem parseRootedge_wf (input : List Char) (rel : Option EdgeLen) (r : List Char)
    (h : parseRootedge input = .ok (rel, r)) : wfOptLen rel = true := by
  simp only [parseRootedge] at h
  split at h
  · simp only [Except.ok.injEq, Prod.mk.injEq] at h
    obtain ⟨h1, h2⟩ := h
    subst h1
    rfl
  · split at h
    · simp at h
    · rename_i el r2 hnum
      split at h
      · simp at h
      · simp only [Except.ok.injEq, Prod.mk.injEq] at h
        obtain ⟨h1, h2⟩ := h
        subst h1
        simpa [wfOptLen] using parseNumber_wf _ _ _ hnum

theorem wf_setLen (t : NTree) (el : Option EdgeLen) (h : wfTree t = true)
    (hel : wfOptLen el = true) : wfTree (setLen t el) = true := by
  cases t with
  | leaf l e =>
      simp only [wfTree, Bool.and_eq_true] at h
      simp [setLen, wfTree, h.1, hel]
  | node ts lbl e =>
      simp only [wfTree, Bool.and_eq_true] at h
      simp [setLen, wfTree, h.1.1, h.1.2, hel]

theorem leafLabelsT_setLen (t : NTree) (el : Option EdgeLen) :
    leafLabelsT (setLen t el) = leafLabelsT t := by
  cases t with
  | leaf l e => rfl
  | node ts lbl e => rfl

theorem toL_props : ∀ (cs : List NTree) (l : NTreeList), toL cs = some l →
    ((∀ c ∈ cs, wfTree c = true) → wfList l = true)
    ∧ (∀ x ∈ leafLabelsL l, ∃ c ∈ cs, x ∈ leafLabelsT c) := by
  intro cs
  induction cs with
  | nil =>
      intro l h
      simp [toL] at h
  | cons c cs ih =>
      intro l h
      cases cs with
      | nil =>
          simp only [toL, Option.some.injEq] at h
          subst h
          constructor
          · intro hwf
            simpa [wfList] using hwf c (by simp)
          · intro x hx
            exact ⟨c, by simp, by simpa [leafLabelsL] using hx⟩
      | cons c2 cs2 =>
          simp only [toL] at h
          split at h
          · rename_i l2 htl
            simp only [Option.some.injEq] at h
            subst h
            have hih := ih l2 htl
            constructor
            · intro hwf
              have h1 := hwf c (by simp)
              have h2 := hih.1 (fun x hx => hwf x (by simp [hx]))
              simp [wfList, h1, h2]
            · intro x hx
              simp only [leafLabelsL, List.mem_append] at hx
              rcases hx with hx | hx
              · exact ⟨c, by simp, hx⟩
              · obtain ⟨c3, hc3, hx3⟩ := hih.2 x hx
                exact ⟨c3, by simp [hc3], hx3⟩
          · simp at h

theorem build_wf_aux : ∀ fuel : Nat,
    (∀ (tbl : List (List Char × List Char)) (P : List Char → Prop)
        (nodes : List XNode) (edges : List XEdge) (t : NTree)
        (nodes2 : List XNode) (edges2 : List XEdge),
        buildT tbl fuel nodes edges = .ok (t, nodes2, edges2) →
        (∀ kv ∈ tbl, kv.2 ≠ [] ∧ P kv.2) →
        (∀ nd ∈ nodes, ∀ l ∈ nd.label, l ≠ []) →
        (∀ e ∈ edges, ∀ el ∈ e.len, wfLen el = true) →
        wfTree t = true ∧ (∀ l ∈ leafLabelsT t, P l)
          ∧ (∀ nd ∈ nodes2, nd ∈ nodes) ∧ (∀ e ∈ edges2, e ∈ edges))
    ∧ (∀ (tbl : List (List Char × List Char)) (P : List Char → Prop) (pid : List Char)
        (nodes : List XNode) (edges : List XEdge) (cs : List NTree)
        (nodes2 : List XNode) (edges2 : List XEdge),
        buildChildren tbl fuel pid nodes edges = .ok (cs, nodes2, edges2) →
        (∀ kv ∈ tbl, kv.2 ≠ [] ∧ P kv.2) →
        (∀ nd ∈ nodes, ∀ l ∈ nd.label, l ≠ []) →
        (∀ e ∈ edges, ∀ el ∈ e.len, wfLen el = true) →
        (∀ c ∈ cs, wfTree c = true ∧ ∀ l ∈ leafLabelsT c, P l)
          ∧ (∀ nd ∈ nodes2, nd ∈ nodes) ∧ (∀ e ∈ edges2, e ∈ edges)) := by
  intro fuel
  induction fuel with
  | zero =>
      constructor
      · intro tbl P nodes edges t nodes2 edges2 h
        simp [buildT] at h
      · intro tbl P pid nodes edges cs nodes2 edges2 h
        simp [buildChildren] at h
  | succ f ih =>
      obtain ⟨ihT, ihL⟩ := ih
      constructor
      · intro tbl P nodes edges t nodes2 edges2 h htbl hnodes hedges
        simp only [buildT] at h
        split at h
        · simp at h
        · rename_i nd nodesR
          split at h
          · rename_i ref hotu
            split at h
            · rename_i lbl hlook
              simp only [Except.ok.injEq, Prod.mk.injEq] at h
              obtain ⟨h1, h2, h3⟩ := h
              subst h1
              subst h2
              subst h3
              obtain ⟨k, hk⟩ := lookupTok_mem tbl ref lbl hlook
              have hv := htbl (k, lbl) hk
              refine ⟨?_, ?_, ?_, ?_⟩
              · simp only [wfTree, Bool.and_eq_true]
                exact ⟨by simpa using isEmpty_false_of_ne_nil hv.1, rfl⟩
              · intro x hx
                simp only [leafLabelsT, List.mem_singleton] at hx
                subst hx
                exact hv.2
              · intro x hx
                exact List.mem_cons_of_mem nd hx
              · intro e he
                exact he
            · simp at h
          · rename_i hotu
            split at h
            · simp at h
            · rename_i cs2 nodes3 edges3 hbc
              split at h
              · rename_i l2 htl
                simp only [Except.ok.injEq, Prod.mk.injEq] at h
                obtain ⟨h1, h2, h3⟩ := h
                subst h1
                subst h2
                subst h3
                have hrec := ihL tbl P nd.id nodesR edges cs2 _ _ hbc htbl
                  (fun x hx => hnodes x (List.mem_cons_of_mem nd hx)) hedges
                have htp := toL_props cs2 l2 htl
                refine ⟨?_, ?_, ?_, ?_⟩
                · simp only [wfTree, Bool.and_eq_true]
                  refine ⟨⟨htp.1 (fun c hc => (hrec.1 c hc).1), ?_⟩, rfl⟩
                  cases hlb : nd.label with
                  | none => simp [wfOptLabel]
                  | some lv =>
                      have := hnodes nd (by simp) lv (by simp [hlb])
                      simp [wfOptLabel, isEmpty_false_of_ne_nil this]
                · intro x hx
                  simp only [leafLabelsT] at hx
                  obtain ⟨c, hc, hxc⟩ := htp.2 x hx
                  exact (hrec.1 c hc).2 x hxc
                · intro x hx
                  exact List.mem_cons_of_mem nd (hrec.2.1 x hx)
                · exact hrec.2.2
              · simp at h
      · intro tbl P pid nodes edges cs nodes2 edges2 h htbl hnodes hedges
        match edges, h with
        | [], h =>
            simp only [buildChildren, Except.ok.injEq, Prod.mk.injEq] at h
            obtain ⟨h1, h2, h3⟩ := h
            subst h1
            subst h2
            subst h3
            exact ⟨fun c hc => absurd hc (by simp), fun x hx => hx, fun e he => he⟩
        | e :: edgesR, h =>
            simp only [buildChildren] at h
            split at h
            · split at h
              · simp at h
              · rename_i nd ndtl hnn
                split at h
                · split at h
                  · simp at h
                  · rename_i t nodes3 edges3 hbt
                    split at h
                    · simp at h
                    · rename_i ts nodes4 edges4 hbc
                      simp only [Except.ok.injEq, Prod.mk.injEq] at h
                      obtain ⟨h1, h2, h3⟩ := h
                      subst h1
                      subst h2
                      subst h3
                      have hrecT := ihT tbl P (nd :: ndtl) edgesR t _ _ hbt htbl
                        hnodes (fun x hx => hedges x (List.mem_cons_of_mem e hx))
                      have hrecL := ihL tbl P pid _ _ ts _ _ hbc htbl
                        (fun x hx => hnodes x (hrecT.2.2.1 x hx))
                        (fun x hx => hedges x
                          (List.mem_cons_of_mem e (hrecT.2.2.2 x hx)))
                      refine ⟨?_, ?_, ?_⟩
                      · intro c hc
                        rcases List.mem_cons.mp hc with h4 | h4
                        · subst h4
                          constructor
                          · apply wf_setLen t e.len hrecT.1
                            cases hel : e.len with
                            | none => rfl
                            | some el2 =>
                                have := hedges e (by simp) el2 (by simp [hel])
                                simpa [wfOptLen] using this
                          · intro x hx
                            rw [leafLabelsT_setLen] at hx
                            exact hrecT.2.1 x hx
                        · exact hrecL.1 c h4
                      · intro x hx
                        exact hrecT.2.2.1 x (hrecL.2.1 x hx)
                      · intro x hx
                        exact List.mem_cons_of_mem e (hrecT.2.2.2 x (hrecL.2.2 x hx))
                · simp at h
            · simp only [Except.ok.injEq, Prod.mk.injEq] at h
              obtain ⟨h1, h2, h3⟩ := h
              subst h1
              subst h2
              subst h3
              exact ⟨fun c hc => absurd hc (by simp), fun x hx => hx, fun x hx => hx⟩

theorem parseTreesX_wf : ∀ (fuel : Nat) (input : List Char)
    (tbl : List (List Char × List Char)) (P : List Char → Prop),
    (∀ kv ∈ tbl, kv.2 ≠ [] ∧ P kv.2) → ∀ (ts : List Tree) (r : List Char),
    parseTreesX fuel input tbl = .ok (ts, r) →
    ∀ t ∈ ts, wfTree t.root = true ∧ ∀ l ∈ leafLabelsT t.root, P l := by
  intro fuel
  induction fuel with
  | zero =>
      intro input tbl P htbl ts r h
      simp [parseTreesX] at h
  | succ f ih =>
      intro input tbl P htbl ts r h
      simp only [parseTreesX] at h
      split at h
      · simp only [Except.ok.injEq, Prod.mk.injEq] at h
        obtain ⟨h1, h2⟩ := h
        subst h1
        intro t ht
        simp at ht
      · split at h
        · simp at h
        · split at h
          · simp at h
          · rename_i ns r2 hpn
            split at h
            · simp at h
            · rename_i es r3 hpe
              split at h
              · simp at h
              · rename_i rel r4 hpr
                split at h
                · simp at h
                · split at h
                  · simp at h
                  · rename_i t0 nrest erest hbt
                    split at h
                    · split at h
                      · simp at h
                      · rename_i ts2 r6 hrec
                        simp only [Except.ok.injEq, Prod.mk.injEq] at h
                        obtain ⟨h1, h2⟩ := h
                        subst h1
                        intro u hu
                        rcases List.mem_cons.mp hu with h4 | h4
                        · subst h4
                          have hb := (build_wf_aux _).1 tbl P ns es t0 nrest erest
                            hbt htbl (parseNodesX_wf _ _ _ _ hpn)
                            (parseEdgesX_wf _ _ _ _ hpe)
                          have hrl := parseRootedge_wf _ _ _ hpr
                          constructor
                          · exact wf_setLen t0 rel hb.1 hrl
                          · intro l hl
                            rw [leafLabelsT_setLen] at hl
                            exact hb.2.1 l hl
                        · exact ih _ tbl P htbl ts2 r6 hrec u h4
                    · simp at h

theorem parseBlocksX_wf : ∀ (fuel : Nat) (input : List Char) (bs : List TreesBlock),
    parseBlocksX fuel input = .ok bs → ∀ b ∈ bs, wfNexusBlock b := by
  intro fuel
  induction fuel with
  | zero =>
      intro input bs h
      simp [parseBlocksX] at h
  | succ f ih =>
      intro input bs h
      simp only [parseBlocksX] at h
      split at h
      · simp only [Except.ok.injEq] at h
        subst h
        intro b hb
        simp at hb
      · split at h
        · simp at h
        · split at h
          · simp at h
          · rename_i tbl reg r2 hotus
            split at h
            · simp at h
            · split at h
              · simp at h
              · rename_i ts r4 htrees
                split at h
                · simp at h
                · rename_i bs2 hrec
                  simp only [Except.ok.injEq] at h
                  subst h
                  have how := parseOtus_wf _ _ _ _ _ _ hotus
                  have hsw := parseTreesX_wf _ _ _ (fun l => l ∈ reg)
                    (fun kv hkv => how.2.2.2 kv hkv) _ _ htrees
                  intro b hb
                  rcases List.mem_cons.mp hb with h3 | h3
                  · subst h3
                    refine ⟨?_, ?_, ?_, ?_⟩
                    · exact how.1 List.nodup_nil
                    · exact how.2.1 (by intro x hx; simp at hx)
                    · intro t ht
                      exact (hsw t ht).1
                    · intro t ht
                      exact (hsw t ht).2
                  · exact ih _ bs2 hrec b h3

theorem read_nexml_wf (input : List Char) (d : Dataset)
    (h : read_nexml input = .ok d) : ∀ b ∈ d.trees_blocks, wfNexusBlock b := by
  unfold read_nexml at h
  cases hp : parseBlocksX (input.length + 1) input with
  | error e =>
      rw [hp] at h
      simp at h
  | ok bs =>
      rw [hp] at h
      simp only [Except.ok.injEq] at h
      subst h
      exact parseBlocksX_wf _ _ _ hp

theorem compose_tree_length_pos (t : Tree) : 1 ≤ (compose_newick_tree t).length := by
  simp only [compose_newick_tree, List.length_append, List.length_cons, List.length_nil]
  omega

theorem trees_flatten_length (ts : List Tree) :
    ts.length ≤ ((ts.map compose_newick_tree).flatten).length := by
  induction ts with
  | nil => simp
  | cons t ts ih =>
      have := compose_tree_length_pos t
      simp only [List.map_cons, List.flatten_cons, List.length_append, List.length_cons]
      omega

theorem read_newick_roundtrip (ts : List Tree) (tns : TaxonNamespace)
    (hwf : ∀ t ∈ ts, wfTree t.root = true) :
    ∃ tns2, read_newick ((ts.map compose_newick_tree).flatten) tns
      = (.ok ⟨[⟨tns2, ts⟩]⟩, tns2) := by
  obtain ⟨tns2, hpt⟩ := parseTrees_print ts
    ((((ts.map compose_newick_tree).flatten)).length + 1) tns
    (Nat.lt_succ_of_le (trees_flatten_length ts)) hwf
  refine ⟨tns2, ?_⟩
  unfold read_newick
  rw [hpt]

/-- Modelled from the spec: the supported tree file formats, each with a
reader and a writer behind the polymorphic dispatch interface. -/
inductive Format where
  | newick : Format
  | nexus : Format
  | nexml : Format
deriving DecidableEq

/-- Modelled from the spec: `read_dataset`, dispatching to the selected
format's parser.  The NEWICK reader starts from a fresh namespace. -/
def read_dataset : Format → List Char → Except ParseError Dataset
  | .newick, input => (read_newick input ⟨[]⟩).1
  | .nexus, input => read_nexus input
  | .nexml, input => read_nexml input

/-- Modelled from the spec: `write_dataset`, dispatching to the selected
format's writer. -/
def write_dataset : Format → Dataset → List Char
  | .newick, d => write_newick d
  | .nexus, d => write_nexus d
  | .nexml, d => write_nexml d

/-- The composite `write ∘ read`: the serialization of the dataset parsed
from the input, when the parse succeeds. -/
def write_of_read (f : Format) (input : List Char) : Option (List Char) :=
  match read_dataset f input with
  | .ok d => some (write_dataset f d)
  | .error _ => none

theorem write_newick_single (tns : TaxonNamespace) (ts : List Tree) :
    write_newick ⟨[⟨tns, ts⟩]⟩ = (ts.map compose_newick_tree).flatten := by
  simp [write_newick]

/-- C1: round-trip fixed point for every supported format: whenever a
document `S` parses, writing the parsed dataset, re-parsing that output and
writing again yields bytes identical to the first write —
`write(read(write(read(S)))) = write(read(S))`. -/
theorem claim_C1_round_trip_fixed_point (f : Format) (S w : List Char)
    (h : write_of_read f S = some w) : write_of_read f w = some w := by
  cases f with
  | newick =>
      simp only [write_of_read, read_dataset] at h ⊢
      unfold read_newick at h
      cases hp : parseTrees (S.length + 1) S ⟨[]⟩ with
      | error e =>
          rw [hp] at h
          simp at h
      | ok p =>
          obtain ⟨ts, tns2⟩ := p
          rw [hp] at h
          simp only [write_dataset, write_newick_single, Option.some.injEq] at h
          have hwf := parseTrees_wf _ _ _ _ _ hp
          obtain ⟨tns3, hrt⟩ := read_newick_roundtrip ts ⟨[]⟩ hwf
          rw [← h, hrt]
          simp [write_dataset, write_newick_single]
  | nexus =>
      simp only [write_of_read, read_dataset] at h ⊢
      cases hr : read_nexus S with
      | error e =>
          rw [hr] at h
          simp at h
      | ok d =>
          rw [hr] at h
          simp only [write_dataset, Option.some.injEq] at h
          rw [← h, read_nexus_write d (read_nexus_wf S d hr)]
          simp [write_dataset]
  | nexml =>
      simp only [write_of_read, read_dataset] at h ⊢
      cases hr : read_nexml S with
      | error e =>
          rw [hr] at h
          simp at h
      | ok d =>
          rw [hr] at h
          simp only [write_dataset, Option.some.injEq] at h
          rw [← h, read_nexml_write d (read_nexml_wf S d hr)]
          simp [write_dataset]

/-- C1 witness: the NEWICK document `(A:1.50,B);` parses, its first write
normalizes the edge length to the canonical `(A:1.5,B);`, and that output is
a fixed point of `write ∘ read`. -/
theorem claim_C1_round_trip_fixed_point_witness :
    write_of_read Format.newick
        ['(', 'A', ':', '1', '.', '5', '0', ',', 'B', ')', ';']
      = some ['(', 'A', ':', '1', '.', '5', ',', 'B', ')', ';']
    ∧ write_of_read Format.newick ['(', 'A', ':', '1', '.', '5', ',', 'B', ')', ';']
      = some ['(', 'A', ':', '1', '.', '5', ',', 'B', ')', ';'] :=
  ⟨rfl, claim_C1_round_trip_fixed_point Format.newick
    ['(', 'A', ':', '1', '.', '5', '0', ',', 'B', ')', ';']
    ['(', 'A', ':', '1', '.', '5', ',', 'B', ')', ';'] rfl⟩

theorem blocks_content_eq : ∀ (bs1 bs2 : List TreesBlock),
    bs1.map (fun b => (b.taxa_block.labels, b.tree_list))
      = bs2.map (fun b => (b.taxa_block.labels, b.tree_list)) →
    bs1 = bs2 := by
  intro bs1
  induction bs1 with
  | nil =>
      intro bs2 h
      cases bs2 with
      | nil => rfl
      | cons b bs => simp at h
  | cons b1 bs1 ih =>
      intro bs2 h
      cases bs2 with
      | nil => simp at h
      | cons b2 bs2 =>
          simp only [List.map_cons, List.cons.injEq, Prod.mk.injEq] at h
          obtain ⟨⟨h1, h2⟩, h3⟩ := h
          obtain ⟨⟨l1⟩, t1⟩ := b1
          obtain ⟨⟨l2⟩, t2⟩ := b2
          simp only at h1 h2
          subst h1
          subst h2
          rw [ih bs2 h3]

/-- C2: writer determinism for every format: the serialized bytes are a
function of exactly the (taxon namespace ordering, tree list) content of the
dataset — two datasets with identical content serialize to byte-identical
output, with no dependence on hidden state. -/
theorem claim_C2_writer_determinism (f : Format) (d1 d2 : Dataset)
    (h : d1.trees_blocks.map (fun b => (b.taxa_block.labels, b.tree_list))
       = d2.trees_blocks.map (fun b => (b.taxa_block.labels, b.tree_list))) :
    write_dataset f d1 = write_dataset f d2 := by
  obtain ⟨bs1⟩ := d1
  obtain ⟨bs2⟩ := d2
  simp only at h
  rw [blocks_content_eq bs1 bs2 h]

/-- C2 witness: two structurally equal one-block datasets (a quoted-label
taxon with a canonical edge length) serialize identically under the NEXUS
writer. -/
theorem claim_C2_writer_determinism_witness :
    write_dataset Format.nexus
        ⟨[⟨⟨[['A', ' ', 'B']]⟩,
          [⟨Rooting.rooted, NTree.leaf ['A', ' ', 'B'] (some ⟨['1'], ['5']⟩)⟩]⟩]⟩
      = write_dataset Format.nexus
        ⟨[⟨⟨[['A', ' ', 'B']]⟩,
          [⟨Rooting.rooted, NTree.leaf ['A', ' ', 'B'] (some ⟨['1'], ['5']⟩)⟩]⟩]⟩ :=
  claim_C2_writer_determinism Format.nexus _ _ rfl

end DendroPy